import Mathlib

/-!
# The admin-watch proxy of shopware-cli

A shallow embedding of `cmd/extension/extension_admin_watch.go`: the request
router of the `redirect` handler, the rewriting of the bootstrap page (six
field substitutions and the asset URL rewrite), and the injection of two
bundle entries into the configuration manifest.

A Go `string` is a sequence of bytes.  Text is modelled as `List Char`, one
`Char` per byte; ASCII text is written as it stands.  The regular expressions
of the source contain ASCII literals, `\s` and `.` only, so matching byte by
byte finds the same matches as matching rune by rune.

The functions of the Go standard library that the handler calls are embedded
with it.  The case table of package unicode is not part of the repository:
the definitions that lower the case of a name take it as the parameter
`lowerTable`, and what is proved about them holds for every table.
-/

namespace AdminWatch

/-- A Go string: a list of bytes, each carried by a `Char`. -/
abbrev Str := List Char

/-! ## package strings -/

/-- Go `strings.HasPrefix`. -/
def HasPrefix (s p : Str) : Bool := p.isPrefixOf s

/-- Go `strings.TrimPrefix`. -/
def TrimPrefix (s p : Str) : Str := if p.isPrefixOf s then s.drop p.length else s

/-- Go `strings.HasSuffix`. -/
def HasSuffix (s p : Str) : Bool := p.reverse.isPrefixOf s.reverse

/-- Go `strings.TrimSuffix`. -/
def TrimSuffix (s p : Str) : Str :=
  if HasSuffix s p then s.take (s.length - p.length) else s

/-- Go `strings.Contains`. -/
def Contains : Str → Str → Bool
  | [], sub => sub.isPrefixOf []
  | c :: t, sub => sub.isPrefixOf (c :: t) || Contains t sub

/-! ## packages unicode/utf8, unicode and strings: lower case -/

/-- Go `utf8.RuneError`, U+FFFD. -/
def RuneError : Nat := 0xFFFD

/-- Go `utf8.DecodeRuneInString`: the rune at the start of the text and its
width in bytes.  The first byte gives the size of the encoding and the range
of the second byte (tables `first` and `acceptRanges`); a byte that starts no
encoding, a short encoding and a byte out of its range give `RuneError` with
width 1. -/
def DecodeRuneInString : Str → Nat × Nat
  | [] => (RuneError, 0)
  | s0 :: t =>
    let b0 := s0.toNat
    if b0 < 0x80 then (b0, 1)
    else if b0 < 0xC2 || 0xF4 < b0 then (RuneError, 1)
    else
      let lo := if b0 = 0xE0 then 0xA0 else if b0 = 0xF0 then 0x90 else 0x80
      let hi := if b0 = 0xED then 0x9F else if b0 = 0xF4 then 0x8F else 0xBF
      match t with
      | [] => (RuneError, 1)
      | s1 :: t1 =>
        let b1 := s1.toNat
        if b1 < lo || hi < b1 then (RuneError, 1)
        else if b0 < 0xE0 then (b0 % 32 * 64 + b1 % 64, 2)
        else
          match t1 with
          | [] => (RuneError, 1)
          | s2 :: t2 =>
            let b2 := s2.toNat
            if b2 < 0x80 || 0xBF < b2 then (RuneError, 1)
            else if b0 < 0xF0 then (b0 % 16 * 4096 + b1 % 64 * 64 + b2 % 64, 3)
            else
              match t2 with
              | [] => (RuneError, 1)
              | s3 :: _ =>
                let b3 := s3.toNat
                if b3 < 0x80 || 0xBF < b3 then (RuneError, 1)
                else (b0 % 8 * 262144 + b1 % 64 * 4096 + b2 % 64 * 64 + b3 % 64, 4)

/-- The runes of `for _, c := range s`, at most `n` of them: each step decodes
one rune and moves on by its width. -/
def rangeRunes : Nat → Str → List Nat
  | 0, _ => []
  | _, [] => []
  | n + 1, c :: t =>
    (DecodeRuneInString (c :: t)).1
      :: rangeRunes n (t.drop ((DecodeRuneInString (c :: t)).2 - 1))

/-- Go `utf8.AppendRune`: the encoding of a rune; a surrogate and a rune
beyond U+10FFFF are written as `RuneError`. -/
def AppendRune (r : Nat) : Str :=
  if r ≤ 0x7F then [Char.ofNat r]
  else if r ≤ 0x7FF then [Char.ofNat (0xC0 + r / 64), Char.ofNat (0x80 + r % 64)]
  else if 0x10FFFF < r || (0xD800 ≤ r && r ≤ 0xDFFF) then ['\xef', '\xbf', '\xbd']
  else if r ≤ 0xFFFF then
    [Char.ofNat (0xE0 + r / 4096), Char.ofNat (0x80 + r / 64 % 64), Char.ofNat (0x80 + r % 64)]
  else
    [Char.ofNat (0xF0 + r / 262144), Char.ofNat (0x80 + r / 4096 % 64),
      Char.ofNat (0x80 + r / 64 % 64), Char.ofNat (0x80 + r % 64)]

/-- Go `strings.Map` for a mapping that drops no rune: the runes of the text,
each mapped and encoded.  (The source copies the bytes of a rune that the
mapping keeps; for a rune decoded from a valid encoding these are the bytes
`AppendRune` writes.  A byte that is no encoding is read as `RuneError` and
written as what the mapping makes of `RuneError`.) -/
def Map (mapping : Nat → Nat) (s : Str) : Str :=
  (rangeRunes s.length s).flatMap (fun c => AppendRune (mapping c))

/-- Go `unicode.ToLower`.  The table `unicode.CaseRanges` is not part of the
repository: `lowerTable r` stands for `unicode.To(unicode.LowerCase, r)`, which
the function returns for a rune beyond ASCII. -/
def unicodeToLower (lowerTable : Nat → Nat) (r : Nat) : Nat :=
  if r ≤ 0x7F then (if 65 ≤ r && r ≤ 90 then r + 32 else r) else lowerTable r

/-- The branch of `strings.ToLower` for a text of ASCII bytes: the bytes `A`
to `Z` are lowered, the others kept. -/
def lowerASCII (s : Str) : Str := s.map Char.toLower

/-- Go `strings.ToLower`: a text of ASCII bytes is lowered byte by byte, any
other text rune by rune with `unicode.ToLower`. -/
def ToLower (lowerTable : Nat → Nat) (s : Str) : Str :=
  if s.all (fun c => c.toNat < 0x80) then lowerASCII s
  else Map (unicodeToLower lowerTable) s

/-- A case table for the examples: the entries of `unicode.CaseRanges` for the
runes below U+0100 (U+00C0 to U+00DE without U+00D7 go 32 up) and no other. -/
def latin1Lower (r : Nat) : Nat :=
  if 0xC0 ≤ r && r ≤ 0xDE && r ≠ 0xD7 then r + 32 else r

/-! ## package strings, continued -/

/-- Go `strings.Cut` with a one-byte separator: the text before the first
separator, the text after it, and whether the separator was found. -/
def Cut (sep : Char) : Str → Str × Str × Bool
  | [] => ([], [], false)
  | c :: t =>
    if c = sep then ([], t, true)
    else
      let r := Cut sep t
      (c :: r.1, r.2.1, r.2.2)

/-- Go `strings.Count` with a one-byte separator. -/
def Count (sep : Char) (s : Str) : Nat := s.count sep

/-- Go `strings.LastIndex` with a one-byte separator, as a split: the text
before the last separator and the text after it. -/
def cutLast (sep : Char) (s : Str) : Option (Str × Str) :=
  let r := Cut sep s.reverse
  if r.2.2 then some (r.2.1.reverse, r.1.reverse) else none

/-- Go `strings.Index(s, sub)`, as a split: the text before the first
occurrence of `sub` and the text from that occurrence on. -/
def splitAt (sub : Str) : Str → Option (Str × Str)
  | [] => if sub.isPrefixOf [] then some ([], []) else none
  | c :: t =>
    if sub.isPrefixOf (c :: t) then some ([], c :: t)
    else (splitAt sub t).map (fun r => (c :: r.1, r.2))

/-! ## package net/url -/

/-- The `encoding` modes of net/url. -/
inductive encoding where
  | encodePath
  | encodePathSegment
  | encodeHost
  | encodeZone
  | encodeUserPassword
  | encodeQueryComponent
  | encodeFragment
  deriving DecidableEq, Repr

/-- The `Userinfo` of net/url. -/
structure Userinfo where
  username : Str
  password : Str
  passwordSet : Bool
  deriving DecidableEq, Repr

/-- The `URL` of net/url. -/
structure URL where
  Scheme : Str
  Opaque : Str
  User : Option Userinfo
  Host : Str
  Path : Str
  RawPath : Str
  OmitHost : Bool
  ForceQuery : Bool
  RawQuery : Str
  Fragment : Str
  RawFragment : Str
  deriving DecidableEq, Repr

/-- The zero value of `URL`. -/
def URL.zero : URL :=
  { Scheme := [], Opaque := [], User := none, Host := [], Path := [], RawPath := [],
    OmitHost := false, ForceQuery := false, RawQuery := [], Fragment := [],
    RawFragment := [] }

/-- An ASCII letter or digit. -/
def isAlnum (c : Char) : Bool :=
  ('a' ≤ c && c ≤ 'z') || ('A' ≤ c && c ≤ 'Z') || ('0' ≤ c && c ≤ '9')

/-- The `ishex` of net/url. -/
def ishex (c : Char) : Bool :=
  ('0' ≤ c && c ≤ '9') || ('a' ≤ c && c ≤ 'f') || ('A' ≤ c && c ≤ 'F')

/-- The `unhex` of net/url. -/
def unhex (c : Char) : Nat :=
  if '0' ≤ c && c ≤ '9' then c.toNat - 48
  else if 'a' ≤ c && c ≤ 'f' then c.toNat - 97 + 10
  else if 'A' ≤ c && c ≤ 'F' then c.toNat - 65 + 10
  else 0

/-- The `shouldEscape` of net/url. -/
def shouldEscape (c : Char) (mode : encoding) : Bool :=
  if isAlnum c then false
  else if (mode = .encodeHost || mode = .encodeZone) && c ∈ "!$&'()*+,;=:[]<>\"".toList then false
  else if c ∈ "-_.~".toList then false
  else if c ∈ "$&+,/:;=?@".toList then
    match mode with
    | .encodePath => c = '?'
    | .encodePathSegment => c = '/' || c = ';' || c = ',' || c = '?'
    | .encodeUserPassword => c = '@' || c = '/' || c = '?' || c = ':'
    | .encodeQueryComponent => true
    | .encodeFragment => false
    | _ => true
  else if mode = .encodeFragment && c ∈ "!()*".toList then false
  else true

/-- The digit of `upperhex` of net/url at index `n % 16`. -/
def upperhex (n : Nat) : Char :=
  "0123456789ABCDEF".toList.getD (n % 16) '0'

/-- The `escape` of net/url. -/
def escape (s : Str) (mode : encoding) : Str :=
  s.flatMap (fun c =>
    if c = ' ' && mode = .encodeQueryComponent then ['+']
    else if shouldEscape c mode then ['%', upperhex (c.toNat / 16), upperhex c.toNat]
    else [c])

/-- The `unescape` of net/url; `none` is an `EscapeError` or an
`InvalidHostError`. -/
def unescape (mode : encoding) : Str → Option Str
  | [] => some []
  | c :: rest =>
    if c = '%' then
      match rest with
      | h1 :: h2 :: t =>
        if !(ishex h1 && ishex h2) then none
        else if mode = .encodeHost && unhex h1 < 8 && !(h1 = '2' && h2 = '5') then none
        else if mode = .encodeZone && !(h1 = '2' && h2 = '5')
            && Char.ofNat (unhex h1 * 16 + unhex h2) ≠ ' '
            && shouldEscape (Char.ofNat (unhex h1 * 16 + unhex h2)) .encodeHost then none
        else (unescape mode t).map (fun r => Char.ofNat (unhex h1 * 16 + unhex h2) :: r)
      | _ => none
    else if c = '+' then
      (unescape mode rest).map
        (fun r => (if mode = .encodeQueryComponent then ' ' else '+') :: r)
    else if (mode = .encodeHost || mode = .encodeZone) && c.toNat < 128
        && shouldEscape c .encodeHost then none
    else (unescape mode rest).map (fun r => c :: r)

/-- The `validEncoded` of net/url. -/
def validEncoded (s : Str) (mode : encoding) : Bool :=
  s.all (fun c => c ∈ "!$&'()*+,;=:@[]%".toList || !shouldEscape c mode)

/-- The `stringContainsCTLByte` of net/url. -/
def stringContainsCTLByte (s : Str) : Bool :=
  s.any (fun c => c.toNat < 32 || c.toNat = 127)

/-- The loop of `getScheme` of net/url from index `i` on: `acc` holds the bytes
read so far, `whole` the raw URL.  `none` is the error "missing protocol
scheme". -/
def getSchemeLoop (whole : Str) : Str → Str → Option (Str × Str)
  | _, [] => some ([], whole)
  | acc, c :: t =>
    if ('a' ≤ c && c ≤ 'z') || ('A' ≤ c && c ≤ 'Z') then getSchemeLoop whole (acc ++ [c]) t
    else if ('0' ≤ c && c ≤ '9') || c = '+' || c = '-' || c = '.' then
      if acc = [] then some ([], whole) else getSchemeLoop whole (acc ++ [c]) t
    else if c = ':' then
      if acc = [] then none else some (acc, t)
    else some ([], whole)

/-- The `getScheme` of net/url. -/
def getScheme (rawURL : Str) : Option (Str × Str) := getSchemeLoop rawURL [] rawURL

/-- The `validOptionalPort` of net/url. -/
def validOptionalPort : Str → Bool
  | [] => true
  | c :: t => c = ':' && t.all (fun b => '0' ≤ b && b ≤ '9')

/-- The `validUserinfo` of net/url. -/
def validUserinfo (s : Str) : Bool :=
  s.all (fun c => ('A' ≤ c && c ≤ 'Z') || ('a' ≤ c && c ≤ 'z') || ('0' ≤ c && c ≤ '9')
    || c ∈ "-._:~!$&'()*+,;=%@".toList)

/-- The `parseHost` of net/url, as in the releases of Go that take the text
between brackets as it stands and the text after the last colon as the port
(later releases also require an IPv6 address between the brackets). -/
def parseHost (host : Str) : Option Str :=
  if HasPrefix host ['['] then
    match cutLast ']' host with
    | none => none
    | some (inner, colonPort) =>
      if !validOptionalPort colonPort then none
      else
        match splitAt "%25".toList inner with
        | some (h1, zone) =>
          (unescape .encodeHost h1).bind (fun host1 =>
            (unescape .encodeZone zone).bind (fun host2 =>
              (unescape .encodeHost (']' :: colonPort)).map (fun host3 =>
                host1 ++ host2 ++ host3)))
        | none => unescape .encodeHost host
  else
    match cutLast ':' host with
    | some (_, port) =>
      if !validOptionalPort (':' :: port) then none else unescape .encodeHost host
    | none => unescape .encodeHost host

/-- The `parseAuthority` of net/url. -/
def parseAuthority (authority : Str) : Option (Option Userinfo × Str) :=
  match cutLast '@' authority with
  | none => (parseHost authority).map (fun h => (none, h))
  | some (userinfo, hostPart) =>
    (parseHost hostPart).bind (fun host =>
      if !validUserinfo userinfo then none
      else if !(userinfo.contains ':') then
        (unescape .encodeUserPassword userinfo).map (fun u =>
          (some { username := u, password := [], passwordSet := false }, host))
      else
        let c := Cut ':' userinfo
        (unescape .encodeUserPassword c.1).bind (fun u =>
          (unescape .encodeUserPassword c.2.1).map (fun p =>
            (some { username := u, password := p, passwordSet := true }, host))))

/-- The `setPath` of net/url. -/
def URL.setPath (u : URL) (p : Str) : Option URL :=
  (unescape .encodePath p).map (fun path =>
    { u with Path := path, RawPath := if p = escape path .encodePath then [] else p })

/-- The `setFragment` of net/url. -/
def URL.setFragment (u : URL) (f : Str) : Option URL :=
  (unescape .encodeFragment f).map (fun frag =>
    { u with Fragment := frag,
             RawFragment := if f = escape frag .encodeFragment then [] else f })

/-- The `parse` of net/url with `viaRequest` false.  The scheme that
`getScheme` returns holds ASCII bytes only, so `strings.ToLower` lowers it by
its ASCII branch (`ToLower_scheme`). -/
def parse (rawURL : Str) : Option URL :=
  if stringContainsCTLByte rawURL then none
  else if rawURL = ['*'] then some { URL.zero with Path := ['*'] }
  else
    match getScheme rawURL with
    | none => none
    | some (scheme, rest0) =>
      let url : URL := { URL.zero with Scheme := lowerASCII scheme }
      let forceQuery := HasSuffix rest0 ['?'] && Count '?' rest0 = 1
      let rest1 := if forceQuery then rest0.take (rest0.length - 1) else (Cut '?' rest0).1
      let url := if forceQuery then { url with ForceQuery := true }
                 else { url with RawQuery := (Cut '?' rest0).2.1 }
      if !HasPrefix rest1 ['/'] && url.Scheme ≠ [] then some { url with Opaque := rest1 }
      else if !HasPrefix rest1 ['/'] && (Cut '/' rest1).1.contains ':' then none
      else if (url.Scheme ≠ [] || !HasPrefix rest1 "///".toList)
          && HasPrefix rest1 "//".toList then
        let authority := (rest1.drop 2).takeWhile (fun c => c ≠ '/')
        let rest := (rest1.drop 2).dropWhile (fun c => c ≠ '/')
        match parseAuthority authority with
        | none => none
        | some (user, host) => URL.setPath { url with User := user, Host := host } rest
      else if url.Scheme ≠ [] && HasPrefix rest1 ['/'] then
        URL.setPath { url with OmitHost := true } rest1
      else URL.setPath url rest1

/-- The `Parse` of net/url; `none` is a parse error. -/
def Parse (rawURL : Str) : Option URL :=
  let c := Cut '#' rawURL
  match parse c.1 with
  | none => none
  | some url => if c.2.1 = [] then some url else URL.setFragment url c.2.1

/-- The `EscapedPath` method of net/url. -/
def URL.EscapedPath (u : URL) : Str :=
  if u.RawPath ≠ [] && validEncoded u.RawPath .encodePath
      && unescape .encodePath u.RawPath = some u.Path then u.RawPath
  else if u.Path = ['*'] then ['*']
  else escape u.Path .encodePath

/-- The `EscapedFragment` method of net/url. -/
def URL.EscapedFragment (u : URL) : Str :=
  if u.RawFragment ≠ [] && validEncoded u.RawFragment .encodeFragment
      && unescape .encodeFragment u.RawFragment = some u.Fragment then u.RawFragment
  else escape u.Fragment .encodeFragment

/-- The `String` method of `Userinfo` of net/url. -/
def Userinfo.String (u : Userinfo) : Str :=
  escape u.username .encodeUserPassword ++
    (if u.passwordSet then ':' :: escape u.password .encodeUserPassword else [])

/-- The `String` method of `URL` of net/url. -/
def URL.String (u : URL) : Str :=
  let buf0 : Str := if u.Scheme ≠ [] then u.Scheme ++ [':'] else []
  let buf1 : Str :=
    if u.Opaque ≠ [] then buf0 ++ u.Opaque
    else
      let auth : Str :=
        if u.Scheme ≠ [] || u.Host ≠ [] || u.User.isSome then
          if u.OmitHost && u.Host = [] && u.User.isNone then []
          else
            (if u.Host ≠ [] || u.Path ≠ [] || u.User.isSome then "//".toList else []) ++
            (match u.User with
             | some ui => ui.String ++ ['@']
             | none => []) ++
            (if u.Host ≠ [] then escape u.Host .encodeHost else [])
        else []
      let path := u.EscapedPath
      let slash : Str :=
        if path ≠ [] && path.head? ≠ some '/' && u.Host ≠ [] then ['/'] else []
      let buf := buf0 ++ auth ++ slash
      let dotSlash : Str :=
        if buf = [] && (Cut '/' path).1.contains ':' then "./".toList else []
      buf ++ dotSlash ++ path
  let buf2 : Str :=
    if u.ForceQuery || u.RawQuery ≠ [] then buf1 ++ ['?'] ++ u.RawQuery else buf1
  if u.Fragment ≠ [] then buf2 ++ ['#'] ++ u.EscapedFragment else buf2

/-! ## package regexp -/

/-- The regular expressions the source uses: literals, `\s`, `.`,
concatenation, alternation, `?` and `*`.  Groups only capture, so they are
not represented. -/
inductive Re where
  | lit (s : Str)
  | space
  | dot
  | seq (a b : Re)
  | alt (a b : Re)
  | opt (a : Re)
  | star (a : Re)

/-- The class `\s` of Go regular expressions: `[\t\n\f\r ]`. -/
def isSpace (c : Char) : Bool :=
  c = '\t' || c = '\n' || c = '\x0c' || c = '\r' || c = ' '

/-- Greedy iteration: each way to run `f` once more (consuming something)
comes before stopping here.  `n` bounds the number of iterations. -/
def starRun (f : Str → List Str) : Nat → Str → List Str
  | 0, s => [s]
  | n + 1, s =>
    ((f s).filter (fun t => decide (t.length < s.length))).flatMap (starRun f n) ++ [s]

/-- All the ways `re` matches at the start of `s`, each given by the text left
after the match, in the order of preference of Go's leftmost-first matching
(earlier alternative first, greedy `?` and `*`). -/
def Re.run : Re → Str → List Str
  | .lit p, s => if p.isPrefixOf s then [s.drop p.length] else []
  | .space, [] => []
  | .space, x :: t => if isSpace x then [t] else []
  | .dot, [] => []
  | .dot, x :: t => if x = '\n' then [] else [t]
  | .seq a b, s => (a.run s).flatMap b.run
  | .alt a b, s => a.run s ++ b.run s
  | .opt a, s => a.run s ++ [s]
  | .star a, s => starRun a.run s.length s

/-- Concatenation of several expressions. -/
def Re.cat : List Re → Re
  | [] => .lit []
  | [r] => r
  | r :: rs => .seq r (Re.cat rs)

/-- The preferred match of `re` at the start of `s`: the text left after it. -/
def matchHere (re : Re) (s : Str) : Option Str := (re.run s).head?

/-- The leftmost match of `re` in `s`: the text before it, the matched text and
the text after it. -/
def firstMatch (re : Re) : Str → Option (Str × Str × Str)
  | [] =>
    match matchHere re [] with
    | some _ => some ([], [], [])
    | none => none
  | c :: t =>
    match matchHere re (c :: t) with
    | some rest => some ([], (c :: t).take ((c :: t).length - rest.length), rest)
    | none => (firstMatch re t).map (fun r => (c :: r.1, r.2.1, r.2.2))

/-- The loop of `replaceAll` of package regexp: `justMatched` says that the
text starts right where the last match ended (an empty match there gets no
replacement); `n` bounds the number of matches. -/
def replaceAll (re : Re) (repl : Str → Str) : Nat → Bool → Str → Str
  | 0, _, s => s
  | n + 1, justMatched, s =>
    match firstMatch re s with
    | none => s
    | some (before, [], after) =>
      before ++ (if before = [] && justMatched then [] else repl []) ++
        (match after with
         | [] => []
         | c :: t => c :: replaceAll re repl n false t)
    | some (before, m, after) => before ++ repl m ++ replaceAll re repl n true after

/-- Go `(*Regexp).ReplaceAllStringFunc`. -/
def ReplaceAllStringFunc (re : Re) (src : Str) (repl : Str → Str) : Str :=
  replaceAll re repl (src.length + 1) false src

/-- Go `(*Regexp).ReplaceAllString` for a replacement text without `$`. -/
def ReplaceAllString (re : Re) (src repl : Str) : Str :=
  replaceAll re (fun _ => repl) (src.length + 1) false src

/-! ## extension_admin_watch.go -/

/-- The pattern `(?m)host:\s'.*,`. -/
def hostRegExp : Re :=
  Re.cat [.lit "host:".toList, .space, .lit "'".toList, .star .dot, .lit ",".toList]

/-- The pattern `(?m)port:\s.*,`. -/
def portRegExp : Re := Re.cat [.lit "port:".toList, .space, .star .dot, .lit ",".toList]

/-- The pattern `(?m)scheme:\s.*,`. -/
def schemeRegExp : Re := Re.cat [.lit "scheme:".toList, .space, .star .dot, .lit ",".toList]

/-- The pattern `(?m)schemeAndHttpHost:\s.*,`. -/
def schemeAndHttpHostRegExp : Re :=
  Re.cat [.lit "schemeAndHttpHost:".toList, .space, .star .dot, .lit ",".toList]

/-- The pattern `(?m)uri:\s.*,`. -/
def uriRegExp : Re := Re.cat [.lit "uri:".toList, .space, .star .dot, .lit ",".toList]

/-- The pattern `(?m)assetPath:\s.*`. -/
def assetPathRegExp : Re := Re.cat [.lit "assetPath:".toList, .space, .star .dot]

/-- The pattern `(?m)(src|href|content)="(https?.*\/bundles.*)"`. -/
def assetRegExp : Re :=
  Re.cat [.alt (.lit "src".toList) (.alt (.lit "href".toList) (.lit "content".toList)),
    .lit "=\"".toList, .lit "http".toList, .opt (.lit "s".toList), .star .dot,
    .lit "/bundles".toList, .star .dot, .lit "\"".toList]

/-- The six field substitutions of the admin branch (lines 105-110), in the
order of the source. -/
def rewriteFields (body : Str) : Str :=
  let bodyStr := ReplaceAllString hostRegExp body "host: 'localhost',".toList
  let bodyStr := ReplaceAllString portRegExp bodyStr "port: 8080,".toList
  let bodyStr := ReplaceAllString schemeRegExp bodyStr "scheme: 'http',".toList
  let bodyStr := ReplaceAllString schemeAndHttpHostRegExp bodyStr
    "schemeAndHttpHost: 'http://localhost:8080',".toList
  let bodyStr := ReplaceAllString uriRegExp bodyStr "uri: 'http://localhost:8080/admin',".toList
  ReplaceAllString assetPathRegExp bodyStr "assetPath: 'http://localhost:8080'".toList

/-- The callback given to `assetRegExp.ReplaceAllStringFunc` (lines 112-138). -/
def assetCallback (s : Str) : Str :=
  let firstPart : Str :=
    if HasPrefix s "href=\"".toList then "href=\"".toList
    else if HasPrefix s "content=\"".toList then "content=\"".toList
    else if HasPrefix s "src=\"".toList then "src=\"".toList
    else []
  let org := s
  let s := TrimPrefix s firstPart
  let s := TrimSuffix s "\"".toList
  match Parse s with
  | none => org
  | some parsedUrl =>
    firstPart ++
      URL.String { parsedUrl with Host := "localhost:8080".toList, Scheme := "http".toList }
      ++ "\"".toList

/-- The asset URL rewrite of the admin branch (line 112). -/
def rewriteAssets (bodyStr : Str) : Str :=
  ReplaceAllStringFunc assetRegExp bodyStr assetCallback

/-- The body the admin branch writes for the page body it read from the
backend (lines 103-138). -/
def RewriteBootstrapHtml (body : Str) : Str := rewriteAssets (rewriteFields body)

/-- The `AssetCompileResult` of package extension, as far as the handler reads
it. -/
structure AssetCompileResult where
  Name : Str
  Entrypoint : Str
  JsFile : Str
  CssFile : Str

/-- What the `redirect` handler does with a request, one constructor per
branch of lines 71-215. -/
inductive Handling where
  /-- Line 72: `es.ServeHTTP`. -/
  | eventStream
  /-- Line 82: `http.ServeFile` below the `static` directory next to the
  entry point's parent; the argument is `newFilePath`. -/
  | staticFile (newFilePath : Str)
  /-- Line 87: `http.Get` of the argument, then the rewrite of the page. -/
  | adminPage (fetchUrl : Str)
  /-- Line 150: a GET of the argument, then the manifest injection. -/
  | configManifest (proxyUrl : Str)
  /-- Line 197: `http.ServeFile` of the compiled CSS file. -/
  | extensionCss (file : Str)
  /-- Line 202: `http.ServeFile` of the compiled JS file. -/
  | extensionJs (file : Str)
  /-- Line 208: the inline reload script. -/
  | liveReload
  /-- Line 215: the request is forwarded to the backend. -/
  | forward
  deriving DecidableEq, Repr

/-- The `assetPrefix` of line 76. -/
def assetPrefix (lowerTable : Nat → Nat) (compileResult : AssetCompileResult) : Str :=
  "/bundles/".toList ++ ToLower lowerTable compileResult.Name ++ "/static/".toList

/-- The URL the admin branch fetches (line 87): `fmt.Sprintf("%s/admin", args[1])`. -/
def adminFetchUrl (arg1 : Str) : Str := arg1 ++ "/admin".toList

/-- The branch selection of the `redirect` handler (lines 71-215): `arg1` is
`args[1]`, `targetShopUrl` the URL parsed at line 60, `path` is `req.URL.Path`;
`lowerTable` is the case table of package unicode. -/
def redirect (lowerTable : Nat → Nat) (arg1 : Str) (targetShopUrl : URL)
    (compileResult : AssetCompileResult) (path : Str) : Handling :=
  if HasPrefix path "/events".toList then .eventStream
  else if HasPrefix path (assetPrefix lowerTable compileResult) then
    .staticFile (TrimPrefix path (assetPrefix lowerTable compileResult))
  else if path = targetShopUrl.Path ++ "/admin".toList then .adminPage (adminFetchUrl arg1)
  else if path = targetShopUrl.Path ++ "/api/_info/config".toList then
    .configManifest (targetShopUrl.Scheme ++ "://".toList ++ targetShopUrl.Host ++ path)
  else if path = "/extension.css".toList then .extensionCss compileResult.CssFile
  else if path = "/extension.js".toList then .extensionJs compileResult.JsFile
  else if path = "/live-reload.js".toList then .liveReload
  else .forward

/-- The target URL of line 60: `url.Parse(strings.TrimSuffix(args[1], "/"))`. -/
def parseTarget (arg1 : Str) : Option URL := Parse (TrimSuffix arg1 "/".toList)

/-- The handler of the command for a request path, once the target URL has
been parsed (lines 60-68); `none` is the error return of line 63. -/
def serve (lowerTable : Nat → Nat) (arg1 : Str) (compileResult : AssetCompileResult)
    (path : Str) : Option Handling :=
  (parseTarget arg1).map
    (fun targetShopUrl => redirect lowerTable arg1 targetShopUrl compileResult path)

/-! ## package encoding/json and the manifest -/

/-- A JSON text that the scanner of encoding/json accepts, as the value it
denotes: an object keeps its members in the order of the text, duplicates
included. -/
inductive Json where
  | null
  | bool (b : Bool)
  | num (text : Str)
  | str (s : Str)
  | arr (xs : List Json)
  | obj (members : List (Str × Json))

/-- The value of the first member of an object with the given name. -/
def Json.member (name : Str) : Json → Option Json
  | .obj members => members.lookup name
  | _ => none

/-- The names of the members of an object. -/
def Json.keys : Json → List Str
  | .obj members => members.map Prod.fst
  | _ => []

/-- The type `adminBundlesInfoAsset` (lines 251-254).  A slice is `none` when
it is nil. -/
structure adminBundlesInfoAsset where
  Css : Option (List Str)
  Js : Option (List Str)
  deriving DecidableEq, Repr

/-- A Go `map[string]adminBundlesInfoAsset` that is not nil: its entries, read
and written by key. -/
abbrev BundleMap := List (Str × adminBundlesInfoAsset)

/-- Go `m[k]` with the comma-ok form. -/
def mapGet (m : BundleMap) (k : Str) : Option adminBundlesInfoAsset := m.lookup k

/-- Go `m[k] = v`: the entry under `k` is replaced, or added when there is
none. -/
def mapSet : BundleMap → Str → adminBundlesInfoAsset → BundleMap
  | [], k, v => [(k, v)]
  | (k0, v0) :: t, k, v => if k0 = k then (k, v) :: t else (k0, v0) :: mapSet t k v

/-- The anonymous struct of the field `AdminWorker` (lines 241-244). -/
structure AdminWorkerInfo where
  EnableAdminWorker : Bool
  Transports : Option (List Str)
  deriving DecidableEq, Repr

/-- The anonymous struct of the field `Settings` (lines 246-248). -/
structure SettingsInfo where
  EnableUrlFeature : Bool
  deriving DecidableEq, Repr

/-- The type `adminBundlesInfo` (lines 238-249).  `Bundles` is `none` when the
map is nil. -/
structure adminBundlesInfo where
  Version : Str
  VersionRevision : Str
  AdminWorker : AdminWorkerInfo
  Bundles : Option BundleMap
  Settings : SettingsInfo
  deriving DecidableEq, Repr

/-- The zero value of `adminBundlesInfo`, which `var bundleInfo` declares
(line 170). -/
def adminBundlesInfo.zero : adminBundlesInfo :=
  { Version := [], VersionRevision := [],
    AdminWorker := { EnableAdminWorker := false, Transports := none },
    Bundles := none, Settings := { EnableUrlFeature := false } }

/-- Whether a member name of the JSON text selects the struct field with the
(ASCII) JSON name `name`: encoding/json compares them under Unicode simple case
folding, in which `s` also folds with U+017F (bytes C5 BF) and `k` with U+212A
(bytes E2 84 AA). -/
def equalFold : Str → Str → Bool
  | [], [] => true
  | [], _ :: _ => false
  | _ :: _, [] => false
  | n :: ns, k :: ks =>
    if n.toUpper = k.toUpper then equalFold ns ks
    else if n.toUpper = 'S' then
      match ks with
      | k2 :: ks2 => k = '\xc5' && k2 = '\xbf' && equalFold ns ks2
      | [] => false
    else if n.toUpper = 'K' then
      match ks with
      | k2 :: k3 :: ks3 => k = '\xe2' && k2 = '\x84' && k3 = '\xaa' && equalFold ns ks3
      | _ => false
    else false

/-- Decoding a JSON value into a `string`: `null` leaves the field as it is,
a value of another kind is an `UnmarshalTypeError` (`none`). -/
def decodeString (cur : Str) : Json → Option Str
  | .str s => some s
  | .null => some cur
  | _ => none

/-- Decoding a JSON value into a `bool`. -/
def decodeBool (cur : Bool) : Json → Option Bool
  | .bool b => some b
  | .null => some cur
  | _ => none

/-- Decoding the elements of an array into the elements of a `[]string`, each
from the zero value. -/
def decodeElems : List Json → Option (List Str)
  | [] => some []
  | j :: t => (decodeString [] j).bind (fun s => (decodeElems t).map (fun r => s :: r))

/-- Decoding a JSON value into a `[]string`: an array gives a slice that is
not nil, `null` the nil slice. -/
def decodeStrings : Json → Option (Option (List Str))
  | .arr xs => (decodeElems xs).map some
  | .null => some none
  | _ => none

/-- Decoding one member of an object into an `adminBundlesInfoAsset`. -/
def decodeAssetMember (a : adminBundlesInfoAsset) (kv : Str × Json) :
    Option adminBundlesInfoAsset :=
  if equalFold "css".toList kv.1 then (decodeStrings kv.2).map (fun v => { a with Css := v })
  else if equalFold "js".toList kv.1 then (decodeStrings kv.2).map (fun v => { a with Js := v })
  else some a

/-- Decoding a JSON value into an `adminBundlesInfoAsset`. -/
def decodeAsset (cur : adminBundlesInfoAsset) : Json → Option adminBundlesInfoAsset
  | .obj members => members.foldlM decodeAssetMember cur
  | .null => some cur
  | _ => none

/-- Decoding a JSON value into the map `Bundles`: an object is decoded entry
by entry into the map (made when it is nil), each entry from the zero asset;
`null` gives the nil map. -/
def decodeBundles (cur : Option BundleMap) : Json → Option (Option BundleMap)
  | .obj members =>
    (members.foldlM
      (fun (m : BundleMap) (kv : Str × Json) =>
        (decodeAsset { Css := none, Js := none } kv.2).map (fun a => mapSet m kv.1 a))
      (cur.getD [])).map some
  | .null => some none
  | _ => none

/-- Decoding one member of an object into the struct of `AdminWorker`. -/
def decodeAdminWorkerMember (a : AdminWorkerInfo) (kv : Str × Json) : Option AdminWorkerInfo :=
  if equalFold "enableAdminWorker".toList kv.1 then
    (decodeBool a.EnableAdminWorker kv.2).map (fun v => { a with EnableAdminWorker := v })
  else if equalFold "transports".toList kv.1 then
    (decodeStrings kv.2).map (fun v => { a with Transports := v })
  else some a

/-- Decoding a JSON value into the struct of `AdminWorker`. -/
def decodeAdminWorker (cur : AdminWorkerInfo) : Json → Option AdminWorkerInfo
  | .obj members => members.foldlM decodeAdminWorkerMember cur
  | .null => some cur
  | _ => none

/-- Decoding one member of an object into the struct of `Settings`. -/
def decodeSettingsMember (a : SettingsInfo) (kv : Str × Json) : Option SettingsInfo :=
  if equalFold "enableUrlFeature".toList kv.1 then
    (decodeBool a.EnableUrlFeature kv.2).map (fun v => { a with EnableUrlFeature := v })
  else some a

/-- Decoding a JSON value into the struct of `Settings`. -/
def decodeSettings (cur : SettingsInfo) : Json → Option SettingsInfo
  | .obj members => members.foldlM decodeSettingsMember cur
  | .null => some cur
  | _ => none

/-- Decoding one member of an object into an `adminBundlesInfo`: a member
whose name selects no field is skipped. -/
def decodeInfoMember (a : adminBundlesInfo) (kv : Str × Json) : Option adminBundlesInfo :=
  if equalFold "version".toList kv.1 then
    (decodeString a.Version kv.2).map (fun v => { a with Version := v })
  else if equalFold "versionRevision".toList kv.1 then
    (decodeString a.VersionRevision kv.2).map (fun v => { a with VersionRevision := v })
  else if equalFold "adminWorker".toList kv.1 then
    (decodeAdminWorker a.AdminWorker kv.2).map (fun v => { a with AdminWorker := v })
  else if equalFold "bundles".toList kv.1 then
    (decodeBundles a.Bundles kv.2).map (fun v => { a with Bundles := v })
  else if equalFold "settings".toList kv.1 then
    (decodeSettings a.Settings kv.2).map (fun v => { a with Settings := v })
  else some a

/-- Decoding a JSON value into an `adminBundlesInfo`. -/
def decodeInfo (cur : adminBundlesInfo) : Json → Option adminBundlesInfo
  | .obj members => members.foldlM decodeInfoMember cur
  | .null => some cur
  | _ => none

/-- The error of `json.Unmarshal`. -/
inductive UnmarshalError where
  /-- The body is not a JSON text (`SyntaxError`). -/
  | syntaxError
  /-- A value has the wrong kind for the Go value it is decoded into
  (`UnmarshalTypeError`). -/
  | typeError
  deriving DecidableEq, Repr

/-- The call `json.Unmarshal(body, &bundleInfo)` of line 171.  The body is
`none` when the scanner rejects it, and else the JSON value it denotes. -/
def Unmarshal (body : Option Json) : Except UnmarshalError adminBundlesInfo :=
  match body with
  | none => .error .syntaxError
  | some j =>
    match decodeInfo adminBundlesInfo.zero j with
    | none => .error .typeError
    | some m => .ok m

/-- The order of the bytes of two strings, by which `json.Marshal` sorts the
keys of a map. -/
def strLe : Str → Str → Bool
  | [], _ => true
  | _ :: _, [] => false
  | a :: s, b :: t => a < b || (a = b && strLe s t)

/-- Insertion of an entry into a list of entries sorted by key. -/
def insertByKey (e : Str × Json) : List (Str × Json) → List (Str × Json)
  | [] => [e]
  | x :: t => if strLe e.1 x.1 then e :: x :: t else x :: insertByKey e t

/-- Entries sorted by key. -/
def sortByKey : List (Str × Json) → List (Str × Json)
  | [] => []
  | e :: t => insertByKey e (sortByKey t)

/-- Encoding of a `[]string`: `null` for the nil slice. -/
def encodeStrings : Option (List Str) → Json
  | none => .null
  | some xs => .arr (xs.map Json.str)

/-- Encoding of an `adminBundlesInfoAsset`. -/
def encodeAsset (a : adminBundlesInfoAsset) : Json :=
  .obj [("css".toList, encodeStrings a.Css), ("js".toList, encodeStrings a.Js)]

/-- Encoding of the map `Bundles`: `null` for the nil map, else an object with
the keys sorted. -/
def encodeBundles : Option BundleMap → Json
  | none => .null
  | some m => .obj (sortByKey (m.map (fun e => (e.1, encodeAsset e.2))))

/-- The call `json.Marshal(bundleInfo)` of line 186, as the JSON value of the
text it returns. -/
def Marshal (m : adminBundlesInfo) : Json :=
  .obj [("version".toList, .str m.Version),
    ("versionRevision".toList, .str m.VersionRevision),
    ("adminWorker".toList,
      .obj [("enableAdminWorker".toList, .bool m.AdminWorker.EnableAdminWorker),
        ("transports".toList, encodeStrings m.AdminWorker.Transports)]),
    ("bundles".toList, encodeBundles m.Bundles),
    ("settings".toList, .obj [("enableUrlFeature".toList, .bool m.Settings.EnableUrlFeature)])]

/-- The asset stored under the extension's name (line 183). -/
def extensionAsset : adminBundlesInfoAsset :=
  { Css := some ["http://localhost:8080/extension.css".toList],
    Js := some ["http://localhost:8080/extension.js".toList] }

/-- The asset stored under `live-reload` (line 184). -/
def liveReloadAsset : adminBundlesInfoAsset :=
  { Css := some [], Js := some ["http://localhost:8080/live-reload.js".toList] }

/-- The two map assignments of lines 183-184. -/
def injectBundles (bundles : BundleMap) (name : Str) : BundleMap :=
  mapSet (mapSet bundles name extensionAsset) "live-reload".toList liveReloadAsset

/-- What the config branch writes to the browser: the status, the
`content-type` header when it is set, and the manifest when one is
written. -/
structure ConfigResponse where
  status : Nat
  contentType : Option Str
  manifest : Option Json

/-- The config branch from the decoding on (lines 170-193), for the body read
from the backend. -/
def configHandler (compileResult : AssetCompileResult) (body : Option Json) : ConfigResponse :=
  match Unmarshal body with
  | .error _ => { status := 500, contentType := none, manifest := none }
  | .ok bundleInfo =>
    match bundleInfo.Bundles with
    | none => { status := 500, contentType := none, manifest := none }
    | some bundles =>
      { status := 200, contentType := some "application/json".toList,
        manifest := some (Marshal
          { bundleInfo with Bundles := some (injectBundles bundles compileResult.Name) }) }

/-- The extension `MyExt` with no files, for the examples. -/
def myExt : AssetCompileResult :=
  { Name := "MyExt".toList, Entrypoint := [], JsFile := [], CssFile := [] }

/-- The extension whose name is `My`, U+00C4 (bytes C3 84), `xt`, with no
files. -/
def umlautExt : AssetCompileResult :=
  { Name := "My\xc3\x84xt".toList, Entrypoint := [], JsFile := [], CssFile := [] }

/-- The manifest `{"bundles":{"foo":{"css":[],"js":[]}}}`. -/
def manifestFoo : Json :=
  .obj [("bundles".toList,
    .obj [("foo".toList, .obj [("css".toList, .arr []), ("js".toList, .arr [])])])]

/-- The names of the entries of `bundles` in the manifest the config branch
writes. -/
def bundleKeys (r : ConfigResponse) : List Str :=
  match r.manifest.bind (Json.member "bundles".toList) with
  | some j => j.keys
  | none => []

/-- An upstream manifest with a member the struct does not declare:
`{"version":"6.5.0.0","shopId":"abc","bundles":{}}`. -/
def manifestExtra : Json :=
  .obj [("version".toList, .str "6.5.0.0".toList), ("shopId".toList, .str "abc".toList),
    ("bundles".toList, .obj [])]

/-- A page with the six fields on one line. -/
def pageOneLine : Str :=
  ("host: 'shop.example',port: 443,scheme: 'https'," ++
    "schemeAndHttpHost: 'https://shop.example',uri: 'https://shop.example/admin'," ++
    "assetPath: 'https://shop.example'").toList

/-! ## Matching: general facts -/

/-- Texts with one of which every match of a pattern starts. -/
def startsAny (ts : List Str) (x : Str) : Bool := ts.any (fun t => t.isPrefixOf x)

/-- None of the texts `ts` begins at any position of the text. -/
def freeOf (ts : List Str) : Str → Bool
  | [] => !startsAny ts []
  | c :: t => !startsAny ts (c :: t) && freeOf ts t

/-- The last byte of the text, when there is one, occurs in none of the texts
`ts` before their last byte: no text of `ts` can begin inside the text and end
beyond it. -/
def endOk (ts : List Str) (x : Str) : Bool :=
  match x.getLast? with
  | none => true
  | some c => ts.all (fun t => !t.dropLast.contains c)

/-- A key followed by one byte of the class `\s`. -/
def triggersOf (K : Str) : List Str :=
  [K ++ ['\t'], K ++ ['\n'], K ++ ['\x0c'], K ++ ['\r'], K ++ [' ']]

/-- No match of `re` starts inside `A` when `rest` follows it. -/
def NoStart (re : Re) (A rest : Str) : Prop :=
  ∀ a b, A = a ++ b → b ≠ [] → re.run (b ++ rest) = []

/-- Every match of `re` starts with one of the texts `ts`. -/
def Triggered (re : Re) (ts : List Str) : Prop :=
  ∀ x, startsAny ts x = false → re.run x = []

/-- The text is empty or starts with a newline: `.` matches nothing there. -/
def lineEnd (B : Str) : Bool :=
  match B with
  | [] => true
  | c :: _ => c = '\n'

/-- The texts left by `.*` on the line `l` followed by `B`, in the order of
preference: the longest match first. -/
def backs : Str → Str → List Str
  | [], B => [B]
  | c :: l, B => backs l B ++ [c :: (l ++ B)]

/-! ## Pages: fields, separators and lines -/

/-- The text has no byte of the class `\s`. -/
def noSpace (v : Str) : Bool := v.all (fun c => !isSpace c)

/-- The text is empty or ends with a byte of the class `\s`. -/
def endsWithSpace (t : Str) : Bool :=
  match t.getLast? with
  | none => true
  | some c => isSpace c

/-- The text starts with a newline. -/
def beginsLine (t : Str) : Bool :=
  match t with
  | [] => false
  | c :: _ => c = '\n'

/-- The keys of the six field patterns. -/
def fieldKeys : List Str :=
  ["host:".toList, "port:".toList, "scheme:".toList, "schemeAndHttpHost:".toList,
    "uri:".toList, "assetPath:".toList]

/-- In the text no key of a field pattern is followed by a byte of the class
`\s`: no field pattern matches in it. -/
def plainText (t : Str) : Bool := fieldKeys.all (fun K => freeOf (triggersOf K) t)

/-- The text is free of the triggers and ends well. -/
def Calm (ts : List Str) (X : Str) : Prop := freeOf ts X = true ∧ endOk ts X = true

/-- The line of the field `host` as the admin template writes it. -/
def hostLine (v : Str) : Str := "host: '".toList ++ (v ++ "',".toList)

/-- The line of the field `port`. -/
def portLine (v : Str) : Str := "port: ".toList ++ (v ++ ",".toList)

/-- The line of the field `scheme`. -/
def schemeLine (v : Str) : Str := "scheme: '".toList ++ (v ++ "',".toList)

/-- The line of the field `schemeAndHttpHost`. -/
def schemeAndHttpHostLine (v : Str) : Str := "schemeAndHttpHost: '".toList ++ (v ++ "',".toList)

/-- The line of the field `uri`. -/
def uriLine (v : Str) : Str := "uri: '".toList ++ (v ++ "',".toList)

/-- The line of the field `assetPath`, the last of its object: no comma. -/
def assetPathLine (v : Str) : Str := "assetPath: '".toList ++ (v ++ "'".toList)

/-- A bootstrap page with the six fields, each on a line of its own: the text
before the fields, the six values, the texts between the field lines and the
text after them. -/
structure FieldPage where
  pre : Str
  host : Str
  s1 : Str
  port : Str
  s2 : Str
  scheme : Str
  s3 : Str
  schemeAndHttpHost : Str
  s4 : Str
  uri : Str
  s5 : Str
  assetPath : Str
  post : Str

/-- The text of the page. -/
def FieldPage.render (p : FieldPage) : Str :=
  p.pre ++ (hostLine p.host ++ (p.s1 ++ (portLine p.port ++ (p.s2 ++ (schemeLine p.scheme ++
    (p.s3 ++ (schemeAndHttpHostLine p.schemeAndHttpHost ++ (p.s4 ++ (uriLine p.uri ++
      (p.s5 ++ (assetPathLine p.assetPath ++ p.post)))))))))))

/-- A text between two field lines: it starts with a newline, ends with a byte
of `\s` (a newline or the indentation of the next field), and no field pattern
matches in it. -/
def separator (s : Str) : Bool := plainText s && beginsLine s && endsWithSpace s

/-- The page has each field on a line of its own: the field lines are set
apart by separators, the text before the first field is empty or ends with a
byte of `\s`, the text after the last field is empty or starts with a newline,
no field pattern matches outside the field lines, and the values have no byte
of `\s`. -/
def FieldPage.wellFormed (p : FieldPage) : Bool :=
  plainText p.pre && endsWithSpace p.pre && separator p.s1 && separator p.s2 &&
  separator p.s3 && separator p.s4 && separator p.s5 && plainText p.post && lineEnd p.post &&
  noSpace p.host && noSpace p.port && noSpace p.scheme && noSpace p.schemeAndHttpHost &&
  noSpace p.uri && noSpace p.assetPath

/-- The page with the six values replaced by the local ones. -/
def FieldPage.localized (p : FieldPage) : FieldPage :=
  { p with host := "localhost".toList, port := "8080".toList, scheme := "http".toList,
           schemeAndHttpHost := "http://localhost:8080".toList,
           uri := "http://localhost:8080/admin".toList,
           assetPath := "http://localhost:8080".toList }

/-- Every text of the list is calm. -/
def AllCalm (ts : List Str) : List Str → Prop
  | [] => True
  | a :: t => Calm ts a ∧ AllCalm ts t

/-- The conditions of `FieldPage.wellFormed`, one by one. -/
structure FieldPage.WF (p : FieldPage) : Prop where
  pre1 : plainText p.pre = true
  pre2 : endsWithSpace p.pre = true
  s1 : separator p.s1 = true
  s2 : separator p.s2 = true
  s3 : separator p.s3 = true
  s4 : separator p.s4 = true
  s5 : separator p.s5 = true
  post1 : plainText p.post = true
  post2 : lineEnd p.post = true
  host : noSpace p.host = true
  port : noSpace p.port = true
  scheme : noSpace p.scheme = true
  schemeAndHttpHost : noSpace p.schemeAndHttpHost = true
  uri : noSpace p.uri = true
  assetPath : noSpace p.assetPath = true

/-- No match of the pattern is empty. -/
def PatternNoEmpty (re : Re) : Prop := ∀ s r, r ∈ re.run s → r.length < s.length

/-- The texts with one of which a match of `assetRegExp` starts. -/
def assetTriggers : List Str :=
  ["src=\"http".toList, "href=\"http".toList, "content=\"http".toList]

/-- No field pattern and no asset pattern can start a match in the text, and
the text is empty or ends with a byte of `\s`. -/
def quietText (t : Str) : Bool :=
  plainText t && freeOf assetTriggers t && endsWithSpace t

/-! ## Absolute URLs -/

/-- A byte of a host name with a port: an ASCII letter or digit, `-`, `.` or
`:`. -/
def hostByte (c : Char) : Bool := isAlnum c || c = '-' || c = '.' || c = ':'

/-- A control byte, as `stringContainsCTLByte` tests it. -/
def ctlByte (c : Char) : Bool := c.toNat < 32 || c.toNat = 127

/-- A byte that `validEncoded` accepts in a path. -/
def pathByte (c : Char) : Bool :=
  c ∈ "!$&'()*+,;=:@[]%".toList || !shouldEscape c .encodePath

/-- The scheme of an absolute http or https URL. -/
def schemeText (secure : Bool) : Str := if secure then "https".toList else "http".toList

/-- The text of the query of a URL, with its `?`. -/
def queryText : Option Str → Str
  | none => []
  | some q => '?' :: q

/-- The text of the fragment of a URL, with its `#`. -/
def fragmentText : Option Str → Str
  | none => []
  | some f => '#' :: f

/-- An absolute http or https URL by its parts. -/
structure AbsUrl where
  secure : Bool
  host : Str
  path : Str
  query : Option Str
  fragment : Option Str

/-- The text of the URL. -/
def AbsUrl.text (u : AbsUrl) : Str :=
  schemeText u.secure ++ ("://".toList ++ (u.host ++ (u.path ++
    (queryText u.query ++ fragmentText u.fragment))))

/-- The URL with the scheme `http`, the host `localhost:8080` and the same
path, query and fragment. -/
def AbsUrl.localText (u : AbsUrl) : Str :=
  "http://localhost:8080".toList ++ (u.path ++ (queryText u.query ++ fragmentText u.fragment))

/-- A byte of a query: not `#`, not a double quote, not a control byte. -/
def queryByte (c : Char) : Bool := c ≠ '#' && c ≠ '"' && !ctlByte c

/-- The URLs the theorem on the asset rewrite speaks of: the host, with its
port when it has one, is made of letters, digits, `-`, `.` and at most one `:`
and is what `parseHost` makes of it; the path starts with `/` and is validly encoded;
the query has no `#`, no double quote and no control byte; the fragment, when
there is one, is not empty and validly encoded. -/
def AbsUrl.wellFormed (u : AbsUrl) : Bool :=
  u.host.all hostByte && parseHost u.host == some u.host && HasPrefix u.path ['/'] && validEncoded u.path .encodePath &&
  (unescape .encodePath u.path).isSome &&
  (match u.query with
   | none => true
   | some q => q.all queryByte) &&
  (match u.fragment with
   | none => true
   | some f => f ≠ [] && validEncoded f .encodeFragment && (unescape .encodeFragment f).isSome) &&
  decide (Count ':' u.host ≤ 1)

/-- The tail of `assetRegExp` after `http`. -/
def assetTail : Re :=
  Re.cat [.opt (.lit "s".toList), .star .dot, .lit "/bundles".toList, .star .dot,
    .lit "\"".toList]

/-- The names of the attributes `assetRegExp` looks at. -/
def assetAttributes : List Str := ["src".toList, "href".toList, "content".toList]

/-- A byte that `validEncoded` accepts in a fragment. -/
def fragmentByte (c : Char) : Bool :=
  c ∈ "!$&'()*+,;=:@[]%".toList || !shouldEscape c .encodeFragment

/-- The text of the URL after `http`. -/
def AbsUrl.afterHttp (u : AbsUrl) : Str :=
  (if u.secure then "s".toList else []) ++ ("://".toList ++ (u.host ++ (u.path ++
    (queryText u.query ++ fragmentText u.fragment))))

/-- The pattern has no `\s` and no newline in a literal: a match of it never
holds a newline. -/
def newlineFree : Re → Bool
  | .lit p => !p.contains '\n'
  | .space => false
  | .dot => true
  | .seq a b => newlineFree a && newlineFree b
  | .alt a b => newlineFree a && newlineFree b
  | .opt a => newlineFree a
  | .star a => newlineFree a

/-- After the text `s` a newline cuts the matching of the pattern: a match
that starts in `s` is the same whatever follows the newline. -/
def LineCut (re : Re) (s X : Str) : Prop :=
  ∀ a b, s = a ++ b → re.run (b ++ '\n' :: X) = (re.run b).map (fun r => r ++ '\n' :: X)

/-- The text ends with a colon. -/
def endsColon (s : Str) : Bool := s.getLast? == some ':'

/-! ## The manifest by paths -/

/-- The value at a path of member names. -/
def Json.atPath : List Str → Json → Option Json
  | [], j => some j
  | k :: ks, j => (j.member k).bind (Json.atPath ks)

/-- The members other than `bundles` that `adminBundlesInfo` declares (lines
238-249), by the paths of their JSON names. -/
def declaredFields : List (List Str) :=
  [["version".toList], ["versionRevision".toList],
    ["adminWorker".toList, "enableAdminWorker".toList],
    ["adminWorker".toList, "transports".toList],
    ["settings".toList, "enableUrlFeature".toList]]

/-- At most one of the members selects the field with the JSON name `name`. -/
def selectsOnce (name : Str) (members : List (Str × Json)) : Bool :=
  (members.filter (fun kv => equalFold name kv.1)).length ≤ 1

/-- For each of the names, at most one member of the object selects the field
with that name. -/
def Json.selectsOnce (names : List Str) : Json → Bool
  | .obj members => names.all (fun n => AdminWatch.selectsOnce n members)
  | _ => true

/-- The upstream body gives no declared field twice: of the members of the
body, of its `adminWorker` and of its `settings`, at most one selects each
field. -/
def uniqueFields (body : Json) : Bool :=
  body.selectsOnce ["version".toList, "versionRevision".toList, "adminWorker".toList,
    "settings".toList] &&
  (match body.member "adminWorker".toList with
   | some aw => aw.selectsOnce ["enableAdminWorker".toList, "transports".toList]
   | none => true) &&
  (match body.member "settings".toList with
   | some st => st.selectsOnce ["enableUrlFeature".toList]
   | none => true)

/-- The value is not `null`, and when it is an array none of its elements is
`null`. -/
def Json.noNull : Json → Bool
  | .null => false
  | .arr xs => xs.all (fun x => match x with
    | .null => false
    | _ => true)
  | _ => true

/-- The text is made of whole lines of which the last does not end with a
colon: it is empty, or it ends with a newline that does not follow a colon. -/
def linesBefore (P : Str) : Bool :=
  P = [] || (P.getLast? == some '\n' && !endsColon P.dropLast)

/-! ## Examples -/

/-- A bootstrap page as the admin template writes it, for the shop
`https://shop.example`. -/
def shopPage : FieldPage :=
  { pre := "<script>\n    apiContext: \x7b\n        ".toList,
    host := "shop.example".toList,
    s1 := "\n        ".toList,
    port := "443".toList,
    s2 := "\n        ".toList,
    scheme := "https".toList,
    s3 := "\n        ".toList,
    schemeAndHttpHost := "https://shop.example".toList,
    s4 := "\n        ".toList,
    uri := "https://shop.example/admin".toList,
    s5 := "\n        basePath: '',\n        pathInfo: '/admin',\n        ".toList,
    assetPath := "https://shop.example".toList,
    post := "\n    \x7d,\n</script>\n".toList }

/-- The URL
`https://shop.example:8443/bundles/administration/static/js/app.js?v=1#top`. -/
def shopAssetUrl : AbsUrl :=
  { secure := true, host := "shop.example:8443".toList,
    path := "/bundles/administration/static/js/app.js".toList,
    query := some "v=1".toList, fragment := some "top".toList }

/-- The start of a bootstrap page of the shop `https://shop.example`, up to
the line of the host field: the head links a style sheet by its absolute
URL. -/
def shopPageHead : Str :=
  ("<!DOCTYPE html>\n<html>\n<head>\n" ++
    "    <link rel=\"stylesheet\" href=\"https://shop.example/bundles/administration/app.css\">\n" ++
    "</head>\n<body>\n<script>\n    Shopware.Application.start(\x7b\n        apiContext: \x7b\n").toList

/-- An upstream configuration response of a shop: it has the members that
`adminBundlesInfo` declares and, in the body, in `adminWorker` and in
`settings`, members that it does not declare. -/
def manifestShop : Json :=
  .obj [("version".toList, .str "6.5.0.0".toList),
    ("versionRevision".toList, .str "a1b2c3".toList),
    ("adminWorker".toList,
      .obj [("enableAdminWorker".toList, .bool true),
        ("enableQueueStatsWorker".toList, .bool true),
        ("transports".toList, .arr [.str "async".toList, .str "low_priority".toList])]),
    ("bundles".toList,
      .obj [("foo".toList, .obj [("css".toList, .arr []), ("js".toList, .arr [])])]),
    ("settings".toList,
      .obj [("enableUrlFeature".toList, .bool false), ("appUrlReachable".toList, .bool true)]),
    ("shopId".toList, .str "abc".toList)]

/-- The manifest the config branch writes for `manifestShop` and the extension
`MyExt`. -/
def manifestShopLocal : Json :=
  .obj [("version".toList, .str "6.5.0.0".toList),
    ("versionRevision".toList, .str "a1b2c3".toList),
    ("adminWorker".toList,
      .obj [("enableAdminWorker".toList, .bool true),
        ("transports".toList, .arr [.str "async".toList, .str "low_priority".toList])]),
    ("bundles".toList,
      .obj [("MyExt".toList,
          .obj [("css".toList, .arr [.str "http://localhost:8080/extension.css".toList]),
            ("js".toList, .arr [.str "http://localhost:8080/extension.js".toList])]),
        ("foo".toList, .obj [("css".toList, .arr []), ("js".toList, .arr [])]),
        ("live-reload".toList,
          .obj [("css".toList, .arr []),
            ("js".toList, .arr [.str "http://localhost:8080/live-reload.js".toList])])]),
    ("settings".toList, .obj [("enableUrlFeature".toList, .bool false)])]

/-! # Theorems -/

set_option maxRecDepth 100000

/-! ## The router -/

/-- C1: a path that begins with `/events` goes to the event stream, and
otherwise a path that begins with the asset prefix `/bundles/<lower-cased
name>/static/` is served as a local static file, whatever the target URL (its
base path included), the extension and the path are, and whatever the case
table of package unicode holds. -/
theorem redirect_first_match (lowerTable : Nat → Nat) (arg1 : Str) (targetShopUrl : URL)
    (compileResult : AssetCompileResult) (path : Str) :
    (HasPrefix path "/events".toList = true →
      redirect lowerTable arg1 targetShopUrl compileResult path = .eventStream) ∧
    (HasPrefix path "/events".toList = false →
      HasPrefix path (assetPrefix lowerTable compileResult) = true →
      redirect lowerTable arg1 targetShopUrl compileResult path
        = .staticFile (TrimPrefix path (assetPrefix lowerTable compileResult))) := by
  constructor
  · intro h
    unfold redirect
    rw [if_pos h]
  · intro h1 h2
    unfold redirect
    rw [if_neg (by rw [h1]; exact Bool.false_ne_true), if_pos h2]

/-- C1 at concrete requests: with base path `/events` the path `/events/admin`
equals basePath+`/admin` and still goes to the event stream; with base path
`/bundles/myext/static` the path `/bundles/myext/static/admin` equals
basePath+`/admin` and is still served as the static file `admin`; for the
extension name with U+00C4 the asset prefix has U+00E4 (bytes C3 A4), a path
with that prefix is served as a static file and the path with the name as
declared is not. -/
theorem redirect_first_match_witness :
    (parseTarget "https://shop.example/events".toList).map URL.Path = some "/events".toList ∧
    HasPrefix "/events/admin".toList "/events".toList = true ∧
    serve latin1Lower "https://shop.example/events".toList myExt "/events/admin".toList
      = some .eventStream ∧
    (parseTarget "https://shop.example/bundles/myext/static".toList).map URL.Path
      = some "/bundles/myext/static".toList ∧
    HasPrefix "/bundles/myext/static/admin".toList "/events".toList = false ∧
    HasPrefix "/bundles/myext/static/admin".toList (assetPrefix latin1Lower myExt) = true ∧
    serve latin1Lower "https://shop.example/bundles/myext/static".toList myExt
      "/bundles/myext/static/admin".toList = some (.staticFile "admin".toList) ∧
    assetPrefix latin1Lower umlautExt = "/bundles/my\xc3\xa4xt/static/".toList ∧
    serve latin1Lower "https://shop.example".toList umlautExt
      "/bundles/my\xc3\xa4xt/static/a.txt".toList = some (.staticFile "a.txt".toList) ∧
    serve latin1Lower "https://shop.example".toList umlautExt
      "/bundles/my\xc3\x84xt/static/a.txt".toList = some .forward := by
  refine ⟨by decide, by decide, ?_, by decide, by decide, by decide, ?_, by decide, ?_,
    by decide⟩
  · have h : parseTarget "https://shop.example/events".toList
        = some { URL.zero with Scheme := "https".toList, Host := "shop.example".toList,
                               Path := "/events".toList } := by decide
    simp only [serve, h, Option.map_some']
    exact congrArg some
      ((redirect_first_match latin1Lower _ _ myExt "/events/admin".toList).1 (by decide))
  · have h : parseTarget "https://shop.example/bundles/myext/static".toList
        = some { URL.zero with Scheme := "https".toList, Host := "shop.example".toList,
                               Path := "/bundles/myext/static".toList } := by decide
    simp only [serve, h, Option.map_some']
    exact congrArg some
      (((redirect_first_match latin1Lower _ _ myExt "/bundles/myext/static/admin".toList).2
        (by decide) (by decide)).trans (by decide))
  · have h : parseTarget "https://shop.example".toList
        = some { URL.zero with Scheme := "https".toList, Host := "shop.example".toList } := by
      decide
    simp only [serve, h, Option.map_some']
    exact congrArg some
      (((redirect_first_match latin1Lower _ _ umlautExt
        "/bundles/my\xc3\xa4xt/static/a.txt".toList).2 (by decide) (by decide)).trans
        (by decide))

/-- C10, at the target `https://shop.example/`: the path `/admin` selects the
admin branch, which fetches `https://shop.example//admin`, not the target with
its trailing slash stripped followed by `/admin`. -/
theorem admin_fetch_keeps_trailing_slash (lowerTable : Nat → Nat) :
    serve lowerTable "https://shop.example/".toList myExt "/admin".toList
      = some (.adminPage "https://shop.example//admin".toList) ∧
    TrimSuffix "https://shop.example/".toList "/".toList ++ "/admin".toList
      = "https://shop.example/admin".toList ∧
    adminFetchUrl "https://shop.example/".toList
      ≠ TrimSuffix "https://shop.example/".toList "/".toList ++ "/admin".toList := by
  refine ⟨?_, by decide, by decide⟩
  have h : parseTarget "https://shop.example/".toList
      = some { URL.zero with Scheme := "https".toList, Host := "shop.example".toList } := by
    decide
  have hp : assetPrefix lowerTable myExt = "/bundles/myext/static/".toList := rfl
  simp only [serve, h, Option.map_some']
  unfold redirect
  rw [hp]
  decide

/-! ## The manifest injection -/

theorem mapGet_mapSet_self (m : BundleMap) (k : Str) (v : adminBundlesInfoAsset) :
    mapGet (mapSet m k v) k = some v := by
  induction m with
  | nil => simp [mapSet, mapGet, List.lookup]
  | cons e t ih =>
    obtain ⟨k0, v0⟩ := e
    by_cases h : k0 = k
    · simp [mapSet, mapGet, List.lookup, h]
    · have h2 : (k == k0) = false := by
        simp only [beq_eq_false_iff_ne, ne_eq]
        exact fun e => h e.symm
      simp only [mapGet] at ih
      simp [mapSet, mapGet, List.lookup, h, h2, ih]

theorem mapGet_mapSet_ne (m : BundleMap) (k k1 : Str) (v : adminBundlesInfoAsset)
    (h : k1 ≠ k) : mapGet (mapSet m k v) k1 = mapGet m k1 := by
  induction m with
  | nil =>
    have h2 : (k1 == k) = false := by simpa using h
    simp [mapSet, mapGet, List.lookup, h2]
  | cons e t ih =>
    obtain ⟨k0, v0⟩ := e
    simp only [mapGet] at ih
    by_cases h0 : k0 = k
    · subst h0
      have h2 : (k1 == k0) = false := by simpa using h
      simp [mapSet, mapGet, List.lookup, h2]
    · by_cases h3 : k1 = k0
      · subst h3
        simp [mapSet, mapGet, List.lookup, h0]
      · have h2 : (k1 == k0) = false := by simpa using h3
        simp [mapSet, mapGet, List.lookup, h0, h2, ih]

theorem mapSet_mapSet_same (m : BundleMap) (k : Str) (v w : adminBundlesInfoAsset) :
    mapSet (mapSet m k w) k v = mapSet m k v := by
  induction m with
  | nil => simp [mapSet]
  | cons e t ih =>
    obtain ⟨k0, v0⟩ := e
    by_cases h : k0 = k
    · simp [mapSet, h]
    · simp [mapSet, h, ih]

theorem mapSet_comm (m : BundleMap) (k1 k2 : Str) (v1 v2 w : adminBundlesInfoAsset)
    (h : k1 ≠ k2) :
    mapSet (mapSet (mapSet m k1 w) k2 v2) k1 v1 = mapSet (mapSet m k1 v1) k2 v2 := by
  induction m with
  | nil => simp [mapSet, h]
  | cons e t ih =>
    obtain ⟨k0, v0⟩ := e
    by_cases h1 : k0 = k1
    · subst h1
      simp [mapSet, h]
    · by_cases h2 : k0 = k2
      · subst h2
        simp [mapSet, h1, mapSet_mapSet_same]
      · simp [mapSet, h1, h2, ih]

/-- C8: applying the two map assignments to their own result gives the same
`bundles` map as applying them once. -/
theorem injectBundles_idempotent (bundles : BundleMap) (name : Str) :
    injectBundles (injectBundles bundles name) name = injectBundles bundles name := by
  unfold injectBundles
  by_cases h : name = "live-reload".toList
  · rw [h]
    simp only [mapSet_mapSet_same]
  · rw [mapSet_comm _ _ _ _ _ _ h, mapSet_mapSet_same]

/-- C3 as amended: for a bundle name other than `live-reload`, the two map
assignments leave the extension's asset under the bundle name and the reload
asset under `live-reload`, and every other key keeps the value it had. -/
theorem injectBundles_post (bundles : BundleMap) (name : Str)
    (hname : name ≠ "live-reload".toList) :
    mapGet (injectBundles bundles name) name = some extensionAsset ∧
    mapGet (injectBundles bundles name) "live-reload".toList = some liveReloadAsset ∧
    ∀ k, k ≠ name → k ≠ "live-reload".toList →
      mapGet (injectBundles bundles name) k = mapGet bundles k := by
  unfold injectBundles
  refine ⟨?_, mapGet_mapSet_self _ _ _, ?_⟩
  · rw [mapGet_mapSet_ne _ _ _ _ hname, mapGet_mapSet_self]
  · intro k h1 h2
    rw [mapGet_mapSet_ne _ _ _ _ h2, mapGet_mapSet_ne _ _ _ _ h1]

/-- C3 at a concrete manifest: the extension's entry replaces the entry that
was under `MyExt`, `live-reload` is added, and `foo` keeps its value. -/
theorem injectBundles_post_witness :
    "MyExt".toList ≠ "live-reload".toList ∧
    mapGet (injectBundles
        [("foo".toList, { Css := some [], Js := some [] }),
          ("MyExt".toList, { Css := none, Js := some ["old.js".toList] })] "MyExt".toList)
      "MyExt".toList = some extensionAsset ∧
    mapGet (injectBundles
        [("foo".toList, { Css := some [], Js := some [] }),
          ("MyExt".toList, { Css := none, Js := some ["old.js".toList] })] "MyExt".toList)
      "foo".toList = some { Css := some [], Js := some [] } :=
  ⟨by decide,
    (injectBundles_post _ "MyExt".toList (by decide)).1,
    ((injectBundles_post _ "MyExt".toList (by decide)).2.2 "foo".toList
      (by decide) (by decide)).trans (by decide)⟩

/-- C3 fails for the bundle name `live-reload`: the second assignment
overwrites the first, so the bundle name is not sent to the extension's
asset. -/
theorem injectBundles_live_reload_name :
    ¬ (mapGet (injectBundles [] "live-reload".toList) "live-reload".toList
          = some extensionAsset ∧
       mapGet (injectBundles [] "live-reload".toList) "live-reload".toList
          = some liveReloadAsset) := by
  decide

theorem configHandler_of_error (compileResult : AssetCompileResult) (body : Option Json)
    (e : UnmarshalError) (h : Unmarshal body = .error e) :
    configHandler compileResult body = { status := 500, contentType := none, manifest := none } := by
  simp only [configHandler, h]

theorem configHandler_of_nil (compileResult : AssetCompileResult) (body : Option Json)
    (m : adminBundlesInfo) (h : Unmarshal body = .ok m) (hb : m.Bundles = none) :
    configHandler compileResult body = { status := 500, contentType := none, manifest := none } := by
  simp only [configHandler, h, hb]

theorem configHandler_of_bundles (compileResult : AssetCompileResult) (body : Option Json)
    (m : adminBundlesInfo) (b : BundleMap) (h : Unmarshal body = .ok m)
    (hb : m.Bundles = some b) :
    configHandler compileResult body =
      { status := 200, contentType := some "application/json".toList,
        manifest := some (Marshal
          { m with Bundles := some (injectBundles b compileResult.Name) }) } := by
  simp only [configHandler, h, hb]

/-- C4: the config branch answers with status 500 and writes no manifest
exactly when the body does not decode or decodes with a nil `Bundles` map; in
every other case it answers with the manifest after the two assignments, as
`application/json`. -/
theorem configHandler_fails_iff (compileResult : AssetCompileResult) (body : Option Json) :
    (((configHandler compileResult body).status = 500 ∧
        (configHandler compileResult body).manifest = none) ↔
      ((∃ e, Unmarshal body = .error e) ∨
        ∃ m, Unmarshal body = .ok m ∧ m.Bundles = none)) ∧
    (∀ m bundles, Unmarshal body = .ok m → m.Bundles = some bundles →
      (configHandler compileResult body).status = 200 ∧
      (configHandler compileResult body).contentType = some "application/json".toList ∧
      (configHandler compileResult body).manifest
        = some (Marshal { m with Bundles := some (injectBundles bundles compileResult.Name) })) := by
  refine ⟨⟨fun h => ?_, fun h => ?_⟩, fun m b h hb => ?_⟩
  · cases hu : Unmarshal body with
    | error e => exact Or.inl ⟨e, rfl⟩
    | ok m =>
      cases hb : m.Bundles with
      | none => exact Or.inr ⟨m, rfl, hb⟩
      | some b =>
        rw [configHandler_of_bundles compileResult body m b hu hb] at h
        have h1 : (200 : Nat) = 500 := h.1
        exact absurd h1 (by decide)
  · rcases h with ⟨e, he⟩ | ⟨m, hm, hb⟩
    · rw [configHandler_of_error compileResult body e he]
      exact ⟨rfl, rfl⟩
    · rw [configHandler_of_nil compileResult body m hm hb]
      exact ⟨rfl, rfl⟩
  · rw [configHandler_of_bundles compileResult body m b h hb]
    exact ⟨rfl, rfl, rfl⟩

/-- C4 at concrete bodies: a body that is no JSON text, the body `[]` and the
body `{}` get status 500 and no manifest; the manifest with the bundle `foo`
gets status 200 and `application/json`. -/
theorem configHandler_fails_iff_witness :
    ((configHandler myExt none).status = 500 ∧ (configHandler myExt none).manifest = none) ∧
    ((configHandler myExt (some (.arr []))).status = 500 ∧
      (configHandler myExt (some (.arr []))).manifest = none) ∧
    ((configHandler myExt (some (.obj []))).status = 500 ∧
      (configHandler myExt (some (.obj []))).manifest = none) ∧
    ((configHandler myExt (some manifestFoo)).status = 200 ∧
      (configHandler myExt (some manifestFoo)).contentType = some "application/json".toList) :=
  ⟨(configHandler_fails_iff myExt none).1.mpr (Or.inl ⟨_, rfl⟩),
    (configHandler_fails_iff myExt (some (.arr []))).1.mpr (Or.inl ⟨_, rfl⟩),
    (configHandler_fails_iff myExt (some (.obj []))).1.mpr (Or.inr ⟨_, rfl, rfl⟩),
    ((configHandler_fails_iff myExt (some manifestFoo)).2 _ _ rfl rfl).1,
    ((configHandler_fails_iff myExt (some manifestFoo)).2 _ _ rfl rfl).2.1⟩

/-- C9 fails: for the extension `MyExt` and the upstream manifest with the
bundle `foo`, the returned `bundles` has no key `myext`. -/
theorem bundleKeys_no_lower_case :
    ¬ ("foo".toList ∈ bundleKeys (configHandler myExt (some manifestFoo)) ∧
       "myext".toList ∈ bundleKeys (configHandler myExt (some manifestFoo)) ∧
       "live-reload".toList ∈ bundleKeys (configHandler myExt (some manifestFoo))) := by
  decide

/-- C9 as amended: for the extension `MyExt` and the upstream manifest with
the bundle `foo`, the keys of the returned `bundles` are `MyExt`, `foo` and
`live-reload`: the injected key is the extension's name as declared. -/
theorem bundleKeys_declared_name :
    bundleKeys (configHandler myExt (some manifestFoo))
      = ["MyExt".toList, "foo".toList, "live-reload".toList] := by
  decide

theorem decodeElems_map_str (xs : List Str) : decodeElems (xs.map Json.str) = some xs := by
  induction xs with
  | nil => rfl
  | cons x t ih => simp [decodeElems, decodeString, ih]

theorem decodeStrings_encodeStrings (t : Option (List Str)) :
    decodeStrings (encodeStrings t) = some t := by
  cases t with
  | none => rfl
  | some xs => simp [encodeStrings, decodeStrings, decodeElems_map_str]

theorem decodeAsset_encodeAsset (cur a : adminBundlesInfoAsset) :
    decodeAsset cur (encodeAsset a) = some a := by
  have h1 : equalFold "css".toList "css".toList = true := by decide
  have h2 : equalFold "css".toList "js".toList = false := by decide
  have h3 : equalFold "js".toList "js".toList = true := by decide
  simp only [encodeAsset, decodeAsset, List.foldlM_cons, List.foldlM_nil, decodeAssetMember, h1,
    h2, h3, decodeStrings_encodeStrings, if_true, Option.map_some', Option.bind_eq_bind,
    Option.some_bind, Bool.false_eq_true, if_false, Option.pure_def]

theorem mem_insertByKey (e x : Str × Json) (l : List (Str × Json)) :
    x ∈ insertByKey e l ↔ x = e ∨ x ∈ l := by
  induction l with
  | nil => simp [insertByKey]
  | cons y t ih =>
    unfold insertByKey
    split_ifs
    · simp
    · simp only [List.mem_cons, ih]
      tauto

theorem mem_sortByKey (x : Str × Json) (l : List (Str × Json)) :
    x ∈ sortByKey l ↔ x ∈ l := by
  induction l with
  | nil => simp [sortByKey]
  | cons y t ih => simp [sortByKey, mem_insertByKey, ih]

theorem foldlM_decodeAsset_some (l : List (Str × Json))
    (h : ∀ e ∈ l, ∃ a, e.2 = encodeAsset a) (init : BundleMap) :
    ∃ r, l.foldlM
      (fun (m : BundleMap) (kv : Str × Json) =>
        (decodeAsset { Css := none, Js := none } kv.2).map (fun a => mapSet m kv.1 a))
      init = some r := by
  induction l generalizing init with
  | nil => exact ⟨init, rfl⟩
  | cons e t ih =>
    obtain ⟨a, ha⟩ := h e (List.mem_cons_self _ _)
    simp only [List.foldlM_cons, ha, decodeAsset_encodeAsset, Option.map_some',
      Option.bind_eq_bind, Option.some_bind]
    exact ih (fun e1 h1 => h e1 (List.mem_cons_of_mem _ h1)) _

theorem decodeBundles_encodeBundles (b : BundleMap) :
    ∃ b2, decodeBundles none (encodeBundles (some b)) = some (some b2) := by
  obtain ⟨r, hr⟩ := foldlM_decodeAsset_some
    (sortByKey (b.map (fun e => (e.1, encodeAsset e.2))))
    (by
      intro e he
      rw [mem_sortByKey, List.mem_map] at he
      obtain ⟨x, _, hx⟩ := he
      exact ⟨x.2, by rw [← hx]⟩)
    []
  exact ⟨r, by simp only [encodeBundles, decodeBundles, Option.getD_none, hr, Option.map_some']⟩

theorem Unmarshal_Marshal (m : adminBundlesInfo) (b : BundleMap) :
    ∃ b2, Unmarshal (some (Marshal { m with Bundles := some b }))
      = .ok { m with Bundles := some b2 } := by
  obtain ⟨b2, hb2⟩ := decodeBundles_encodeBundles b
  refine ⟨b2, ?_⟩
  have e1 : equalFold "version".toList "version".toList = true := by decide
  have e2 : equalFold "version".toList "versionRevision".toList = false := by decide
  have e3 : equalFold "versionRevision".toList "versionRevision".toList = true := by decide
  have e4 : equalFold "version".toList "adminWorker".toList = false := by decide
  have e5 : equalFold "versionRevision".toList "adminWorker".toList = false := by decide
  have e6 : equalFold "adminWorker".toList "adminWorker".toList = true := by decide
  have e7 : equalFold "version".toList "bundles".toList = false := by decide
  have e8 : equalFold "versionRevision".toList "bundles".toList = false := by decide
  have e9 : equalFold "adminWorker".toList "bundles".toList = false := by decide
  have e10 : equalFold "bundles".toList "bundles".toList = true := by decide
  have e11 : equalFold "version".toList "settings".toList = false := by decide
  have e12 : equalFold "versionRevision".toList "settings".toList = false := by decide
  have e13 : equalFold "adminWorker".toList "settings".toList = false := by decide
  have e14 : equalFold "bundles".toList "settings".toList = false := by decide
  have e15 : equalFold "settings".toList "settings".toList = true := by decide
  have w1 : equalFold "enableAdminWorker".toList "enableAdminWorker".toList = true := by decide
  have w2 : equalFold "enableAdminWorker".toList "transports".toList = false := by decide
  have w3 : equalFold "transports".toList "transports".toList = true := by decide
  have s1 : equalFold "enableUrlFeature".toList "enableUrlFeature".toList = true := by decide
  simp only [Unmarshal, Marshal, decodeInfo, List.foldlM_cons, List.foldlM_nil, decodeInfoMember,
    decodeAdminWorker, decodeAdminWorkerMember, decodeSettings, decodeSettingsMember,
    decodeString, decodeBool, adminBundlesInfo.zero,
    e1, e2, e3, e4, e5, e6, e7, e8, e9, e10, e11, e12, e13, e14, e15, w1, w2, w3, s1, hb2,
    decodeStrings_encodeStrings, if_true, Option.map_some', Option.bind_eq_bind,
    Option.some_bind, Bool.false_eq_true, if_false, Option.pure_def]

/-- C5 fails: the upstream manifest has the member `shopId`, the config
branch answers 200, and the manifest it returns has no member `shopId`. -/
theorem configHandler_drops_member :
    (Json.member "shopId".toList manifestExtra).isSome = true ∧
    (configHandler myExt (some manifestExtra)).status = 200 ∧
    ((configHandler myExt (some manifestExtra)).manifest.bind
      (Json.member "shopId".toList)).isNone = true := by
  decide

/-! ## The bootstrap page -/

/-- C2 fails: the body `host: 'shop.example',port: 443,` contains the text of
the claim, and the body produced from it is `host: 'localhost',`, which does
not contain `host: 'localhost',port: 8080,`: the host pattern runs to the last
comma of the line and takes the port field with it. -/
theorem rewrite_one_line_loses_port :
    Contains "host: 'shop.example',port: 443,".toList
      "host: 'shop.example',port: 443,".toList = true ∧
    RewriteBootstrapHtml "host: 'shop.example',port: 443,".toList
      = "host: 'localhost',".toList ∧
    Contains (RewriteBootstrapHtml "host: 'shop.example',port: 443,".toList)
      "host: 'localhost',port: 8080,".toList = false := by
  decide

/-- C7 fails: on the page with the six fields on one line the substitutions
leave `host: 'localhost',assetPath: 'http://localhost:8080'`; the fields
`port`, `scheme`, `schemeAndHttpHost` and `uri` are gone, not replaced. -/
theorem rewriteFields_one_line :
    rewriteFields pageOneLine = "host: 'localhost',assetPath: 'http://localhost:8080'".toList ∧
    Contains (rewriteFields pageOneLine) "port: 8080,".toList = false := by
  decide

/-- C6, at a page of one line with the tag `<script
src="https://shop.example/bundles/a.js" defer="defer"></script>` and at a page
with the tag `<link rel="mask-icon"
href="https://shop.example/bundles/administration/static/img/favicon/safari-pinned-tab.svg"
color="#189eff">`: the attribute holds an absolute URL whose path contains
`/bundles/`, the match of the asset pattern runs on to the last double quote
of the line, the callback parses the two attributes as one URL, and the page
the handler writes carries neither the URL of the claim nor the second
attribute. -/
theorem rewrite_merges_attributes :
    RewriteBootstrapHtml
        "<script src=\"https://shop.example/bundles/a.js\" defer=\"defer\"></script>".toList
      = "<script src=\"http://localhost:8080/bundles/a.js%22%20defer=%22defer\"></script>".toList ∧
    Contains
      (RewriteBootstrapHtml
        "<script src=\"https://shop.example/bundles/a.js\" defer=\"defer\"></script>".toList)
      "src=\"http://localhost:8080/bundles/a.js\"".toList = false ∧
    RewriteBootstrapHtml
        ("<link rel=\"mask-icon\" href=\"https://shop.example/bundles/administration/static/" ++
          "img/favicon/safari-pinned-tab.svg\" color=\"#189eff\">").toList
      = ("<link rel=\"mask-icon\" href=\"http://localhost:8080/bundles/administration/static/" ++
          "img/favicon/safari-pinned-tab.svg%22%20color=%22#189eff\">").toList := by
  decide

/-! ## Substitutions: where a match can start -/

theorem isPrefixOf_eq_true_iff (p s : Str) : p.isPrefixOf s = true ↔ p <+: s :=
  List.isPrefixOf_iff_prefix

theorem startsAny_eq_true_iff (ts : List Str) (x : Str) :
    startsAny ts x = true ↔ ∃ t ∈ ts, t <+: x := by
  simp [startsAny, List.any_eq_true, isPrefixOf_eq_true_iff]

theorem freeOf_iff (ts : List Str) (s : Str) :
    freeOf ts s = true ↔ ∀ a b, s = a ++ b → startsAny ts b = false := by
  induction s with
  | nil =>
    simp only [freeOf, Bool.not_eq_true']
    constructor
    · intro h a b hab
      have hb : b = [] := (List.append_eq_nil.mp hab.symm).2
      rw [hb]; exact h
    · intro h
      exact h [] [] rfl
  | cons c t ih =>
    simp only [freeOf, Bool.and_eq_true, Bool.not_eq_true', ih]
    constructor
    · rintro ⟨h1, h2⟩ a b hab
      cases a with
      | nil =>
        rw [List.nil_append] at hab
        rw [← hab]; exact h1
      | cons a0 a1 =>
        simp only [List.cons_append, List.cons.injEq] at hab
        exact h2 a1 b hab.2
    · intro h
      exact ⟨h [] (c :: t) rfl, fun a b hab => h (c :: a) b (by rw [hab]; rfl)⟩

theorem endOk_iff (ts : List Str) (x : Str) :
    endOk ts x = true ↔ ∀ c, x.getLast? = some c → ∀ t ∈ ts, c ∉ t.dropLast := by
  unfold endOk
  cases h : x.getLast? with
  | none => simp
  | some c => simp [List.all_eq_true]

/-- The core of the separation: inside a text that is free of the triggers
and ends well, no trigger begins, whatever follows the text. -/
theorem startsAny_inside (ts : List Str) (X a b rest : Str)
    (hfree : freeOf ts X = true) (hend : endOk ts X = true)
    (hX : X = a ++ b) (hb : b ≠ []) : startsAny ts (b ++ rest) = false := by
  by_contra hcon
  rw [Bool.not_eq_false, startsAny_eq_true_iff] at hcon
  obtain ⟨t, ht, hpre⟩ := hcon
  have hfb : startsAny ts b = false := (freeOf_iff ts X).mp hfree a b hX
  rcases List.prefix_or_prefix_of_prefix hpre (List.prefix_append b rest) with h1 | h1
  · have : startsAny ts b = true := (startsAny_eq_true_iff ts b).mpr ⟨t, ht, h1⟩
    rw [hfb] at this
    exact Bool.false_ne_true this
  · obtain ⟨x, hx⟩ := h1
    cases x with
    | nil =>
      rw [List.append_nil] at hx
      have : startsAny ts b = true :=
        (startsAny_eq_true_iff ts b).mpr ⟨t, ht, by rw [hx]⟩
      rw [hfb] at this
      exact Bool.false_ne_true this
    | cons x0 x1 =>
      have hlast : X.getLast? = b.getLast? := by
        rw [hX, List.getLast?_append_of_ne_nil _ hb]
      obtain ⟨c, hc⟩ : ∃ c, b.getLast? = some c := by
        cases hbl : b.getLast? with
        | none => exact absurd (List.getLast?_eq_none_iff.mp hbl) hb
        | some c => exact ⟨c, rfl⟩
      have hcb : c ∈ b := List.mem_of_getLast?_eq_some hc
      have hnot := (endOk_iff ts X).mp hend c (by rw [hlast, hc]) t ht
      apply hnot
      rw [← hx, List.dropLast_append_of_ne_nil _ (List.cons_ne_nil x0 x1)]
      exact List.mem_append_left _ hcb

theorem noStart_of_free (re : Re) (ts : List Str) (A rest : Str) (htr : Triggered re ts)
    (hfree : freeOf ts A = true) (hend : endOk ts A = true) : NoStart re A rest :=
  fun a b hA hb => htr _ (startsAny_inside ts A a b rest hfree hend hA hb)

theorem freeOf_append (ts : List Str) (X Y : Str) (hX : freeOf ts X = true)
    (hend : endOk ts X = true) (hY : freeOf ts Y = true) : freeOf ts (X ++ Y) = true := by
  rw [freeOf_iff]
  intro a b hab
  rcases List.append_eq_append_iff.mp hab with ⟨a1, ha1, hY1⟩ | ⟨c1, hX1, hb1⟩
  · exact (freeOf_iff ts Y).mp hY a1 b hY1
  · cases c1 with
    | nil =>
      rw [List.nil_append] at hb1
      rw [hb1]
      exact (freeOf_iff ts Y).mp hY [] Y rfl
    | cons c0 c2 =>
      rw [hb1]
      exact startsAny_inside ts X a (c0 :: c2) Y hX hend hX1 (List.cons_ne_nil _ _)

theorem endOk_append (ts : List Str) (X Y : Str) (hX : endOk ts X = true)
    (hY : endOk ts Y = true) : endOk ts (X ++ Y) = true := by
  cases Y with
  | nil => rwa [List.append_nil]
  | cons y0 y1 =>
    rw [endOk_iff] at hY ⊢
    intro c hc
    rw [List.getLast?_append_of_ne_nil _ (List.cons_ne_nil y0 y1)] at hc
    exact hY c hc

theorem run_lit_append (K rest : Str) : (Re.lit K).run (K ++ rest) = [rest] := by
  have h : K.isPrefixOf (K ++ rest) = true :=
    (isPrefixOf_eq_true_iff _ _).mpr (List.prefix_append K rest)
  simp [Re.run, h]

theorem run_lit_of_not (K s : Str) (h : K.isPrefixOf s = false) : (Re.lit K).run s = [] := by
  simp [Re.run, h]

theorem run_seq (a b : Re) (s : Str) : (Re.seq a b).run s = (a.run s).flatMap b.run := by
  simp [Re.run]

theorem run_dot_lineEnd (B : Str) (h : lineEnd B = true) : Re.dot.run B = [] := by
  cases B with
  | nil => rfl
  | cons c t =>
    simp only [lineEnd, decide_eq_true_eq] at h
    simp [Re.run, h]

theorem starRun_dot_line (l B : Str) (n : Nat) (hl : '\n' ∉ l) (hB : lineEnd B = true)
    (hn : l.length ≤ n) : starRun Re.dot.run n (l ++ B) = backs l B := by
  induction l generalizing n with
  | nil =>
    cases n with
    | zero => rfl
    | succ m => simp [starRun, backs, run_dot_lineEnd B hB]
  | cons c t ih =>
    cases n with
    | zero => simp at hn
    | succ m =>
      have hc : c ≠ '\n' := fun h => hl (by rw [h]; exact List.mem_cons_self _ _)
      have ht : '\n' ∉ t := fun h => hl (List.mem_cons_of_mem _ h)
      have hm : t.length ≤ m := by simpa using hn
      simp [starRun, backs, Re.run, hc, ih m ht hm]

theorem run_star_dot_line (l B : Str) (hl : '\n' ∉ l) (hB : lineEnd B = true) :
    (Re.star Re.dot).run (l ++ B) = backs l B := by
  have h : (Re.star Re.dot).run (l ++ B) = starRun Re.dot.run (l ++ B).length (l ++ B) := by
    simp [Re.run]
  rw [h]
  exact starRun_dot_line l B _ hl hB (by simp)

theorem backs_head (l B : Str) : ∃ more, backs l B = B :: more := by
  induction l with
  | nil => exact ⟨[], rfl⟩
  | cons c t ih =>
    obtain ⟨more, hm⟩ := ih
    exact ⟨more ++ [c :: (t ++ B)], by simp [backs, hm]⟩

theorem backs_snoc (v : Str) (c : Char) (B : Str) :
    ∃ more, backs (v ++ [c]) B = B :: (c :: B) :: more := by
  induction v with
  | nil => exact ⟨[], rfl⟩
  | cons x t ih =>
    obtain ⟨more, hm⟩ := ih
    exact ⟨more ++ [x :: (t ++ [c] ++ B)], by simp [backs, hm]⟩

theorem run_comma_lineEnd (B : Str) (hB : lineEnd B = true) : (Re.lit [',']).run B = [] := by
  cases B with
  | nil => rfl
  | cons c t =>
    simp only [lineEnd, decide_eq_true_eq] at hB
    subst hB
    rfl

/-- On a line that ends with a comma, `.*,` takes the whole line. -/
theorem head_run_star_comma (val B : Str) (hv : '\n' ∉ val) (hB : lineEnd B = true) :
    ((Re.seq (.star .dot) (.lit [','])).run (val ++ ',' :: B)).head? = some B := by
  have hl : '\n' ∉ val ++ [','] := by
    intro h
    rcases List.mem_append.mp h with h1 | h1
    · exact hv h1
    · simp at h1
  have e : val ++ ',' :: B = (val ++ [',']) ++ B := by simp
  obtain ⟨more, hm⟩ := backs_snoc val ',' B
  have hc : (Re.lit [',']).run (',' :: B) = [B] := run_lit_append [','] B
  rw [run_seq, e, run_star_dot_line _ B hl hB, hm]
  simp [run_comma_lineEnd B hB, hc]

/-- On a line, `.*` takes the whole line. -/
theorem head_run_star (val B : Str) (hv : '\n' ∉ val) (hB : lineEnd B = true) :
    ((Re.star Re.dot).run (val ++ B)).head? = some B := by
  obtain ⟨more, hm⟩ := backs_head val B
  rw [run_star_dot_line _ B hv hB, hm]
  rfl

theorem firstMatch_none_of (re : Re) (s : Str) (h : ∀ a b, s = a ++ b → re.run b = []) :
    firstMatch re s = none := by
  induction s with
  | nil => simp [firstMatch, matchHere, h [] [] rfl]
  | cons c t ih =>
    have h1 : re.run (c :: t) = [] := h [] (c :: t) rfl
    have h2 : firstMatch re t = none := ih (fun a b hab => h (c :: a) b (by rw [hab]; rfl))
    simp [firstMatch, matchHere, h1, h2]

theorem firstMatch_at (re : Re) (A L B : Str) (hA : NoStart re A (L ++ B)) (hL : L ≠ [])
    (hm : matchHere re (L ++ B) = some B) :
    firstMatch re (A ++ (L ++ B)) = some (A, L, B) := by
  induction A with
  | nil =>
    cases L with
    | nil => exact absurd rfl hL
    | cons c t =>
      have hm2 : matchHere re (c :: (t ++ B)) = some B := hm
      have hlen : (c :: (t ++ B)).length - B.length = (c :: t).length := by
        simp only [List.length_cons, List.length_append]
        omega
      have htake : List.take ((c :: (t ++ B)).length - B.length) (c :: (t ++ B)) = c :: t := by
        rw [hlen, show c :: (t ++ B) = (c :: t) ++ B from rfl, List.take_left]
      show firstMatch re (c :: (t ++ B)) = some ([], c :: t, B)
      unfold firstMatch
      rw [hm2]
      simp only [htake]
  | cons c t ih =>
    have h1 : re.run (c :: t ++ (L ++ B)) = [] := hA [] (c :: t) rfl (List.cons_ne_nil _ _)
    have h2 : NoStart re t (L ++ B) := fun a b hab hb => hA (c :: a) b (by rw [hab]; rfl) hb
    have h3 : matchHere re (c :: (t ++ (L ++ B))) = none := by
      simp only [matchHere]
      rw [show c :: (t ++ (L ++ B)) = c :: t ++ (L ++ B) from rfl, h1]
      rfl
    simp [firstMatch, h3, ih h2]

theorem replaceAll_of_none (re : Re) (f : Str → Str) (n : Nat) (jm : Bool) (s : Str)
    (h : firstMatch re s = none) : replaceAll re f n jm s = s := by
  cases n with
  | zero => rfl
  | succ m => simp [replaceAll, h]

theorem replaceAll_one (re : Re) (f : Str → Str) (n : Nat) (jm : Bool) (s A L B : Str)
    (hfm : firstMatch re s = some (A, L, B)) (hL : L ≠ []) :
    replaceAll re f (n + 1) jm s = A ++ (f L ++ replaceAll re f n true B) := by
  cases L with
  | nil => exact absurd rfl hL
  | cons c t => simp [replaceAll, hfm]

theorem firstMatch_none_of_free (re : Re) (ts : List Str) (B : Str) (htr : Triggered re ts)
    (hB : freeOf ts B = true) : firstMatch re B = none :=
  firstMatch_none_of re B (fun a b hab => htr b ((freeOf_iff ts B).mp hB a b hab))

/-- One substitution on a text in which the pattern matches once: `A` and `B`
are free of the triggers of the pattern and the match at `L` is `L` itself. -/
theorem replace_once (re : Re) (ts : List Str) (repl A L B : Str) (htr : Triggered re ts)
    (hAf : freeOf ts A = true) (hAe : endOk ts A = true) (hL : L ≠ [])
    (hm : matchHere re (L ++ B) = some B) (hB : freeOf ts B = true) :
    ReplaceAllString re (A ++ (L ++ B)) repl = A ++ (repl ++ B) := by
  unfold ReplaceAllString
  rw [replaceAll_one re _ _ _ _ A L B
    (firstMatch_at re A L B (noStart_of_free re ts A _ htr hAf hAe) hL hm) hL,
    replaceAll_of_none re _ _ _ B (firstMatch_none_of_free re ts B htr hB)]

theorem Calm.append {ts : List Str} {X Y : Str} (hX : Calm ts X) (hY : Calm ts Y) :
    Calm ts (X ++ Y) :=
  ⟨freeOf_append ts X Y hX.1 hX.2 hY.1, endOk_append ts X Y hX.2 hY.2⟩

theorem Calm.free_append {ts : List Str} {X Y : Str} (hX : Calm ts X)
    (hY : freeOf ts Y = true) : freeOf ts (X ++ Y) = true :=
  freeOf_append ts X Y hX.1 hX.2 hY

theorem isSpace_cases (w : Char) (h : isSpace w = true) :
    w = '\t' ∨ w = '\n' ∨ w = '\x0c' ∨ w = '\r' ∨ w = ' ' := by
  simp only [isSpace, Bool.or_eq_true, decide_eq_true_eq] at h
  tauto

theorem mem_triggersOf (K t : Str) (h : t ∈ triggersOf K) :
    ∃ w, isSpace w = true ∧ t = K ++ [w] := by
  simp only [triggersOf, List.mem_cons, List.mem_singleton, List.not_mem_nil, or_false] at h
  rcases h with h | h | h | h | h
  · exact ⟨'\t', by decide, h⟩
  · exact ⟨'\n', by decide, h⟩
  · exact ⟨'\x0c', by decide, h⟩
  · exact ⟨'\r', by decide, h⟩
  · exact ⟨' ', by decide, h⟩

theorem triggersOf_mem (K : Str) (w : Char) (h : isSpace w = true) :
    K ++ [w] ∈ triggersOf K := by
  rcases isSpace_cases w h with h | h | h | h | h <;> subst h <;> simp [triggersOf]

/-- A field pattern matches only where its key begins and a byte of `\s`
follows. -/
theorem triggered_field (K : Str) (r : Re) :
    Triggered (.seq (.lit K) (.seq .space r)) (triggersOf K) := by
  intro x hx
  rw [run_seq]
  by_cases hp : K.isPrefixOf x = true
  · obtain ⟨y, hy⟩ := (isPrefixOf_eq_true_iff K x).mp hp
    subst hy
    rw [run_lit_append]
    cases y with
    | nil => simp [Re.run]
    | cons w t =>
      by_cases hw : isSpace w = true
      · exfalso
        have : startsAny (triggersOf K) (K ++ w :: t) = true :=
          (startsAny_eq_true_iff _ _).mpr
            ⟨K ++ [w], triggersOf_mem K w hw, ⟨t, by simp⟩⟩
        rw [hx] at this
        exact Bool.false_ne_true this
      · simp [Re.run, hw]
  · rw [run_lit_of_not K x (Bool.eq_false_iff.mpr hp)]
    rfl

/-- A text without a byte of `\s` is free of the triggers of every key. -/
theorem freeOf_of_noSpace (K v : Str) (hv : noSpace v = true) :
    freeOf (triggersOf K) v = true := by
  rw [freeOf_iff]
  intro a b hab
  by_contra hcon
  rw [Bool.not_eq_false, startsAny_eq_true_iff] at hcon
  obtain ⟨t, ht, hpre⟩ := hcon
  obtain ⟨w, hw, rfl⟩ := mem_triggersOf K t ht
  have hwb : w ∈ b := hpre.subset (by simp)
  have hwv : w ∈ v := by rw [hab]; exact List.mem_append_right _ hwb
  have := List.all_eq_true.mp hv w hwv
  simp [hw] at this

theorem endOk_of_last (ts : List Str) (X : Str) (c : Char)
    (hc : ts.all (fun t => !t.dropLast.contains c) = true) : endOk ts (X ++ [c]) = true := by
  have h : (X ++ [c]).getLast? = some c := by simp
  simp only [endOk, h]
  exact hc

theorem endOk_of_space (K t : Str) (hK : noSpace K = true) (ht : endsWithSpace t = true) :
    endOk (triggersOf K) t = true := by
  rw [endOk_iff]
  intro c hc t1 ht1 hmem
  obtain ⟨w, _, rfl⟩ := mem_triggersOf K t1 ht1
  rw [List.dropLast_concat] at hmem
  have hsp : isSpace c = true := by
    simp only [endsWithSpace, hc] at ht
    exact ht
  have := List.all_eq_true.mp hK c hmem
  simp [hsp] at this

theorem noSpace_append (a b : Str) : noSpace (a ++ b) = (noSpace a && noSpace b) := by
  simp [noSpace, List.all_append]

theorem not_newline_of_noSpace (v : Str) (hv : noSpace v = true) : '\n' ∉ v := by
  intro h
  have := List.all_eq_true.mp hv '\n' h
  simp [isSpace] at this

/-- A line `lead value trail` is calm for a key when its lead is, the value
has no byte of `\s`, and the trail has none and ends well. -/
theorem calm_line (K lead v trail : Str) (c : Char) (hlead : Calm (triggersOf K) lead)
    (hv : noSpace v = true) (htrail : noSpace (trail ++ [c]) = true)
    (hc : (triggersOf K).all (fun t => !t.dropLast.contains c) = true) :
    Calm (triggersOf K) (lead ++ (v ++ (trail ++ [c]))) := by
  refine Calm.append hlead ⟨freeOf_of_noSpace K _ ?_, ?_⟩
  · rw [noSpace_append, hv, htrail]; rfl
  · rw [← List.append_assoc]
    exact endOk_of_last _ _ c hc

theorem matchHere_seq_lit (K : String) (r : Re) (rest : Str) :
    matchHere (.seq (.lit K.toList) r) (K.toList ++ rest) = matchHere r rest := by
  simp only [matchHere, run_seq, run_lit_append]
  simp

theorem matchHere_seq_space (r : Re) (rest : Str) :
    matchHere (.seq .space r) (' ' :: rest) = matchHere r rest := by
  simp only [matchHere, run_seq]
  simp [Re.run, isSpace]

/-- The match of a pattern `key\s.*,` on its field line. -/
theorem matchHere_field (K : String) (val B : Str) (hv : '\n' ∉ val) (hB : lineEnd B = true) :
    matchHere (Re.cat [.lit K.toList, .space, .star .dot, .lit ",".toList])
      (K.toList ++ ' ' :: (val ++ ',' :: B)) = some B := by
  show matchHere (.seq (.lit K.toList) (.seq .space (.seq (.star .dot) (.lit [','])))) _ = _
  rw [matchHere_seq_lit, matchHere_seq_space]
  exact head_run_star_comma val B hv hB

/-- The match of the pattern `host:\s'.*,` on its field line. -/
theorem matchHere_host (val B : Str) (hv : '\n' ∉ val) (hB : lineEnd B = true) :
    matchHere hostRegExp ("host:".toList ++ ' ' :: ("'".toList ++ (val ++ ',' :: B))) = some B := by
  show matchHere (.seq (.lit "host:".toList) (.seq .space (.seq (.lit "'".toList)
    (.seq (.star .dot) (.lit [','])))))
    ("host:".toList ++ ' ' :: ("'".toList ++ (val ++ ',' :: B))) = some B
  rw [matchHere_seq_lit, matchHere_seq_space, matchHere_seq_lit]
  exact head_run_star_comma val B hv hB

/-- The match of the pattern `assetPath:\s.*` on its field line. -/
theorem matchHere_assetPath (val B : Str) (hv : '\n' ∉ val) (hB : lineEnd B = true) :
    matchHere assetPathRegExp ("assetPath:".toList ++ ' ' :: (val ++ B)) = some B := by
  show matchHere (.seq (.lit "assetPath:".toList) (.seq .space (.star .dot))) _ = _
  rw [matchHere_seq_lit, matchHere_seq_space]
  exact head_run_star val B hv hB

/-! ## The six field substitutions on a page with one field per line -/

theorem calm_foldr (ts : List Str) (hnil : Calm ts []) (As : List Str) (h : AllCalm ts As) :
    Calm ts (As.foldr (fun a b => a ++ b) []) := by
  induction As with
  | nil => exact hnil
  | cons a t ih => exact Calm.append h.1 (ih h.2)

theorem foldr_append_eq (As : List Str) (X : Str) :
    As.foldr (fun a b => a ++ b) X = As.foldr (fun a b => a ++ b) [] ++ X := by
  induction As with
  | nil => rfl
  | cons a t ih => simp only [List.foldr_cons, ih, List.append_assoc]

theorem free_foldr (ts : List Str) (Bs : List Str) (X : Str) (h : AllCalm ts Bs)
    (hX : freeOf ts X = true) : freeOf ts (Bs.foldr (fun a b => a ++ b) X) = true := by
  induction Bs with
  | nil => exact hX
  | cons a t ih => exact Calm.free_append h.1 (ih h.2)

/-- One substitution after the calm texts `As`, before the calm texts `Bs` and
the text `post`. -/
theorem replace_between (re : Re) (ts : List Str) (repl : Str) (As Bs : List Str)
    (L post : Str) (htr : Triggered re ts) (hnil : Calm ts []) (hAs : AllCalm ts As)
    (hL : L ≠ []) (hm : matchHere re (L ++ Bs.foldr (fun a b => a ++ b) post)
      = some (Bs.foldr (fun a b => a ++ b) post))
    (hBs : AllCalm ts Bs) (hpost : freeOf ts post = true) :
    ReplaceAllString re (As.foldr (fun a b => a ++ b) (L ++ Bs.foldr (fun a b => a ++ b) post))
      repl = As.foldr (fun a b => a ++ b) (repl ++ Bs.foldr (fun a b => a ++ b) post) := by
  rw [foldr_append_eq As (L ++ _), foldr_append_eq As (repl ++ _)]
  have hA := calm_foldr ts hnil As hAs
  exact replace_once re ts repl _ L _ htr hA.1 hA.2 hL hm (free_foldr ts Bs post hBs hpost)

theorem noSpace_fieldKeys (K : Str) (hK : K ∈ fieldKeys) : noSpace K = true := by
  simp only [fieldKeys, List.mem_cons, List.mem_singleton, List.not_mem_nil, or_false] at hK
  rcases hK with h | h | h | h | h | h <;> subst h <;> decide

theorem calm_quiet (K t : Str) (hK : K ∈ fieldKeys) (hp : plainText t = true)
    (he : endsWithSpace t = true) : Calm (triggersOf K) t :=
  ⟨List.all_eq_true.mp hp K hK, endOk_of_space K t (noSpace_fieldKeys K hK) he⟩

theorem calm_separator (K t : Str) (hK : K ∈ fieldKeys) (h : separator t = true) :
    Calm (triggersOf K) t := by
  simp only [separator, Bool.and_eq_true] at h
  exact calm_quiet K t hK h.1.1 h.2

theorem lineEnd_of_separator (t X : Str) (h : separator t = true) : lineEnd (t ++ X) = true := by
  simp only [separator, Bool.and_eq_true] at h
  cases t with
  | nil => simp [beginsLine] at h
  | cons c r => simpa [beginsLine, lineEnd] using h.1.2

theorem calm_hostLine (K v : Str) (hK : K ∈ fieldKeys) (hne : K ≠ "host:".toList)
    (hv : noSpace v = true) : Calm (triggersOf K) (hostLine v) := by
  simp only [fieldKeys, List.mem_cons, List.mem_singleton, List.not_mem_nil, or_false] at hK
  rcases hK with h | h | h | h | h | h <;> subst h <;>
    first
    | exact absurd rfl hne
    | exact calm_line _ "host: '".toList v "'".toList ',' ⟨by decide, by decide⟩ hv
        (by decide) (by decide)

theorem calm_portLine (K v : Str) (hK : K ∈ fieldKeys) (hne : K ≠ "port:".toList)
    (hv : noSpace v = true) : Calm (triggersOf K) (portLine v) := by
  simp only [fieldKeys, List.mem_cons, List.mem_singleton, List.not_mem_nil, or_false] at hK
  rcases hK with h | h | h | h | h | h <;> subst h <;>
    first
    | exact absurd rfl hne
    | exact calm_line _ "port: ".toList v [] ',' ⟨by decide, by decide⟩ hv
        (by decide) (by decide)

theorem calm_schemeLine (K v : Str) (hK : K ∈ fieldKeys) (hne : K ≠ "scheme:".toList)
    (hv : noSpace v = true) : Calm (triggersOf K) (schemeLine v) := by
  simp only [fieldKeys, List.mem_cons, List.mem_singleton, List.not_mem_nil, or_false] at hK
  rcases hK with h | h | h | h | h | h <;> subst h <;>
    first
    | exact absurd rfl hne
    | exact calm_line _ "scheme: '".toList v "'".toList ',' ⟨by decide, by decide⟩ hv
        (by decide) (by decide)

theorem calm_schemeAndHttpHostLine (K v : Str) (hK : K ∈ fieldKeys)
    (hne : K ≠ "schemeAndHttpHost:".toList) (hv : noSpace v = true) :
    Calm (triggersOf K) (schemeAndHttpHostLine v) := by
  simp only [fieldKeys, List.mem_cons, List.mem_singleton, List.not_mem_nil, or_false] at hK
  rcases hK with h | h | h | h | h | h <;> subst h <;>
    first
    | exact absurd rfl hne
    | exact calm_line _ "schemeAndHttpHost: '".toList v "'".toList ',' ⟨by decide, by decide⟩ hv
        (by decide) (by decide)

theorem calm_uriLine (K v : Str) (hK : K ∈ fieldKeys) (hne : K ≠ "uri:".toList)
    (hv : noSpace v = true) : Calm (triggersOf K) (uriLine v) := by
  simp only [fieldKeys, List.mem_cons, List.mem_singleton, List.not_mem_nil, or_false] at hK
  rcases hK with h | h | h | h | h | h <;> subst h <;>
    first
    | exact absurd rfl hne
    | exact calm_line _ "uri: '".toList v "'".toList ',' ⟨by decide, by decide⟩ hv
        (by decide) (by decide)

theorem calm_assetPathLine (K v : Str) (hK : K ∈ fieldKeys) (hne : K ≠ "assetPath:".toList)
    (hv : noSpace v = true) : Calm (triggersOf K) (assetPathLine v) := by
  simp only [fieldKeys, List.mem_cons, List.mem_singleton, List.not_mem_nil, or_false] at hK
  rcases hK with h | h | h | h | h | h <;> subst h <;>
    first
    | exact absurd rfl hne
    | exact calm_line _ "assetPath: '".toList v [] '\'' ⟨by decide, by decide⟩ hv
        (by decide) (by decide)

theorem FieldPage.wf_of_wellFormed (p : FieldPage) (h : p.wellFormed = true) : p.WF := by
  simp only [FieldPage.wellFormed, Bool.and_eq_true] at h
  obtain ⟨⟨⟨⟨⟨⟨⟨⟨⟨⟨⟨⟨⟨⟨h1, h2⟩, h3⟩, h4⟩, h5⟩, h6⟩, h7⟩, h8⟩, h9⟩, h10⟩, h11⟩, h12⟩, h13⟩, h14⟩,
    h15⟩ := h
  exact ⟨h1, h2, h3, h4, h5, h6, h7, h8, h9, h10, h11, h12, h13, h14, h15⟩

theorem not_newline_quoted (v : Str) (hv : noSpace v = true) : '\n' ∉ v ++ "'".toList := by
  intro h
  rcases List.mem_append.mp h with h1 | h1
  · exact not_newline_of_noSpace v hv h1
  · simp at h1

theorem matchHere_hostLine (v B : Str) (hv : noSpace v = true) (hB : lineEnd B = true) :
    matchHere hostRegExp (hostLine v ++ B) = some B := by
  have e : hostLine v ++ B
      = "host:".toList ++ ' ' :: ("'".toList ++ ((v ++ "'".toList) ++ ',' :: B)) := by
    simp [hostLine]
  rw [e]
  exact matchHere_host _ B (not_newline_quoted v hv) hB

theorem matchHere_portLine (v B : Str) (hv : noSpace v = true) (hB : lineEnd B = true) :
    matchHere portRegExp (portLine v ++ B) = some B := by
  have e : portLine v ++ B = "port:".toList ++ ' ' :: (v ++ ',' :: B) := by
    simp [portLine]
  rw [e]
  exact matchHere_field "port:" v B (not_newline_of_noSpace v hv) hB

theorem matchHere_schemeLine (v B : Str) (hv : noSpace v = true) (hB : lineEnd B = true) :
    matchHere schemeRegExp (schemeLine v ++ B) = some B := by
  have e : schemeLine v ++ B
      = "scheme:".toList ++ ' ' :: (('\'' :: (v ++ "'".toList)) ++ ',' :: B) := by
    simp [schemeLine]
  rw [e]
  refine matchHere_field "scheme:" _ B ?_ hB
  intro h
  rcases List.mem_cons.mp h with h1 | h1
  · exact absurd h1 (by decide)
  · exact not_newline_quoted v hv h1

theorem matchHere_schemeAndHttpHostLine (v B : Str) (hv : noSpace v = true)
    (hB : lineEnd B = true) :
    matchHere schemeAndHttpHostRegExp (schemeAndHttpHostLine v ++ B) = some B := by
  have e : schemeAndHttpHostLine v ++ B
      = "schemeAndHttpHost:".toList ++ ' ' :: (('\'' :: (v ++ "'".toList)) ++ ',' :: B) := by
    simp [schemeAndHttpHostLine]
  rw [e]
  refine matchHere_field "schemeAndHttpHost:" _ B ?_ hB
  intro h
  rcases List.mem_cons.mp h with h1 | h1
  · exact absurd h1 (by decide)
  · exact not_newline_quoted v hv h1

theorem matchHere_uriLine (v B : Str) (hv : noSpace v = true) (hB : lineEnd B = true) :
    matchHere uriRegExp (uriLine v ++ B) = some B := by
  have e : uriLine v ++ B
      = "uri:".toList ++ ' ' :: (('\'' :: (v ++ "'".toList)) ++ ',' :: B) := by
    simp [uriLine]
  rw [e]
  refine matchHere_field "uri:" _ B ?_ hB
  intro h
  rcases List.mem_cons.mp h with h1 | h1
  · exact absurd h1 (by decide)
  · exact not_newline_quoted v hv h1

theorem matchHere_assetPathLine (v B : Str) (hv : noSpace v = true) (hB : lineEnd B = true) :
    matchHere assetPathRegExp (assetPathLine v ++ B) = some B := by
  have e : assetPathLine v ++ B
      = "assetPath:".toList ++ ' ' :: (('\'' :: (v ++ "'".toList)) ++ B) := by
    simp [assetPathLine]
  rw [e]
  refine matchHere_assetPath _ B ?_ hB
  intro h
  rcases List.mem_cons.mp h with h1 | h1
  · exact absurd h1 (by decide)
  · exact not_newline_quoted v hv h1

theorem step_host (p : FieldPage) (h : p.WF) :
    ReplaceAllString hostRegExp p.render "host: 'localhost',".toList
      = FieldPage.render { p with host := "localhost".toList } := by
  have K : "host:".toList ∈ fieldKeys := by decide
  exact replace_between hostRegExp (triggersOf "host:".toList) _ [p.pre]
    [p.s1, portLine p.port, p.s2, schemeLine p.scheme, p.s3,
      schemeAndHttpHostLine p.schemeAndHttpHost, p.s4, uriLine p.uri, p.s5,
      assetPathLine p.assetPath]
    (hostLine p.host) p.post (triggered_field _ _) ⟨by decide, by decide⟩
    ⟨calm_quiet _ _ K h.pre1 h.pre2, trivial⟩
    (by unfold hostLine; exact List.cons_ne_nil _ _)
    (matchHere_hostLine _ _ h.host (lineEnd_of_separator _ _ h.s1))
    ⟨calm_separator _ _ K h.s1, calm_portLine _ _ K (by decide) h.port,
      calm_separator _ _ K h.s2, calm_schemeLine _ _ K (by decide) h.scheme,
      calm_separator _ _ K h.s3,
      calm_schemeAndHttpHostLine _ _ K (by decide) h.schemeAndHttpHost,
      calm_separator _ _ K h.s4, calm_uriLine _ _ K (by decide) h.uri,
      calm_separator _ _ K h.s5, calm_assetPathLine _ _ K (by decide) h.assetPath, trivial⟩
    (List.all_eq_true.mp h.post1 _ K)

theorem FieldPage.WF.set_host {p : FieldPage} (h : p.WF) (v : Str) (hv : noSpace v = true) :
    FieldPage.WF { p with host := v } :=
  ⟨h.pre1, h.pre2, h.s1, h.s2, h.s3, h.s4, h.s5, h.post1, h.post2, hv, h.port, h.scheme, h.schemeAndHttpHost, h.uri, h.assetPath⟩

theorem FieldPage.WF.set_port {p : FieldPage} (h : p.WF) (v : Str) (hv : noSpace v = true) :
    FieldPage.WF { p with port := v } :=
  ⟨h.pre1, h.pre2, h.s1, h.s2, h.s3, h.s4, h.s5, h.post1, h.post2, h.host, hv, h.scheme, h.schemeAndHttpHost, h.uri, h.assetPath⟩

theorem FieldPage.WF.set_scheme {p : FieldPage} (h : p.WF) (v : Str) (hv : noSpace v = true) :
    FieldPage.WF { p with scheme := v } :=
  ⟨h.pre1, h.pre2, h.s1, h.s2, h.s3, h.s4, h.s5, h.post1, h.post2, h.host, h.port, hv, h.schemeAndHttpHost, h.uri, h.assetPath⟩

theorem FieldPage.WF.set_schemeAndHttpHost {p : FieldPage} (h : p.WF) (v : Str) (hv : noSpace v = true) :
    FieldPage.WF { p with schemeAndHttpHost := v } :=
  ⟨h.pre1, h.pre2, h.s1, h.s2, h.s3, h.s4, h.s5, h.post1, h.post2, h.host, h.port, h.scheme, hv, h.uri, h.assetPath⟩

theorem FieldPage.WF.set_uri {p : FieldPage} (h : p.WF) (v : Str) (hv : noSpace v = true) :
    FieldPage.WF { p with uri := v } :=
  ⟨h.pre1, h.pre2, h.s1, h.s2, h.s3, h.s4, h.s5, h.post1, h.post2, h.host, h.port, h.scheme, h.schemeAndHttpHost, hv, h.assetPath⟩

theorem FieldPage.WF.set_assetPath {p : FieldPage} (h : p.WF) (v : Str) (hv : noSpace v = true) :
    FieldPage.WF { p with assetPath := v } :=
  ⟨h.pre1, h.pre2, h.s1, h.s2, h.s3, h.s4, h.s5, h.post1, h.post2, h.host, h.port, h.scheme, h.schemeAndHttpHost, h.uri, hv⟩

theorem step_port (p : FieldPage) (h : p.WF) :
    ReplaceAllString portRegExp p.render "port: 8080,".toList
      = FieldPage.render { p with port := "8080".toList } := by
  have K : "port:".toList ∈ fieldKeys := by decide
  exact replace_between portRegExp (triggersOf "port:".toList) _
    [p.pre, hostLine p.host, p.s1]
    [p.s2, schemeLine p.scheme, p.s3, schemeAndHttpHostLine p.schemeAndHttpHost, p.s4, uriLine p.uri, p.s5, assetPathLine p.assetPath]
    (portLine p.port) p.post (triggered_field _ _) ⟨by decide, by decide⟩
    ⟨calm_quiet _ _ K h.pre1 h.pre2, calm_hostLine _ _ K (by decide) h.host, calm_separator _ _ K h.s1, trivial⟩
    (by unfold portLine; exact List.cons_ne_nil _ _)
    (matchHere_portLine _ _ h.port (lineEnd_of_separator _ _ h.s2))
    ⟨calm_separator _ _ K h.s2, calm_schemeLine _ _ K (by decide) h.scheme, calm_separator _ _ K h.s3, calm_schemeAndHttpHostLine _ _ K (by decide) h.schemeAndHttpHost, calm_separator _ _ K h.s4, calm_uriLine _ _ K (by decide) h.uri, calm_separator _ _ K h.s5, calm_assetPathLine _ _ K (by decide) h.assetPath, trivial⟩
    (List.all_eq_true.mp h.post1 _ K)

theorem step_scheme (p : FieldPage) (h : p.WF) :
    ReplaceAllString schemeRegExp p.render "scheme: 'http',".toList
      = FieldPage.render { p with scheme := "http".toList } := by
  have K : "scheme:".toList ∈ fieldKeys := by decide
  exact replace_between schemeRegExp (triggersOf "scheme:".toList) _
    [p.pre, hostLine p.host, p.s1, portLine p.port, p.s2]
    [p.s3, schemeAndHttpHostLine p.schemeAndHttpHost, p.s4, uriLine p.uri, p.s5, assetPathLine p.assetPath]
    (schemeLine p.scheme) p.post (triggered_field _ _) ⟨by decide, by decide⟩
    ⟨calm_quiet _ _ K h.pre1 h.pre2, calm_hostLine _ _ K (by decide) h.host, calm_separator _ _ K h.s1, calm_portLine _ _ K (by decide) h.port, calm_separator _ _ K h.s2, trivial⟩
    (by unfold schemeLine; exact List.cons_ne_nil _ _)
    (matchHere_schemeLine _ _ h.scheme (lineEnd_of_separator _ _ h.s3))
    ⟨calm_separator _ _ K h.s3, calm_schemeAndHttpHostLine _ _ K (by decide) h.schemeAndHttpHost, calm_separator _ _ K h.s4, calm_uriLine _ _ K (by decide) h.uri, calm_separator _ _ K h.s5, calm_assetPathLine _ _ K (by decide) h.assetPath, trivial⟩
    (List.all_eq_true.mp h.post1 _ K)

theorem step_schemeAndHttpHost (p : FieldPage) (h : p.WF) :
    ReplaceAllString schemeAndHttpHostRegExp p.render "schemeAndHttpHost: 'http://localhost:8080',".toList
      = FieldPage.render { p with schemeAndHttpHost := "http://localhost:8080".toList } := by
  have K : "schemeAndHttpHost:".toList ∈ fieldKeys := by decide
  exact replace_between schemeAndHttpHostRegExp (triggersOf "schemeAndHttpHost:".toList) _
    [p.pre, hostLine p.host, p.s1, portLine p.port, p.s2, schemeLine p.scheme, p.s3]
    [p.s4, uriLine p.uri, p.s5, assetPathLine p.assetPath]
    (schemeAndHttpHostLine p.schemeAndHttpHost) p.post (triggered_field _ _) ⟨by decide, by decide⟩
    ⟨calm_quiet _ _ K h.pre1 h.pre2, calm_hostLine _ _ K (by decide) h.host, calm_separator _ _ K h.s1, calm_portLine _ _ K (by decide) h.port, calm_separator _ _ K h.s2, calm_schemeLine _ _ K (by decide) h.scheme, calm_separator _ _ K h.s3, trivial⟩
    (by unfold schemeAndHttpHostLine; exact List.cons_ne_nil _ _)
    (matchHere_schemeAndHttpHostLine _ _ h.schemeAndHttpHost (lineEnd_of_separator _ _ h.s4))
    ⟨calm_separator _ _ K h.s4, calm_uriLine _ _ K (by decide) h.uri, calm_separator _ _ K h.s5, calm_assetPathLine _ _ K (by decide) h.assetPath, trivial⟩
    (List.all_eq_true.mp h.post1 _ K)

theorem step_uri (p : FieldPage) (h : p.WF) :
    ReplaceAllString uriRegExp p.render "uri: 'http://localhost:8080/admin',".toList
      = FieldPage.render { p with uri := "http://localhost:8080/admin".toList } := by
  have K : "uri:".toList ∈ fieldKeys := by decide
  exact replace_between uriRegExp (triggersOf "uri:".toList) _
    [p.pre, hostLine p.host, p.s1, portLine p.port, p.s2, schemeLine p.scheme, p.s3, schemeAndHttpHostLine p.schemeAndHttpHost, p.s4]
    [p.s5, assetPathLine p.assetPath]
    (uriLine p.uri) p.post (triggered_field _ _) ⟨by decide, by decide⟩
    ⟨calm_quiet _ _ K h.pre1 h.pre2, calm_hostLine _ _ K (by decide) h.host, calm_separator _ _ K h.s1, calm_portLine _ _ K (by decide) h.port, calm_separator _ _ K h.s2, calm_schemeLine _ _ K (by decide) h.scheme, calm_separator _ _ K h.s3, calm_schemeAndHttpHostLine _ _ K (by decide) h.schemeAndHttpHost, calm_separator _ _ K h.s4, trivial⟩
    (by unfold uriLine; exact List.cons_ne_nil _ _)
    (matchHere_uriLine _ _ h.uri (lineEnd_of_separator _ _ h.s5))
    ⟨calm_separator _ _ K h.s5, calm_assetPathLine _ _ K (by decide) h.assetPath, trivial⟩
    (List.all_eq_true.mp h.post1 _ K)

theorem step_assetPath (p : FieldPage) (h : p.WF) :
    ReplaceAllString assetPathRegExp p.render "assetPath: 'http://localhost:8080'".toList
      = FieldPage.render { p with assetPath := "http://localhost:8080".toList } := by
  have K : "assetPath:".toList ∈ fieldKeys := by decide
  exact replace_between assetPathRegExp (triggersOf "assetPath:".toList) _
    [p.pre, hostLine p.host, p.s1, portLine p.port, p.s2, schemeLine p.scheme, p.s3, schemeAndHttpHostLine p.schemeAndHttpHost, p.s4, uriLine p.uri, p.s5]
    []
    (assetPathLine p.assetPath) p.post (triggered_field _ _) ⟨by decide, by decide⟩
    ⟨calm_quiet _ _ K h.pre1 h.pre2, calm_hostLine _ _ K (by decide) h.host, calm_separator _ _ K h.s1, calm_portLine _ _ K (by decide) h.port, calm_separator _ _ K h.s2, calm_schemeLine _ _ K (by decide) h.scheme, calm_separator _ _ K h.s3, calm_schemeAndHttpHostLine _ _ K (by decide) h.schemeAndHttpHost, calm_separator _ _ K h.s4, calm_uriLine _ _ K (by decide) h.uri, calm_separator _ _ K h.s5, trivial⟩
    (by unfold assetPathLine; exact List.cons_ne_nil _ _)
    (matchHere_assetPathLine _ _ h.assetPath h.post2)
    trivial
    (List.all_eq_true.mp h.post1 _ K)

/-- The six substitutions on a well-formed page replace the six values and
nothing else. -/
theorem rewriteFields_render (p : FieldPage) (h : p.WF) :
    rewriteFields p.render = p.localized.render := by
  have h1 := h.set_host "localhost".toList (by decide)
  have h2 := h1.set_port "8080".toList (by decide)
  have h3 := h2.set_scheme "http".toList (by decide)
  have h4 := h3.set_schemeAndHttpHost "http://localhost:8080".toList (by decide)
  have h5 := h4.set_uri "http://localhost:8080/admin".toList (by decide)
  unfold rewriteFields
  simp only []
  rw [step_host p h, step_port _ h1, step_scheme _ h2, step_schemeAndHttpHost _ h3,
    step_uri _ h4, step_assetPath _ h5]
  rfl

/-! ## Patterns without an empty match -/

theorem starRun_length_le (f : Str → List Str) (n : Nat) :
    ∀ s r, r ∈ starRun f n s → r.length ≤ s.length := by
  induction n with
  | zero =>
    intro s r hr
    simp only [starRun, List.mem_singleton] at hr
    rw [hr]
  | succ m ih =>
    intro s r hr
    simp only [starRun, List.mem_append, List.mem_flatMap, List.mem_filter,
      decide_eq_true_eq, List.mem_singleton] at hr
    rcases hr with ⟨t, ⟨_, ht2⟩, hr2⟩ | hr
    · exact Nat.le_trans (ih t r hr2) (Nat.le_of_lt ht2)
    · rw [hr]

theorem run_length_le (re : Re) : ∀ s r, r ∈ re.run s → r.length ≤ s.length := by
  induction re with
  | lit p =>
    intro s r hr
    by_cases hp : p.isPrefixOf s = true
    · simp only [Re.run, hp, if_true, List.mem_singleton] at hr
      rw [hr]; simp
    · simp [Re.run, hp] at hr
  | space =>
    intro s r hr
    cases s with
    | nil => simp [Re.run] at hr
    | cons x t =>
      by_cases hx : isSpace x = true
      · simp only [Re.run, hx, if_true, List.mem_singleton] at hr
        rw [hr]; simp
      · simp [Re.run, hx] at hr
  | dot =>
    intro s r hr
    cases s with
    | nil => simp [Re.run] at hr
    | cons x t =>
      by_cases hx : x = '\n'
      · simp [Re.run, hx] at hr
      · simp only [Re.run, hx, if_false, List.mem_singleton] at hr
        rw [hr]; simp
  | seq a b iha ihb =>
    intro s r hr
    simp only [Re.run, List.mem_flatMap] at hr
    obtain ⟨m, hm, hr2⟩ := hr
    exact Nat.le_trans (ihb m r hr2) (iha s m hm)
  | alt a b iha ihb =>
    intro s r hr
    simp only [Re.run, List.mem_append] at hr
    rcases hr with h | h
    · exact iha s r h
    · exact ihb s r h
  | opt a iha =>
    intro s r hr
    simp only [Re.run, List.mem_append, List.mem_singleton] at hr
    rcases hr with h | h
    · exact iha s r h
    · rw [h]
  | star a iha =>
    intro s r hr
    simp only [Re.run] at hr
    exact starRun_length_le a.run _ s r hr

/-- A pattern that starts with a literal that is not empty has no empty
match. -/
theorem noEmpty_seq_lit (K : Str) (hK : K ≠ []) (r : Re) : PatternNoEmpty (.seq (.lit K) r) := by
  intro s x hx
  simp only [Re.run, List.mem_flatMap] at hx
  obtain ⟨m, hm, hx2⟩ := hx
  by_cases hp : K.isPrefixOf s = true
  · simp only [hp, if_true, List.mem_singleton] at hm
    have h1 := run_length_le r m x hx2
    have h2 : K.length ≤ s.length := ((isPrefixOf_eq_true_iff K s).mp hp).length_le
    have h3 : 0 < K.length := List.length_pos.mpr hK
    rw [hm, List.length_drop] at h1
    omega
  · simp [hp] at hm

theorem firstMatch_cons_of_none (re : Re) (c : Char) (t : Str)
    (h : matchHere re (c :: t) = none) :
    firstMatch re (c :: t) = (firstMatch re t).map (fun r => (c :: r.1, r.2.1, r.2.2)) := by
  simp [firstMatch, h]

theorem firstMatch_skip (re : Re) (A rest : Str) (hA : NoStart re A rest) :
    firstMatch re (A ++ rest)
      = (firstMatch re rest).map (fun r => (A ++ r.1, r.2.1, r.2.2)) := by
  induction A with
  | nil =>
    cases h : firstMatch re rest with
    | none => simp [h]
    | some x => simp [h]
  | cons c t ih =>
    have h1 : re.run (c :: t ++ rest) = [] := hA [] (c :: t) rfl (List.cons_ne_nil _ _)
    have h2 : NoStart re t rest := fun a b hab hb => hA (c :: a) b (by rw [hab]; rfl) hb
    have h3 : matchHere re (c :: (t ++ rest)) = none := by
      simp only [matchHere]
      rw [show c :: (t ++ rest) = c :: t ++ rest from rfl, h1]
      rfl
    rw [show c :: t ++ rest = c :: (t ++ rest) from rfl, firstMatch_cons_of_none re c _ h3,
      ih h2]
    cases firstMatch re rest <;> rfl

theorem firstMatch_ne_nil (re : Re) (hne : PatternNoEmpty re) :
    ∀ s b m a, firstMatch re s = some (b, m, a) → m ≠ [] := by
  intro s
  induction s with
  | nil =>
    intro b m a h
    unfold firstMatch at h
    cases hm : matchHere re [] with
    | none => rw [hm] at h; cases h
    | some r =>
      have hr : r ∈ re.run [] := List.mem_of_mem_head? hm
      exact absurd (hne [] r hr) (by simp)
  | cons c t ih =>
    intro b m a h
    unfold firstMatch at h
    cases hm : matchHere re (c :: t) with
    | none =>
      rw [hm] at h
      cases hf : firstMatch re t with
      | none => rw [hf] at h; cases h
      | some x =>
        obtain ⟨b1, m1, a1⟩ := x
        rw [hf] at h
        simp only [Option.map_some', Option.some.injEq, Prod.mk.injEq] at h
        rw [← h.2.1]
        exact ih b1 m1 a1 hf
    | some r =>
      rw [hm] at h
      simp only [Option.some.injEq, Prod.mk.injEq] at h
      have hr : r ∈ re.run (c :: t) := List.mem_of_mem_head? hm
      have hlt := hne (c :: t) r hr
      rw [← h.2.1]
      intro hnil
      have := congrArg List.length hnil
      simp only [List.length_take, List.length_nil, List.length_cons] at this hlt
      omega

theorem replaceAll_skip (re : Re) (f : Str → Str) (hne : PatternNoEmpty re) (n : Nat) (jm : Bool)
    (A rest : Str) (hA : NoStart re A rest) :
    replaceAll re f n jm (A ++ rest) = A ++ replaceAll re f n jm rest := by
  cases n with
  | zero => rfl
  | succ k =>
    cases hf : firstMatch re rest with
    | none =>
      have h2 : firstMatch re (A ++ rest) = none := by rw [firstMatch_skip re A rest hA, hf]; rfl
      rw [replaceAll_of_none re f _ jm _ h2, replaceAll_of_none re f _ jm _ hf]
    | some x =>
      obtain ⟨b, m, a⟩ := x
      have hm : m ≠ [] := firstMatch_ne_nil re hne rest b m a hf
      have h2 : firstMatch re (A ++ rest) = some (A ++ b, m, a) := by
        rw [firstMatch_skip re A rest hA, hf]; rfl
      rw [replaceAll_one re f k jm _ _ m a h2 hm, replaceAll_one re f k jm _ _ m a hf hm,
        List.append_assoc]

/-- A substitution leaves a calm text at the start as it is. -/
theorem replace_skip (re : Re) (ts : List Str) (f : Str → Str) (P X : Str)
    (htr : Triggered re ts) (hne : PatternNoEmpty re) (hP : Calm ts P) :
    ∃ Y, ReplaceAllStringFunc re (P ++ X) f = P ++ Y :=
  ⟨_, replaceAll_skip re f hne _ false P X (noStart_of_free re ts P X htr hP.1 hP.2)⟩

/-- The match at the end of a calm text: the text before the match is kept,
the match is replaced. -/
theorem replace_first (re : Re) (ts : List Str) (f : Str → Str) (A s r : Str)
    (htr : Triggered re ts) (hne : PatternNoEmpty re) (hA : Calm ts A)
    (hm : matchHere re s = some r) :
    ∃ Y, ReplaceAllStringFunc re (A ++ s) f
      = A ++ (f (s.take (s.length - r.length)) ++ Y) := by
  have hns := noStart_of_free re ts A s htr hA.1 hA.2
  have hfs : firstMatch re s = some ([], s.take (s.length - r.length), r) := by
    cases s with
    | nil => exact absurd (hne [] r (List.mem_of_mem_head? hm)) (by simp)
    | cons c t => simp [firstMatch, hm]
  have hf : firstMatch re (A ++ s) = some (A, s.take (s.length - r.length), r) := by
    rw [firstMatch_skip re A s hns, hfs]; simp
  have hnil := firstMatch_ne_nil re hne _ _ _ _ hf
  exact ⟨_, replaceAll_one re f _ false _ A _ r hf hnil⟩

theorem mem_starRun_self (f : Str → List Str) (n : Nat) (s : Str) : s ∈ starRun f n s := by
  cases n <;> simp [starRun]

theorem mem_starRun_dot (l rest : Str) (n : Nat) (hl : '\n' ∉ l) (hn : l.length ≤ n) :
    rest ∈ starRun Re.dot.run n (l ++ rest) := by
  induction l generalizing n with
  | nil => exact mem_starRun_self _ _ _
  | cons c t ih =>
    cases n with
    | zero => simp at hn
    | succ m =>
      have hc : c ≠ '\n' := fun h => hl (by rw [h]; exact List.mem_cons_self _ _)
      have ht : '\n' ∉ t := fun h => hl (List.mem_cons_of_mem _ h)
      have hm : t.length ≤ m := by simpa using hn
      simp only [starRun, List.cons_append, Re.run, hc, if_false, List.mem_append,
        List.mem_flatMap, List.mem_filter, List.mem_singleton, decide_eq_true_eq]
      exact Or.inl ⟨t ++ rest, ⟨rfl, by simp⟩, ih m ht hm⟩

theorem mem_run_star_dot (l rest : Str) (hl : '\n' ∉ l) :
    rest ∈ (Re.star Re.dot).run (l ++ rest) := by
  simp only [Re.run]
  exact mem_starRun_dot l rest _ hl (by simp)

theorem mem_run_lit (p s r : Str) : r ∈ (Re.lit p).run s ↔ s = p ++ r := by
  by_cases hp : p.isPrefixOf s = true
  · obtain ⟨y, hy⟩ := (isPrefixOf_eq_true_iff p s).mp hp
    subst hy
    rw [run_lit_append]
    simp [eq_comm]
  · rw [run_lit_of_not p s (Bool.eq_false_iff.mpr hp)]
    simp only [List.not_mem_nil, false_iff]
    intro h
    exact hp ((isPrefixOf_eq_true_iff p s).mpr ⟨r, h.symm⟩)

theorem mem_run_seq (a b : Re) (s r : Str) :
    r ∈ (Re.seq a b).run s ↔ ∃ m, m ∈ a.run s ∧ r ∈ b.run m := by
  simp [Re.run, List.mem_flatMap]

theorem mem_run_alt (a b : Re) (s r : Str) :
    r ∈ (Re.alt a b).run s ↔ r ∈ a.run s ∨ r ∈ b.run s := by
  simp [Re.run]

theorem mem_run_opt (a : Re) (s r : Str) :
    r ∈ (Re.opt a).run s ↔ r ∈ a.run s ∨ r = s := by
  simp [Re.run]

theorem noEmpty_lit (K : Str) (hK : K ≠ []) : PatternNoEmpty (.lit K) := by
  intro s r hr
  rw [mem_run_lit] at hr
  have h3 : 0 < K.length := List.length_pos.mpr hK
  rw [hr, List.length_append]
  omega

theorem noEmpty_alt (a b : Re) (ha : PatternNoEmpty a) (hb : PatternNoEmpty b) :
    PatternNoEmpty (.alt a b) := by
  intro s r hr
  rcases (mem_run_alt a b s r).mp hr with h | h
  · exact ha s r h
  · exact hb s r h

theorem noEmpty_seq_left (a b : Re) (ha : PatternNoEmpty a) : PatternNoEmpty (.seq a b) := by
  intro s r hr
  obtain ⟨m, hm, hr2⟩ := (mem_run_seq a b s r).mp hr
  exact Nat.lt_of_le_of_lt (run_length_le b m r hr2) (ha s m hm)

theorem noEmpty_assetRegExp : PatternNoEmpty assetRegExp :=
  noEmpty_seq_left _ _
    (noEmpty_alt _ _ (noEmpty_lit _ (by decide))
      (noEmpty_alt _ _ (noEmpty_lit _ (by decide)) (noEmpty_lit _ (by decide))))

theorem triggered_assetRegExp : Triggered assetRegExp assetTriggers := by
  intro x hx
  rw [List.eq_nil_iff_forall_not_mem]
  intro r hr
  have hr' : r ∈ (Re.seq (.alt (.lit "src".toList) (.alt (.lit "href".toList)
      (.lit "content".toList))) (.seq (.lit "=\"".toList) (.seq (.lit "http".toList)
      (Re.cat [.opt (.lit "s".toList), .star .dot, .lit "/bundles".toList, .star .dot,
        .lit "\"".toList])))).run x := hr
  rw [mem_run_seq] at hr'
  obtain ⟨m1, hm1, h2⟩ := hr'
  rw [mem_run_seq] at h2
  obtain ⟨m2, hm2, h3⟩ := h2
  rw [mem_run_seq] at h3
  obtain ⟨m3, hm3, _⟩ := h3
  rw [mem_run_lit] at hm2 hm3
  have : startsAny assetTriggers x = true := by
    rw [startsAny_eq_true_iff]
    rw [mem_run_alt, mem_run_alt, mem_run_lit, mem_run_lit, mem_run_lit] at hm1
    rcases hm1 with h | h | h
    · exact ⟨"src=\"http".toList, by decide, ⟨m3, by rw [h, hm2, hm3]; rfl⟩⟩
    · exact ⟨"href=\"http".toList, by decide, ⟨m3, by rw [h, hm2, hm3]; rfl⟩⟩
    · exact ⟨"content=\"http".toList, by decide, ⟨m3, by rw [h, hm2, hm3]; rfl⟩⟩
  rw [hx] at this
  exact Bool.false_ne_true this

theorem endOk_asset_of_space (t : Str) (ht : endsWithSpace t = true) :
    endOk assetTriggers t = true := by
  unfold endOk
  unfold endsWithSpace at ht
  cases h : t.getLast? with
  | none => rfl
  | some c =>
    rw [h] at ht
    rcases isSpace_cases c ht with h1 | h1 | h1 | h1 | h1 <;> subst h1 <;> decide

theorem calm_asset (t : Str) (h : quietText t = true) : Calm assetTriggers t := by
  simp only [quietText, Bool.and_eq_true] at h
  exact ⟨h.1.2, endOk_asset_of_space t h.2⟩

theorem calm_field (K t : Str) (hK : K ∈ fieldKeys) (h : quietText t = true) :
    Calm (triggersOf K) t := by
  simp only [quietText, Bool.and_eq_true] at h
  exact calm_quiet K t hK h.1.1 h.2

theorem contains_mid (a m b : Str) : Contains (a ++ (m ++ b)) m = true := by
  induction a with
  | nil =>
    have h : m.isPrefixOf (m ++ b) = true :=
      (isPrefixOf_eq_true_iff _ _).mpr (List.prefix_append m b)
    cases hmb : m ++ b with
    | nil =>
      rw [hmb] at h
      show Contains [] m = true
      unfold Contains
      exact h
    | cons c t =>
      rw [hmb] at h
      show Contains (c :: t) m = true
      unfold Contains
      rw [h]; rfl
  | cons c t ih =>
    rw [List.cons_append, Contains, ih, Bool.or_true]

/-- A match of a pattern `key\s.*,` exists on a field line, whatever follows
it. -/
theorem matchHere_field_exists (K : String) (val Y : Str) (hv : '\n' ∉ val) :
    ∃ r, matchHere (Re.cat [.lit K.toList, .space, .star .dot, .lit ",".toList])
      (K.toList ++ ' ' :: (val ++ ',' :: Y)) = some r := by
  have e : matchHere (Re.cat [.lit K.toList, .space, .star .dot, .lit ",".toList])
      (K.toList ++ ' ' :: (val ++ ',' :: Y))
      = matchHere (.seq (.star .dot) (.lit [','])) (val ++ ',' :: Y) := by
    show matchHere (.seq (.lit K.toList) (.seq .space (.seq (.star .dot) (.lit [','])))) _ = _
    rw [matchHere_seq_lit, matchHere_seq_space]
  rw [e]
  have hmem : Y ∈ (Re.seq (.star .dot) (.lit [','])).run (val ++ ',' :: Y) := by
    rw [mem_run_seq]
    exact ⟨',' :: Y, mem_run_star_dot val _ hv, (mem_run_lit _ _ _).mpr rfl⟩
  unfold matchHere
  cases h : (Re.seq (.star .dot) (.lit [','])).run (val ++ ',' :: Y) with
  | nil => rw [h] at hmem; cases hmem
  | cons r t => exact ⟨r, rfl⟩

/-- The first match at the end of a calm text, with the rest of the
substitution spelled out. -/
theorem replace_first_rest (re : Re) (ts : List Str) (f : Str → Str) (A L B : Str)
    (htr : Triggered re ts) (hA : Calm ts A) (hL : L ≠ [])
    (hm : matchHere re (L ++ B) = some B) :
    ∃ n, ReplaceAllStringFunc re (A ++ (L ++ B)) f = A ++ (f L ++ replaceAll re f n true B) :=
  ⟨_, replaceAll_one re f _ false _ A L B
    (firstMatch_at re A L B (noStart_of_free re ts A _ htr hA.1 hA.2) hL hm) hL⟩

theorem lineEnd_of_beginsLine (t X : Str) (h : beginsLine t = true) : lineEnd (t ++ X) = true := by
  cases t with
  | nil => simp [beginsLine] at h
  | cons c r => simpa [beginsLine, lineEnd] using h

/-- A substitution whose pattern cannot start a match in the four texts
leaves them as they are. -/
theorem replace_skip_four (re : Re) (ts : List Str) (f : Str → Str) (a b c d X : Str)
    (htr : Triggered re ts) (hne : PatternNoEmpty re) (ha : Calm ts a) (hb : Calm ts b)
    (hc : Calm ts c) (hd : Calm ts d) :
    ∃ Y, ReplaceAllStringFunc re (a ++ (b ++ (c ++ (d ++ X)))) f
      = a ++ (b ++ (c ++ (d ++ Y))) := by
  obtain ⟨Y, hY⟩ := replace_skip re ts f (a ++ (b ++ (c ++ d))) X htr hne
    (Calm.append ha (Calm.append hb (Calm.append hc hd)))
  refine ⟨Y, ?_⟩
  simp only [List.append_assoc] at hY
  exact hY

/-- The rewrite of a page with the host field and the port field on two
lines: both fields are replaced and the texts before and between them are
kept. -/
theorem rewrite_two_lines_aux (pre sep post : Str) (hpre : quietText pre = true)
    (hsep : quietText sep = true) (hline : beginsLine sep = true) :
    ∃ Y, RewriteBootstrapHtml
        (pre ++ (hostLine "shop.example".toList ++ (sep ++ (portLine "443".toList ++ post))))
      = pre ++ (hostLine "localhost".toList ++ (sep ++ (portLine "8080".toList ++ Y))) := by
  have Khost : "host:".toList ∈ fieldKeys := by decide
  have Kport : "port:".toList ∈ fieldKeys := by decide
  have Kscheme : "scheme:".toList ∈ fieldKeys := by decide
  have Ksah : "schemeAndHttpHost:".toList ∈ fieldKeys := by decide
  have Kuri : "uri:".toList ∈ fieldKeys := by decide
  have Kasset : "assetPath:".toList ∈ fieldKeys := by decide
  -- the host field
  obtain ⟨Y1, e1⟩ : ∃ Y, ReplaceAllString hostRegExp
      (pre ++ (hostLine "shop.example".toList ++ (sep ++ (portLine "443".toList ++ post))))
      "host: 'localhost',".toList
      = pre ++ (hostLine "localhost".toList ++ (sep ++ (portLine "443".toList ++ Y))) := by
    obtain ⟨n, hn⟩ := replace_first_rest hostRegExp (triggersOf "host:".toList)
      (fun _ => "host: 'localhost',".toList) pre (hostLine "shop.example".toList)
      (sep ++ (portLine "443".toList ++ post)) (triggered_field _ _)
      (calm_field _ _ Khost hpre) (by decide)
      (matchHere_hostLine _ _ (by decide) (lineEnd_of_beginsLine _ _ hline))
    have hs := replaceAll_skip hostRegExp (fun _ => "host: 'localhost',".toList)
      (noEmpty_seq_lit _ (by decide) _) n true (sep ++ portLine "443".toList) post
      (noStart_of_free hostRegExp (triggersOf "host:".toList) _ _ (triggered_field _ _)
        (Calm.append (calm_field _ _ Khost hsep) ⟨by decide, by decide⟩).1
        (Calm.append (calm_field _ _ Khost hsep) ⟨by decide, by decide⟩).2)
    rw [List.append_assoc] at hs
    refine ⟨replaceAll hostRegExp (fun _ => "host: 'localhost',".toList) n true post, ?_⟩
    show ReplaceAllStringFunc hostRegExp _ (fun _ => "host: 'localhost',".toList) = _
    rw [hn, hs, List.append_assoc]
    rfl
  -- the port field
  obtain ⟨Y2, e2⟩ : ∃ Y, ReplaceAllString portRegExp
      (pre ++ (hostLine "localhost".toList ++ (sep ++ (portLine "443".toList ++ Y1))))
      "port: 8080,".toList
      = pre ++ (hostLine "localhost".toList ++ (sep ++ (portLine "8080".toList ++ Y))) := by
    obtain ⟨r, hr⟩ := matchHere_field_exists "port:" "443".toList Y1 (by decide)
    obtain ⟨Y, hY⟩ := replace_first portRegExp (triggersOf "port:".toList)
      (fun _ => "port: 8080,".toList) (pre ++ (hostLine "localhost".toList ++ sep))
      (portLine "443".toList ++ Y1) r (triggered_field _ _) (noEmpty_seq_lit _ (by decide) _)
      (Calm.append (calm_field _ _ Kport hpre)
        (Calm.append ⟨by decide, by decide⟩ (calm_field _ _ Kport hsep))) hr
    refine ⟨Y, ?_⟩
    simp only [List.append_assoc] at hY
    exact hY
  -- the other field patterns and the asset pattern find nothing before `Y2`
  obtain ⟨Y3, e3⟩ := replace_skip_four schemeRegExp (triggersOf "scheme:".toList)
    (fun _ => "scheme: 'http',".toList) pre (hostLine "localhost".toList) sep
    (portLine "8080".toList) Y2 (triggered_field _ _) (noEmpty_seq_lit _ (by decide) _)
    (calm_field _ _ Kscheme hpre) ⟨by decide, by decide⟩ (calm_field _ _ Kscheme hsep)
    ⟨by decide, by decide⟩
  obtain ⟨Y4, e4⟩ := replace_skip_four schemeAndHttpHostRegExp
    (triggersOf "schemeAndHttpHost:".toList)
    (fun _ => "schemeAndHttpHost: 'http://localhost:8080',".toList) pre
    (hostLine "localhost".toList) sep (portLine "8080".toList) Y3 (triggered_field _ _)
    (noEmpty_seq_lit _ (by decide) _)
    (calm_field _ _ Ksah hpre) ⟨by decide, by decide⟩ (calm_field _ _ Ksah hsep)
    ⟨by decide, by decide⟩
  obtain ⟨Y5, e5⟩ := replace_skip_four uriRegExp (triggersOf "uri:".toList)
    (fun _ => "uri: 'http://localhost:8080/admin',".toList) pre (hostLine "localhost".toList)
    sep (portLine "8080".toList) Y4 (triggered_field _ _) (noEmpty_seq_lit _ (by decide) _)
    (calm_field _ _ Kuri hpre) ⟨by decide, by decide⟩ (calm_field _ _ Kuri hsep)
    ⟨by decide, by decide⟩
  obtain ⟨Y6, e6⟩ := replace_skip_four assetPathRegExp (triggersOf "assetPath:".toList)
    (fun _ => "assetPath: 'http://localhost:8080'".toList) pre (hostLine "localhost".toList)
    sep (portLine "8080".toList) Y5 (triggered_field _ _) (noEmpty_seq_lit _ (by decide) _)
    (calm_field _ _ Kasset hpre) ⟨by decide, by decide⟩ (calm_field _ _ Kasset hsep)
    ⟨by decide, by decide⟩
  obtain ⟨Y7, e7⟩ := replace_skip_four assetRegExp assetTriggers assetCallback pre
    (hostLine "localhost".toList) sep (portLine "8080".toList) Y6 triggered_assetRegExp
    noEmpty_assetRegExp (calm_asset _ hpre) ⟨by decide, by decide⟩ (calm_asset _ hsep)
    ⟨by decide, by decide⟩
  refine ⟨Y7, ?_⟩
  have e3' : ReplaceAllString schemeRegExp _ "scheme: 'http',".toList = _ := e3
  have e4' : ReplaceAllString schemeAndHttpHostRegExp _
    "schemeAndHttpHost: 'http://localhost:8080',".toList = _ := e4
  have e5' : ReplaceAllString uriRegExp _ "uri: 'http://localhost:8080/admin',".toList = _ := e5
  have e6' : ReplaceAllString assetPathRegExp _ "assetPath: 'http://localhost:8080'".toList = _ :=
    e6
  unfold RewriteBootstrapHtml rewriteAssets rewriteFields
  simp only []
  rw [e1, e2, e3', e4', e5', e6']
  exact e7

/-! ## The callback of the asset rewrite: parsing and writing a URL -/

theorem Cut_of_not_mem (c : Char) (s : Str) (h : c ∉ s) : Cut c s = (s, [], false) := by
  induction s with
  | nil => rfl
  | cons x t ih =>
    have hx : x ≠ c := fun e => h (by rw [e]; exact List.mem_cons_self _ _)
    have ht : c ∉ t := fun e => h (List.mem_cons_of_mem _ e)
    simp [Cut, hx, ih ht]

theorem Cut_append (c : Char) (a b : Str) (h : c ∉ a) : Cut c (a ++ c :: b) = (a, b, true) := by
  induction a with
  | nil => simp [Cut]
  | cons x t ih =>
    have hx : x ≠ c := fun e => h (by rw [e]; exact List.mem_cons_self _ _)
    have ht : c ∉ t := fun e => h (List.mem_cons_of_mem _ e)
    simp [Cut, hx, ih ht]

theorem cutLast_of_not_mem (c : Char) (s : Str) (h : c ∉ s) : cutLast c s = none := by
  have h2 : c ∉ s.reverse := fun e => h (List.mem_reverse.mp e)
  simp [cutLast, Cut_of_not_mem c _ h2]

theorem HasPrefix_singleton_of_not_mem (c : Char) (s : Str) (h : c ∉ s) :
    HasPrefix s [c] = false := by
  cases s with
  | nil => rfl
  | cons x t =>
    have hx : c ≠ x := fun e => h (by rw [e]; exact List.mem_cons_self _ _)
    simp [HasPrefix, List.isPrefixOf, hx]

theorem char_le_iff (a b : Char) : a ≤ b ↔ a.toNat ≤ b.toNat := by
  rw [Char.le_def]
  exact UInt32.le_def

theorem isAlnum_range (c : Char) (h : isAlnum c = true) : 48 ≤ c.toNat ∧ c.toNat ≤ 122 := by
  simp only [isAlnum, Bool.or_eq_true, Bool.and_eq_true, decide_eq_true_eq, char_le_iff] at h
  have e1 : 'a'.toNat = 97 := rfl
  have e2 : 'z'.toNat = 122 := rfl
  have e3 : 'A'.toNat = 65 := rfl
  have e4 : 'Z'.toNat = 90 := rfl
  have e5 : '0'.toNat = 48 := rfl
  have e6 : '9'.toNat = 57 := rfl
  rw [e1, e2, e3, e4, e5, e6] at h
  omega

theorem isAlnum_not_ctl (c : Char) (h : isAlnum c = true) : ctlByte c = false := by
  have := isAlnum_range c h
  simp only [ctlByte, Bool.or_eq_false_iff, decide_eq_false_iff_not]
  omega

theorem hostByte_not_ctl (c : Char) (h : hostByte c = true) : ctlByte c = false := by
  simp only [hostByte, Bool.or_eq_true, decide_eq_true_eq] at h
  rcases h with ((h | h) | h) | h
  · exact isAlnum_not_ctl c h
  · subst h; decide
  · subst h; decide
  · subst h; decide

theorem hostByte_ne (c x : Char) (h : hostByte c = true) (hx : hostByte x = false) : c ≠ x := by
  intro e
  rw [e, hx] at h
  exact Bool.false_ne_true h

theorem not_mem_of_all_hostByte (host : Str) (x : Char) (h : host.all hostByte = true)
    (hx : hostByte x = false) : x ∉ host := by
  intro hm
  have := List.all_eq_true.mp h x hm
  rw [hx] at this
  exact Bool.false_ne_true this

theorem parseAuthority_host (host : Str) (h : host.all hostByte = true)
    (hp : parseHost host = some host) : parseAuthority host = some (none, host) := by
  unfold parseAuthority
  rw [cutLast_of_not_mem '@' host (not_mem_of_all_hostByte host _ h (by decide))]
  simp [hp]

theorem takeWhile_host (host rest : Str) (h : host.all hostByte = true) :
    (host ++ '/' :: rest).takeWhile (fun c => c ≠ '/') = host := by
  induction host with
  | nil => simp
  | cons c t ih =>
    simp only [List.all_cons, Bool.and_eq_true] at h
    have h1 : c ≠ '/' := hostByte_ne c _ h.1 (by decide)
    have ih2 := ih h.2
    simp only [ne_eq, decide_not] at ih2 ⊢
    simp [List.takeWhile, h1, ih2]

theorem dropWhile_host (host rest : Str) (h : host.all hostByte = true) :
    (host ++ '/' :: rest).dropWhile (fun c => c ≠ '/') = '/' :: rest := by
  induction host with
  | nil => simp
  | cons c t ih =>
    simp only [List.all_cons, Bool.and_eq_true] at h
    have h1 : c ≠ '/' := hostByte_ne c _ h.1 (by decide)
    have ih2 := ih h.2
    simp only [ne_eq, decide_not] at ih2 ⊢
    simp [List.dropWhile, h1, ih2]

theorem pathByte_not_ctl (c : Char) (h : pathByte c = true) : ctlByte c = false := by
  by_contra hc
  rw [Bool.not_eq_false] at hc
  have hall : ∀ n, n < 128 → ctlByte (Char.ofNat n) = true → pathByte (Char.ofNat n) = false := by
    decide
  have hn : c.toNat < 128 := by
    simp only [ctlByte, Bool.or_eq_true, decide_eq_true_eq] at hc
    omega
  have hcc : Char.ofNat c.toNat = c := Char.ofNat_toNat c
  have := hall c.toNat hn (by rw [hcc]; exact hc)
  rw [hcc, h] at this
  exact Bool.noConfusion this

theorem pathByte_ne (c x : Char) (h : pathByte c = true) (hx : pathByte x = false) : c ≠ x := by
  intro e
  rw [e, hx] at h
  exact Bool.false_ne_true h

theorem validEncoded_path_iff (s : Str) : validEncoded s .encodePath = s.all pathByte := rfl

theorem unescape_ne_nil (mode : encoding) (s r : Str) (hs : s ≠ [])
    (h : unescape mode s = some r) : r ≠ [] := by
  cases s with
  | nil => exact absurd rfl hs
  | cons c t =>
    unfold unescape at h
    intro hr
    subst hr
    split_ifs at h
    all_goals first
      | (simp at h; done)
      | (split at h <;> simp at h)

theorem getScheme_abs (secure : Bool) (rest : Str) :
    getScheme (schemeText secure ++ ':' :: rest) = some (schemeText secure, rest) := by
  cases secure <;> rfl

theorem lowerASCII_schemeText (secure : Bool) :
    lowerASCII (schemeText secure) = schemeText secure := by
  cases secure <;> decide

theorem schemeText_ne_nil (secure : Bool) : schemeText secure ≠ [] := by
  cases secure <;> decide

theorem abs_ne_star (secure : Bool) (rest : Str) : schemeText secure ++ ':' :: rest ≠ ['*'] := by
  cases secure <;> simp [schemeText]

theorem ctl_any_append (a b : Str) :
    stringContainsCTLByte (a ++ b) = (stringContainsCTLByte a || stringContainsCTLByte b) := by
  simp [stringContainsCTLByte, List.any_append]

theorem ctl_of_all (s : Str) (p : Char → Bool) (hp : ∀ c, p c = true → ctlByte c = false)
    (h : s.all p = true) : stringContainsCTLByte s = false := by
  induction s with
  | nil => rfl
  | cons c t ih =>
    simp only [List.all_cons, Bool.and_eq_true] at h
    have h1 := hp c h.1
    have h2 := ih h.2
    simp only [stringContainsCTLByte, List.any_cons] at h2 ⊢
    simp only [ctlByte] at h1
    rw [h1, h2]
    rfl

/-- The parse of the part of an absolute URL before the fragment, given how
the query splits off. -/
theorem parse_front (secure : Bool) (host path rest0 : Str) (fq : Bool) (rq : Str)
    (hhost : host.all hostByte = true) (hph : parseHost host = some host)
    (p1 : Str) (hp1 : unescape .encodePath ('/' :: path) = some p1)
    (hctl : stringContainsCTLByte (schemeText secure ++ ':' :: rest0) = false)
    (hq1 : (HasSuffix rest0 ['?'] && decide (Count '?' rest0 = 1)) = fq)
    (hq2 : (if fq = true then rest0.take (rest0.length - 1) else (Cut '?' rest0).1)
      = '/' :: '/' :: (host ++ '/' :: path))
    (hq3 : (if fq = true then [] else (Cut '?' rest0).2.1) = rq) :
    parse (schemeText secure ++ ':' :: rest0)
      = some { URL.zero with Scheme := schemeText secure, Host := host, Path := p1,
                             RawPath := if '/' :: path = escape p1 .encodePath then []
                                        else '/' :: path,
                             ForceQuery := fq, RawQuery := rq } := by
  unfold parse
  rw [hctl]
  simp only [Bool.false_eq_true, if_false, abs_ne_star, getScheme_abs, lowerASCII_schemeText]
  rw [hq1]
  have hs : decide (schemeText secure ≠ []) = true := by simp [schemeText_ne_nil]
  have htw := takeWhile_host host path hhost
  have hdw := dropWhile_host host path hhost
  cases fq with
  | true =>
    simp only [if_true] at hq2 hq3
    simp only [if_true, hq2, HasPrefix, List.isPrefixOf, beq_self_eq_true, Bool.and_true,
      Bool.not_true, Bool.false_and, Bool.false_eq_true, if_false, hs, Bool.true_or,
      List.drop_succ_cons, List.drop_zero, htw, hdw, parseAuthority_host host hhost hph,
      URL.setPath, hp1, Option.map_some', ← hq3]
    rfl
  | false =>
    simp only [Bool.false_eq_true, if_false] at hq2 hq3
    simp only [Bool.false_eq_true, if_false, hq2, HasPrefix, List.isPrefixOf, beq_self_eq_true,
      Bool.and_true, Bool.not_true, Bool.false_and, hs, Bool.true_or,
      List.drop_succ_cons, List.drop_zero, htw, hdw, parseAuthority_host host hhost hph,
      URL.setPath, hp1, Option.map_some', hq3]
    rfl

theorem escapedPath_of (u : URL) (raw p1 : Str) (hu1 : u.Path = p1)
    (hu2 : u.RawPath = if raw = escape p1 .encodePath then [] else raw)
    (hv : validEncoded raw .encodePath = true) (hun : unescape .encodePath raw = some p1)
    (hstar : p1 ≠ ['*']) : u.EscapedPath = raw := by
  unfold URL.EscapedPath
  rw [hu1, hu2]
  by_cases he : raw = escape p1 .encodePath
  · rw [if_pos he]
    simp only [ne_eq, not_true_eq_false, decide_False, Bool.false_and, Bool.false_eq_true,
      if_false, hstar, he]
  · rw [if_neg he]
    have hne : raw ≠ [] := by
      intro h0
      apply he
      rw [h0] at hun ⊢
      have : p1 = [] := by
        have h1 : unescape .encodePath [] = some [] := rfl
        rw [h1] at hun
        exact (Option.some.inj hun).symm
      rw [this]
      rfl
    simp only [ne_eq, hne, not_false_eq_true, decide_True, hv, hun, Bool.and_self, if_true]

theorem escapedFragment_of (u : URL) (raw f1 : Str) (hu1 : u.Fragment = f1)
    (hu2 : u.RawFragment = if raw = escape f1 .encodeFragment then [] else raw)
    (hv : validEncoded raw .encodeFragment = true)
    (hun : unescape .encodeFragment raw = some f1) : u.EscapedFragment = raw := by
  unfold URL.EscapedFragment
  rw [hu1, hu2]
  by_cases he : raw = escape f1 .encodeFragment
  · rw [if_pos he]
    simp only [ne_eq, not_true_eq_false, decide_False, Bool.false_and, Bool.false_eq_true,
      if_false, he]
  · rw [if_neg he]
    have hne : raw ≠ [] := by
      intro h0
      apply he
      rw [h0] at hun ⊢
      have : f1 = [] := by
        have h1 : unescape .encodeFragment [] = some [] := rfl
        rw [h1] at hun
        exact (Option.some.inj hun).symm
      rw [this]
      rfl
    simp only [ne_eq, hne, not_false_eq_true, decide_True, hv, hun, Bool.and_self, if_true]

/-- The text of a URL whose scheme and host the callback has set. -/
theorem String_local (u : URL) (path : Str) (hS : u.Scheme = "http".toList) (hO : u.Opaque = [])
    (hU : u.User = none) (hH : u.Host = "localhost:8080".toList)
    (hEP : u.EscapedPath = '/' :: path) :
    u.String = "http://localhost:8080".toList ++ (('/' :: path) ++
      ((if u.ForceQuery || u.RawQuery ≠ [] then '?' :: u.RawQuery else []) ++
        (if u.Fragment ≠ [] then '#' :: u.EscapedFragment else []))) := by
  have e1 : escape "localhost:8080".toList .encodeHost = "localhost:8080".toList := by decide
  have e2 : ("http".toList ≠ []) := by decide
  have e3 : ("localhost:8080".toList ≠ []) := by decide
  unfold URL.String
  simp only [hS, hO, hU, hH, hEP, e1, e2, e3, ne_eq, not_true_eq_false, not_false_eq_true,
    decide_True, decide_False, if_true, if_false, Bool.true_or, Bool.or_true, Option.isSome_none,
    Option.isNone_none, Bool.and_true, Bool.false_and, Bool.and_false, Bool.false_eq_true,
    List.head?_cons, List.append_nil, reduceCtorEq]
  by_cases hq : u.ForceQuery = true ∨ ¬u.RawQuery = []
  · by_cases hf : u.Fragment = []
    · simp [hq, hf]
    · simp [hq, hf]
  · by_cases hf : u.Fragment = []
    · simp [hq, hf]
    · simp [hq, hf]

theorem HasSuffix_snoc (X : Str) (c : Char) : HasSuffix (X ++ [c]) [c] = true := by
  simp [HasSuffix, List.isPrefixOf]

theorem HasSuffix_of_last_ne (X q : Str) (c : Char) (hq : q ≠ []) (hc : c ∉ q) :
    HasSuffix (X ++ q) [c] = false := by
  rcases List.eq_nil_or_concat q with h | ⟨q1, x, h⟩
  · exact absurd h hq
  · subst h
    have hx : c ≠ x := fun e => hc (by rw [e]; simp)
    simp [HasSuffix, List.isPrefixOf, hx]

/-- How `parse` splits the query off the text after the scheme. -/
theorem query_split (X : Str) (Q : Option Str) (hX : '?' ∉ X) :
    ∃ fq rq,
      (HasSuffix (X ++ queryText Q) ['?'] && decide (Count '?' (X ++ queryText Q) = 1)) = fq ∧
      (if fq = true then (X ++ queryText Q).take ((X ++ queryText Q).length - 1)
        else (Cut '?' (X ++ queryText Q)).1) = X ∧
      (if fq = true then [] else (Cut '?' (X ++ queryText Q)).2.1) = rq ∧
      (if (fq || decide (rq ≠ [])) = true then '?' :: rq else []) = queryText Q := by
  have hc0 : List.count '?' X = 0 := List.count_eq_zero_of_not_mem hX
  cases Q with
  | none =>
    refine ⟨false, [], ?_, ?_, ?_, ?_⟩
    · simp [queryText, Count, hc0]
    · simp [queryText, Cut_of_not_mem '?' X hX]
    · simp [queryText, Cut_of_not_mem '?' X hX]
    · simp [queryText]
  | some q =>
    by_cases hq : q = []
    · subst hq
      refine ⟨true, [], ?_, ?_, ?_, ?_⟩
      · simp [queryText, Count, hc0, HasSuffix_snoc]
      · simp [queryText]
      · simp
      · simp [queryText]
    · refine ⟨false, q, ?_, ?_, ?_, ?_⟩
      · by_cases hm : '?' ∈ q
        · have hcq : 0 < List.count '?' q := List.count_pos_iff.mpr hm
          have : Count '?' (X ++ queryText (some q)) ≠ 1 := by
            simp only [Count, queryText, List.count_append, List.count_cons_self, hc0]
            omega
          simp [this]
        · have e : X ++ queryText (some q) = (X ++ ['?']) ++ q := by simp [queryText]
          rw [e, HasSuffix_of_last_ne _ q '?' hq hm]
          rfl
      · simp [queryText, Cut_append '?' X q hX]
      · simp [queryText, Cut_append '?' X q hX]
      · simp [queryText, hq]

theorem queryByte_not_ctl (c : Char) (h : queryByte c = true) : ctlByte c = false := by
  simp only [queryByte, Bool.and_eq_true, Bool.not_eq_true'] at h
  exact h.2

theorem ctl_schemeText (secure : Bool) :
    stringContainsCTLByte (schemeText secure) = false := by
  cases secure <;> decide

theorem not_mem_of_all (s : Str) (p : Char → Bool) (x : Char) (h : s.all p = true)
    (hx : p x = false) : x ∉ s := by
  intro hm
  have := List.all_eq_true.mp h x hm
  rw [hx] at this
  exact Bool.false_ne_true this

theorem not_mem_schemeText (secure : Bool) (x : Char) (hx : x = '#' ∨ x = '?') :
    x ∉ schemeText secure := by
  rcases hx with h | h <;> subst h <;> cases secure <;> decide

/-- The parse of a well-formed absolute URL and the text of the result once
the callback has set its scheme and host: the path, the query and the fragment
are those of the URL. -/
theorem parse_string_abs (u : AbsUrl) (h : u.wellFormed = true) :
    (Parse u.text).map
        (fun p => URL.String { p with Host := "localhost:8080".toList, Scheme := "http".toList })
      = some u.localText := by
  obtain ⟨secure, host, path, query, fragment⟩ := u
  simp only [AbsUrl.wellFormed, Bool.and_eq_true] at h
  obtain ⟨⟨⟨⟨⟨⟨⟨hhost, hph0⟩, hpre⟩, hvalid⟩, hun⟩, hquery⟩, hfrag⟩, _⟩ := h
  have hph : parseHost host = some host := by simpa using hph0
  -- the path
  obtain ⟨path1, rfl⟩ : ∃ t, path = '/' :: t := by
    cases path with
    | nil => exact absurd hpre (by decide)
    | cons c t =>
      by_cases hc : c = '/'
      · exact ⟨t, by rw [hc]⟩
      · have hf : HasPrefix (c :: t) ['/'] = false := by
          simp [HasPrefix, List.isPrefixOf, Ne.symm hc]
        rw [hf] at hpre
        exact absurd hpre Bool.false_ne_true
  obtain ⟨p1, hp1⟩ := Option.isSome_iff_exists.mp hun
  have hstar : p1 ≠ ['*'] := by
    have e : unescape .encodePath ('/' :: path1)
        = (unescape .encodePath path1).map (fun r => '/' :: r) := by
      conv_lhs => unfold unescape
      simp
    rw [e] at hp1
    cases hx : unescape .encodePath path1 with
    | none => rw [hx] at hp1; cases hp1
    | some r =>
      rw [hx] at hp1
      simp only [Option.map_some', Option.some.injEq] at hp1
      rw [← hp1]
      intro hc
      cases hc
  have hpathAll : ('/' :: path1).all pathByte = true := hvalid
  -- the text before the fragment
  have hXq : '?' ∉ '/' :: '/' :: (host ++ '/' :: path1) := by
    intro hm
    simp only [List.mem_cons, List.mem_append] at hm
    rcases hm with h1 | h1 | h1 | h1 | h1
    · exact absurd h1 (by decide)
    · exact absurd h1 (by decide)
    · exact not_mem_of_all host hostByte '?' hhost (by decide) h1
    · exact absurd h1 (by decide)
    · exact not_mem_of_all _ pathByte '?' hpathAll (by decide) (List.mem_cons_of_mem _ h1)
  obtain ⟨fq, rq, hq1, hq2, hq3, hq4⟩ := query_split _ query hXq
  have hqAll : (queryText query).all queryByte = true := by
    cases query with
    | none => rfl
    | some q =>
      simp only [queryText, List.all_cons, Bool.and_eq_true]
      exact ⟨by decide, hquery⟩
  have hctl : stringContainsCTLByte
      (schemeText secure ++ ':' :: ('/' :: '/' :: (host ++ '/' :: path1) ++ queryText query))
      = false := by
    have e : schemeText secure ++ ':' :: ('/' :: '/' :: (host ++ '/' :: path1) ++ queryText query)
        = (schemeText secure ++ "://".toList) ++ (host ++ (('/' :: path1) ++ queryText query)) := by
      simp
    have c1 : stringContainsCTLByte "://".toList = false := by decide
    rw [e]
    simp only [ctl_any_append, ctl_schemeText, c1,
      ctl_of_all host hostByte hostByte_not_ctl hhost,
      ctl_of_all _ pathByte pathByte_not_ctl hpathAll,
      ctl_of_all _ queryByte queryByte_not_ctl hqAll, Bool.or_self]
  have hparse := parse_front secure host path1 _ fq rq hhost hph p1 hp1 hctl hq1 hq2 hq3
  have hfront : '#' ∉ schemeText secure ++ ':' ::
      ('/' :: '/' :: (host ++ '/' :: path1) ++ queryText query) := by
    have e : schemeText secure ++ ':' :: ('/' :: '/' :: (host ++ '/' :: path1) ++ queryText query)
        = (schemeText secure ++ "://".toList) ++ (host ++ (('/' :: path1) ++ queryText query)) := by
      simp
    rw [e]
    intro hm
    simp only [List.mem_append] at hm
    rcases hm with (h1 | h1) | h1 | h1 | h1
    · exact not_mem_schemeText secure '#' (Or.inl rfl) h1
    · exact absurd h1 (by decide)
    · exact not_mem_of_all host hostByte '#' hhost (by decide) h1
    · exact not_mem_of_all _ pathByte '#' hpathAll (by decide) h1
    · exact not_mem_of_all _ queryByte '#' hqAll (by decide) h1
  have htext : AbsUrl.text ⟨secure, host, '/' :: path1, query, fragment⟩
      = (schemeText secure ++ ':' :: ('/' :: '/' :: (host ++ '/' :: path1) ++ queryText query))
        ++ fragmentText fragment := by
    simp [AbsUrl.text]
  rw [htext]
  simp only [AbsUrl.localText]
  cases fragment with
  | none =>
    simp only [fragmentText, List.append_nil]
    unfold Parse
    simp only [Cut_of_not_mem '#' _ hfront, hparse, if_true, Option.map_some']
    rw [String_local _ path1 rfl rfl rfl rfl
      (escapedPath_of _ ('/' :: path1) p1 rfl rfl hvalid hp1 hstar)]
    simp only [hq4]
    simp [URL.zero]
  | some f =>
    simp only [Bool.and_eq_true, decide_eq_true_eq] at hfrag
    obtain ⟨⟨hfne, hfvalid⟩, hfun⟩ := hfrag
    obtain ⟨f1, hf1⟩ := Option.isSome_iff_exists.mp hfun
    have hf1ne : f1 ≠ [] := unescape_ne_nil _ f f1 hfne hf1
    simp only [fragmentText]
    unfold Parse
    simp only [Cut_append '#' _ f hfront, hparse, hfne, if_false, URL.setFragment, hf1,
      Option.map_some']
    rw [String_local _ path1 rfl rfl rfl rfl
      (escapedPath_of _ ('/' :: path1) p1 rfl rfl hvalid hp1 hstar)]
    simp only [hq4]
    rw [escapedFragment_of _ f f1 rfl rfl hfvalid hf1]
    simp [hf1ne]

/-! ## The asset pattern on one attribute -/

theorem starRun_dot_sound (n : Nat) : ∀ s r, r ∈ starRun Re.dot.run n s →
    ∃ l, s = l ++ r ∧ '\n' ∉ l := by
  induction n with
  | zero =>
    intro s r hr
    simp only [starRun, List.mem_singleton] at hr
    exact ⟨[], by rw [hr]; rfl, by simp⟩
  | succ m ih =>
    intro s r hr
    simp only [starRun, List.mem_append, List.mem_flatMap, List.mem_filter,
      decide_eq_true_eq, List.mem_singleton] at hr
    rcases hr with ⟨t, ⟨ht1, _⟩, hr2⟩ | hr
    · obtain ⟨l, hl1, hl2⟩ := ih t r hr2
      cases s with
      | nil => simp [Re.run] at ht1
      | cons x s1 =>
        by_cases hx : x = '\n'
        · simp [Re.run, hx] at ht1
        · simp only [Re.run, hx, if_false, List.mem_singleton] at ht1
          refine ⟨x :: l, by rw [← ht1, hl1]; rfl, ?_⟩
          intro hm
          rcases List.mem_cons.mp hm with h1 | h1
          · exact hx h1.symm
          · exact hl2 h1
    · exact ⟨[], by rw [hr]; rfl, by simp⟩

theorem run_star_dot_sound (s r : Str) (h : r ∈ (Re.star Re.dot).run s) :
    ∃ l, s = l ++ r ∧ '\n' ∉ l := by
  simp only [Re.run] at h
  exact starRun_dot_sound _ s r h

/-- The closing quote of the attribute is the only place where a match that
stays on the line can end. -/
theorem quote_unique (u q B W r : Str) (h : u ++ '"' :: (q ++ B) = W ++ '"' :: r)
    (hu : '"' ∉ u) (hq : '"' ∉ q) (hB : lineEnd B = true) (hW : '\n' ∉ W) : r = q ++ B := by
  rcases List.append_eq_append_iff.mp h with ⟨a, hWa, ha⟩ | ⟨c, huc, hc⟩
  · -- `W = u ++ a`
    cases a with
    | nil =>
      simp only [List.nil_append, List.cons.injEq, true_and] at ha
      exact ha.symm
    | cons a0 a1 =>
      simp only [List.cons_append, List.cons.injEq] at ha
      obtain ⟨ha0, ha1⟩ := ha
      exfalso
      rcases List.append_eq_append_iff.mp ha1 with ⟨x, hx1, hx2⟩ | ⟨y, hy1, hy2⟩
      · -- `a1 = q ++ x`, `B = x ++ '"' :: r`
        cases x with
        | nil =>
          simp only [List.nil_append] at hx2
          rw [hx2] at hB
          simp [lineEnd] at hB
        | cons x0 x1 =>
          rw [hx2] at hB
          simp only [List.cons_append, lineEnd, decide_eq_true_eq] at hB
          apply hW
          rw [hWa, hx1, hB]
          simp
      · -- `q = a1 ++ y`
        cases y with
        | nil =>
          simp only [List.nil_append] at hy2
          rw [← hy2] at hB
          simp [lineEnd] at hB
        | cons y0 y1 =>
          simp only [List.cons_append, List.cons.injEq] at hy2
          apply hq
          rw [hy1, ← hy2.1]
          simp
  · -- `u = W ++ c`
    cases c with
    | nil =>
      simp only [List.nil_append, List.cons.injEq, true_and] at hc
      exact hc
    | cons c0 c1 =>
      simp only [List.cons_append, List.cons.injEq] at hc
      exfalso
      apply hu
      rw [huc, ← hc.1]
      simp

theorem head?_of_all_eq (l : List Str) (a : Str) (hne : l ≠ []) (h : ∀ x ∈ l, x = a) :
    l.head? = some a := by
  cases l with
  | nil => exact absurd rfl hne
  | cons x t => rw [List.head?_cons, h x (List.mem_cons_self _ _)]

theorem mem_run_assetTail (m3 r : Str) (h : r ∈ assetTail.run m3) :
    ∃ W, m3 = W ++ '"' :: r ∧ '\n' ∉ W := by
  have h' : r ∈ (Re.seq (.opt (.lit "s".toList)) (.seq (.star .dot) (.seq (.lit "/bundles".toList)
      (.seq (.star .dot) (.lit "\"".toList))))).run m3 := h
  rw [mem_run_seq] at h'
  obtain ⟨m4, hm4, h5⟩ := h'
  rw [mem_run_seq] at h5
  obtain ⟨m5, hm5, h6⟩ := h5
  rw [mem_run_seq] at h6
  obtain ⟨m6, hm6, h7⟩ := h6
  rw [mem_run_seq] at h7
  obtain ⟨m7, hm7, h8⟩ := h7
  rw [mem_run_lit] at hm6 h8
  obtain ⟨l1, hl1, hn1⟩ := run_star_dot_sound _ _ hm5
  obtain ⟨l2, hl2, hn2⟩ := run_star_dot_sound _ _ hm7
  rw [mem_run_opt, mem_run_lit] at hm4
  have hb : '\n' ∉ "/bundles".toList := by decide
  rcases hm4 with h4 | h4
  · refine ⟨"s".toList ++ (l1 ++ ("/bundles".toList ++ l2)), ?_, ?_⟩
    · rw [h4, hl1, hm6, hl2, h8]
      simp
    · intro hm
      simp only [List.mem_append] at hm
      rcases hm with h1 | h1 | h1 | h1
      · exact absurd h1 (by decide)
      · exact hn1 h1
      · exact hb h1
      · exact hn2 h1
  · refine ⟨l1 ++ ("/bundles".toList ++ l2), ?_, ?_⟩
    · rw [← h4, hl1, hm6, hl2, h8]
      simp
    · intro hm
      simp only [List.mem_append] at hm
      rcases hm with h1 | h1 | h1
      · exact hn1 h1
      · exact hb h1
      · exact hn2 h1

theorem mem_run_assetTail_of (l1 l2 r : Str) (h1 : '\n' ∉ l1) (h2 : '\n' ∉ l2) :
    r ∈ assetTail.run (l1 ++ ("/bundles".toList ++ (l2 ++ '"' :: r))) := by
  show r ∈ (Re.seq (.opt (.lit "s".toList)) (.seq (.star .dot) (.seq (.lit "/bundles".toList)
      (.seq (.star .dot) (.lit "\"".toList))))).run _
  rw [mem_run_seq]
  refine ⟨_, (mem_run_opt _ _ _).mpr (Or.inr rfl), ?_⟩
  rw [mem_run_seq]
  refine ⟨_, mem_run_star_dot l1 _ h1, ?_⟩
  rw [mem_run_seq]
  refine ⟨l2 ++ '"' :: r, (mem_run_lit _ _ _).mpr rfl, ?_⟩
  rw [mem_run_seq]
  exact ⟨'"' :: r, mem_run_star_dot l2 _ h2, (mem_run_lit _ _ _).mpr rfl⟩

theorem matchHere_assetTail (u q B : Str) (hu1 : '"' ∉ u) (hu2 : '\n' ∉ u)
    (hb : ∃ l1 l2, u = l1 ++ ("/bundles".toList ++ l2))
    (hq : '"' ∉ q) (hB : lineEnd B = true) :
    matchHere assetTail (u ++ '"' :: (q ++ B)) = some (q ++ B) := by
  unfold matchHere
  apply head?_of_all_eq
  · obtain ⟨l1, l2, hl⟩ := hb
    have h1 : '\n' ∉ l1 := fun h => hu2 (by rw [hl]; simp [h])
    have h2 : '\n' ∉ l2 := fun h => hu2 (by rw [hl]; simp [h])
    have := mem_run_assetTail_of l1 l2 (q ++ B) h1 h2
    rw [hl]
    simp only [List.append_assoc]
    exact List.ne_nil_of_mem this
  · intro r hr
    obtain ⟨W, hW1, hW2⟩ := mem_run_assetTail _ r hr
    exact quote_unique u q B W r hW1 hu1 hq hB hW2

theorem matchHere_asset (attr u q B : Str) (hattr : attr ∈ assetAttributes) (hu1 : '"' ∉ u)
    (hu2 : '\n' ∉ u) (hb : ∃ l1 l2, u = l1 ++ ("/bundles".toList ++ l2))
    (hq : '"' ∉ q) (hB : lineEnd B = true) :
    matchHere assetRegExp
        (attr ++ ("=\"".toList ++ (("http".toList ++ u) ++ '"' :: (q ++ B))))
      = some (q ++ B) := by
  have key : ∀ s, matchHere assetRegExp (attr ++ ("=\"".toList ++ ("http".toList ++ s)))
      = matchHere assetTail s := by
    intro s
    have e : (Re.alt (.lit "src".toList) (.alt (.lit "href".toList)
        (.lit "content".toList))).run (attr ++ ("=\"".toList ++ ("http".toList ++ s)))
        = ["=\"".toList ++ ("http".toList ++ s)] := by
      simp only [assetAttributes, List.mem_cons, List.mem_singleton, List.not_mem_nil,
        or_false] at hattr
      rcases hattr with h | h | h <;> subst h <;> simp [Re.run, List.isPrefixOf]
    show matchHere (.seq (.alt (.lit "src".toList) (.alt (.lit "href".toList)
      (.lit "content".toList))) (.seq (.lit "=\"".toList) (.seq (.lit "http".toList)
      assetTail))) _ = _
    simp only [matchHere, run_seq, e, List.flatMap_cons, List.flatMap_nil, List.append_nil,
      run_lit_append]
  rw [List.append_assoc, key]
  exact matchHere_assetTail u q B hu1 hu2 hb hq hB

theorem fragmentByte_not_ctl (c : Char) (h : fragmentByte c = true) : ctlByte c = false := by
  by_contra hc
  rw [Bool.not_eq_false] at hc
  have hall : ∀ n, n < 128 → ctlByte (Char.ofNat n) = true →
      fragmentByte (Char.ofNat n) = false := by
    decide
  have hn : c.toNat < 128 := by
    simp only [ctlByte, Bool.or_eq_true, decide_eq_true_eq] at hc
    omega
  have hcc : Char.ofNat c.toNat = c := Char.ofNat_toNat c
  have := hall c.toNat hn (by rw [hcc]; exact hc)
  rw [hcc, h] at this
  exact Bool.noConfusion this

theorem not_mem_of_not_ctl (s : Str) (p : Char → Bool) (x : Char)
    (hp : ∀ c, p c = true → ctlByte c = false) (h : s.all p = true) (hx : ctlByte x = true) :
    x ∉ s := by
  intro hm
  have := hp x (List.all_eq_true.mp h x hm)
  rw [hx] at this
  exact Bool.noConfusion this

/-- The text of a well-formed URL has no double quote and no newline. -/
theorem AbsUrl.text_clean (u : AbsUrl) (h : u.wellFormed = true) (x : Char)
    (hx : x = '"' ∨ x = '\n') : x ∉ u.text := by
  obtain ⟨secure, host, path, query, fragment⟩ := u
  simp only [AbsUrl.wellFormed, Bool.and_eq_true] at h
  obtain ⟨⟨⟨⟨⟨⟨⟨hhost, _⟩, _⟩, hvalid⟩, _⟩, hquery⟩, hfrag⟩, _⟩ := h
  have hpathAll : path.all pathByte = true := hvalid
  have hqAll : (queryText query).all queryByte = true := by
    cases query with
    | none => rfl
    | some q =>
      simp only [queryText, List.all_cons, Bool.and_eq_true]
      exact ⟨by decide, hquery⟩
  have hfAll : ∀ y, fragmentByte y = false → y ≠ '#' → y ∉ fragmentText fragment := by
    intro y hy hy2 hm
    cases fragment with
    | none => cases hm
    | some f =>
      simp only [Bool.and_eq_true] at hfrag
      rcases List.mem_cons.mp hm with h1 | h1
      · exact hy2 h1
      · exact not_mem_of_all f fragmentByte y hfrag.1.2 hy h1
  intro hm
  simp only [AbsUrl.text, List.mem_append] at hm
  rcases hx with hx | hx <;> subst hx
  · rcases hm with h1 | h1 | h1 | h1 | h1 | h1
    · cases secure <;> exact absurd h1 (by decide)
    · exact absurd h1 (by decide)
    · exact not_mem_of_all host hostByte _ hhost (by decide) h1
    · exact not_mem_of_all path pathByte _ hpathAll (by decide) h1
    · exact not_mem_of_all _ queryByte _ hqAll (by decide) h1
    · exact hfAll _ (by decide) (by decide) h1
  · rcases hm with h1 | h1 | h1 | h1 | h1 | h1
    · cases secure <;> exact absurd h1 (by decide)
    · exact absurd h1 (by decide)
    · exact not_mem_of_all host hostByte _ hhost (by decide) h1
    · exact not_mem_of_all path pathByte _ hpathAll (by decide) h1
    · exact not_mem_of_all _ queryByte _ hqAll (by decide) h1
    · exact hfAll _ (by decide) (by decide) h1

theorem contains_split (s p : Str) (h : Contains s p = true) : ∃ a b, s = a ++ (p ++ b) := by
  induction s with
  | nil =>
    unfold Contains at h
    obtain ⟨b, hb⟩ := (isPrefixOf_eq_true_iff p []).mp h
    exact ⟨[], b, hb.symm⟩
  | cons c t ih =>
    unfold Contains at h
    rcases Bool.or_eq_true_iff.mp h with h1 | h1
    · obtain ⟨b, hb⟩ := (isPrefixOf_eq_true_iff p (c :: t)).mp h1
      exact ⟨[], b, hb.symm⟩
    · obtain ⟨a, b, hab⟩ := ih h1
      exact ⟨c :: a, b, by rw [hab]; rfl⟩

theorem AbsUrl.text_eq (u : AbsUrl) : u.text = "http".toList ++ u.afterHttp := by
  obtain ⟨secure, host, path, query, fragment⟩ := u
  cases secure <;> rfl

theorem TrimSuffix_snoc (x : Str) (c : Char) : TrimSuffix (x ++ [c]) [c] = x := by
  simp [TrimSuffix, HasSuffix_snoc]

/-- The callback on an attribute whose value parses: the attribute carries the
text of the parsed URL with the local scheme and host. -/
theorem assetCallback_attr (attr t loc : Str) (hattr : attr ∈ assetAttributes)
    (hp : (Parse t).map
        (fun p => URL.String { p with Host := "localhost:8080".toList, Scheme := "http".toList })
      = some loc) :
    assetCallback (attr ++ ("=\"".toList ++ (t ++ ['"'])))
      = attr ++ ("=\"".toList ++ (loc ++ ['"'])) := by
  obtain ⟨p, hp1, hp2⟩ := Option.map_eq_some'.mp hp
  simp only [assetAttributes, List.mem_cons, List.mem_singleton, List.not_mem_nil,
    or_false] at hattr
  have eq : "\"".toList = ['"'] := rfl
  rcases hattr with h | h | h <;> subst h
  · have h1 : HasPrefix ("src".toList ++ ("=\"".toList ++ (t ++ ['"']))) "href=\"".toList
        = false := rfl
    have h2 : HasPrefix ("src".toList ++ ("=\"".toList ++ (t ++ ['"']))) "content=\"".toList
        = false := rfl
    have h3 : HasPrefix ("src".toList ++ ("=\"".toList ++ (t ++ ['"']))) "src=\"".toList
        = true := by simp [HasPrefix, List.isPrefixOf]
    have h4 : TrimPrefix ("src".toList ++ ("=\"".toList ++ (t ++ ['"']))) "src=\"".toList
        = t ++ ['"'] := by simp [TrimPrefix, List.isPrefixOf]
    unfold assetCallback
    simp only [h1, h2, h3, h4, Bool.false_eq_true, if_false, if_true, eq, TrimSuffix_snoc, hp1]
    rw [← hp2]
    simp
  · have h1 : HasPrefix ("href".toList ++ ("=\"".toList ++ (t ++ ['"']))) "href=\"".toList
        = true := by simp [HasPrefix, List.isPrefixOf]
    have h4 : TrimPrefix ("href".toList ++ ("=\"".toList ++ (t ++ ['"']))) "href=\"".toList
        = t ++ ['"'] := by simp [TrimPrefix, List.isPrefixOf]
    unfold assetCallback
    simp only [h1, h4, if_true, eq, TrimSuffix_snoc, hp1]
    rw [← hp2]
    simp
  · have h1 : HasPrefix ("content".toList ++ ("=\"".toList ++ (t ++ ['"']))) "href=\"".toList
        = false := rfl
    have h2 : HasPrefix ("content".toList ++ ("=\"".toList ++ (t ++ ['"'])))
        "content=\"".toList = true := by simp [HasPrefix, List.isPrefixOf]
    have h4 : TrimPrefix ("content".toList ++ ("=\"".toList ++ (t ++ ['"'])))
        "content=\"".toList = t ++ ['"'] := by simp [TrimPrefix, List.isPrefixOf]
    unfold assetCallback
    simp only [h1, h2, h4, Bool.false_eq_true, if_false, if_true, eq, TrimSuffix_snoc, hp1]
    rw [← hp2]
    simp

/-- The asset rewrite on a page whose first asset attribute holds a
well-formed URL and closes with the last double quote before the next line
start `B`. -/
theorem rewriteAssets_attribute_aux (A attr q B : Str) (u : AbsUrl)
    (hA1 : freeOf assetTriggers A = true) (hA2 : endsWithSpace A = true)
    (hattr : attr ∈ assetAttributes) (hu : u.wellFormed = true)
    (hb : Contains u.path "/bundles/".toList = true) (hq : '"' ∉ q) (hB : lineEnd B = true) :
    ∃ Y, rewriteAssets (A ++ (attr ++ ("=\"".toList ++ (u.text ++ '"' :: (q ++ B)))))
      = A ++ (attr ++ ("=\"".toList ++ (u.localText ++ '"' :: Y))) := by
  have hclean1 : '"' ∉ u.afterHttp := by
    intro hm
    exact u.text_clean hu '"' (Or.inl rfl) (by rw [u.text_eq]; exact List.mem_append_right _ hm)
  have hclean2 : '\n' ∉ u.afterHttp := by
    intro hm
    exact u.text_clean hu '\n' (Or.inr rfl) (by rw [u.text_eq]; exact List.mem_append_right _ hm)
  have hbundles : ∃ l1 l2, u.afterHttp = l1 ++ ("/bundles".toList ++ l2) := by
    obtain ⟨a, b, hab⟩ := contains_split _ _ hb
    refine ⟨(if u.secure then "s".toList else []) ++ ("://".toList ++ (u.host ++ a)),
      '/' :: (b ++ (queryText u.query ++ fragmentText u.fragment)), ?_⟩
    simp only [AbsUrl.afterHttp, hab]
    simp
  have hm := matchHere_asset attr u.afterHttp q B hattr hclean1 hclean2 hbundles hq hB
  rw [← u.text_eq] at hm
  have hL : attr ++ ("=\"".toList ++ (u.text ++ ['"'])) ≠ [] := by
    simp only [assetAttributes, List.mem_cons, List.mem_singleton, List.not_mem_nil,
      or_false] at hattr
    rcases hattr with h | h | h <;> subst h <;> simp
  have e1 : attr ++ ("=\"".toList ++ (u.text ++ '"' :: (q ++ B)))
      = (attr ++ ("=\"".toList ++ (u.text ++ ['"']))) ++ (q ++ B) := by simp
  obtain ⟨n, hn⟩ := replace_first_rest assetRegExp assetTriggers assetCallback A
    (attr ++ ("=\"".toList ++ (u.text ++ ['"']))) (q ++ B) triggered_assetRegExp
    ⟨hA1, endOk_asset_of_space A hA2⟩ hL (by rw [← e1]; exact hm)
  refine ⟨replaceAll assetRegExp assetCallback n true (q ++ B), ?_⟩
  unfold rewriteAssets
  rw [e1, hn, assetCallback_attr attr u.text u.localText hattr (parse_string_abs u hu)]
  simp

/-! ## Substitutions line by line -/

theorem starRun_map (f : Str → List Str) (X : Str)
    (hf : ∀ s, f (s ++ X) = (f s).map (fun r => r ++ X)) (n : Nat) :
    ∀ s, starRun f n (s ++ X) = (starRun f n s).map (fun r => r ++ X) := by
  induction n with
  | zero => intro s; rfl
  | succ m ih =>
    intro s
    simp only [starRun, hf, List.map_append, List.map_cons, List.map_nil, List.filter_map,
      List.flatMap_map, List.map_flatMap]
    congr 1
    have e : ((fun t => decide (t.length < (s ++ X).length)) ∘ fun r => r ++ X)
        = fun t => decide (t.length < s.length) := by
      funext t
      simp
    rw [e]
    apply List.flatMap_congr
    intro t _
    exact ih t

theorem starRun_fuel (f : Str → List Str) (n : Nat) :
    ∀ s, s.length ≤ n → starRun f n s = starRun f s.length s := by
  induction n using Nat.strong_induction_on with
  | _ n ih =>
    intro s hs
    cases n with
    | zero =>
      have : s.length = 0 := by omega
      rw [this]
    | succ m =>
      cases hl : s.length with
      | zero =>
        have hs0 : s = [] := List.length_eq_zero.mp hl
        subst hs0
        simp [starRun]
      | succ k =>
        have hkm : k ≤ m := by omega
        simp only [starRun]
        congr 1
        apply List.flatMap_congr
        intro t ht
        have htl : t.length < s.length := by
          simpa using (List.mem_filter.mp ht).2
        have h1 : t.length ≤ m := by omega
        have h2 : t.length ≤ k := by omega
        rw [ih m (Nat.lt_succ_self m) t h1]
        by_cases hk : k = m
        · subst hk
          exact ih k (Nat.lt_succ_self k) t h2 ▸ rfl
        · rw [ih k (by omega) t h2]

/-- A pattern without newline matches in a text followed by a line start as
it does in the text alone. -/
theorem run_append_line (re : Re) (hnf : newlineFree re = true) (X1 : Str) :
    ∀ s, re.run (s ++ '\n' :: X1) = (re.run s).map (fun r => r ++ '\n' :: X1) := by
  induction re with
  | lit p =>
    intro s
    simp only [newlineFree, Bool.not_eq_true', List.contains_eq_any_beq, List.any_eq_false,
      beq_iff_eq] at hnf
    have hp : '\n' ∉ p := fun h => hnf '\n' h rfl
    by_cases h1 : p.isPrefixOf s = true
    · obtain ⟨y, hy⟩ := (isPrefixOf_eq_true_iff p s).mp h1
      subst hy
      rw [List.append_assoc, run_lit_append, run_lit_append]
      rfl
    · have h2 : p.isPrefixOf (s ++ '\n' :: X1) = false := by
        rw [Bool.eq_false_iff]
        intro h3
        have h3' := (isPrefixOf_eq_true_iff _ _).mp h3
        rcases List.prefix_or_prefix_of_prefix h3' (List.prefix_append s _) with h4 | h4
        · exact h1 ((isPrefixOf_eq_true_iff p s).mpr h4)
        · obtain ⟨p1, hp1⟩ := h4
          obtain ⟨z, hz⟩ := h3'
          rw [← hp1, List.append_assoc] at hz
          have hz2 := List.append_cancel_left hz
          cases p1 with
          | nil =>
            rw [List.append_nil] at hp1
            exact h1 ((isPrefixOf_eq_true_iff p s).mpr (by rw [hp1]))
          | cons c t =>
            simp only [List.cons_append, List.cons.injEq] at hz2
            apply hp
            rw [← hp1, hz2.1]
            simp
      rw [run_lit_of_not p s (Bool.eq_false_iff.mpr h1), run_lit_of_not p _ h2]
      rfl
  | space => simp [newlineFree] at hnf
  | dot =>
    intro s
    cases s with
    | nil => simp [Re.run]
    | cons x t =>
      by_cases hx : x = '\n'
      · simp [Re.run, hx]
      · simp [Re.run, hx]
  | seq a b iha ihb =>
    intro s
    simp only [newlineFree, Bool.and_eq_true] at hnf
    simp only [Re.run, iha hnf.1, List.flatMap_map, List.map_flatMap]
    apply List.flatMap_congr
    intro m _
    exact ihb hnf.2 m
  | alt a b iha ihb =>
    intro s
    simp only [newlineFree, Bool.and_eq_true] at hnf
    simp only [Re.run, iha hnf.1, ihb hnf.2, List.map_append]
  | opt a iha =>
    intro s
    simp only [newlineFree] at hnf
    simp only [Re.run, iha hnf, List.map_append, List.map_cons, List.map_nil]
  | star a iha =>
    intro s
    simp only [newlineFree] at hnf
    simp only [Re.run]
    rw [starRun_map a.run ('\n' :: X1) (iha hnf) _ s,
      starRun_fuel a.run (s ++ '\n' :: X1).length s (by simp)]

theorem starRun_suffix (f : Str → List Str) (hf : ∀ s r, r ∈ f s → ∃ m, s = m ++ r) (n : Nat) :
    ∀ s r, r ∈ starRun f n s → ∃ m, s = m ++ r := by
  induction n with
  | zero =>
    intro s r hr
    simp only [starRun, List.mem_singleton] at hr
    exact ⟨[], by rw [hr]; rfl⟩
  | succ k ih =>
    intro s r hr
    simp only [starRun, List.mem_append, List.mem_flatMap, List.mem_filter,
      List.mem_singleton] at hr
    rcases hr with ⟨t, ⟨ht1, _⟩, hr2⟩ | hr
    · obtain ⟨m1, hm1⟩ := hf s t ht1
      obtain ⟨m2, hm2⟩ := ih t r hr2
      exact ⟨m1 ++ m2, by rw [hm1, hm2, List.append_assoc]⟩
    · exact ⟨[], by rw [hr]; rfl⟩

/-- What a match leaves is the end of the text. -/
theorem run_suffix (re : Re) : ∀ s r, r ∈ re.run s → ∃ m, s = m ++ r := by
  induction re with
  | lit p =>
    intro s r hr
    exact ⟨p, (mem_run_lit p s r).mp hr⟩
  | space =>
    intro s r hr
    cases s with
    | nil => simp [Re.run] at hr
    | cons x t =>
      by_cases hx : isSpace x = true
      · simp only [Re.run, hx, if_true, List.mem_singleton] at hr
        exact ⟨[x], by rw [hr]; rfl⟩
      · simp [Re.run, hx] at hr
  | dot =>
    intro s r hr
    cases s with
    | nil => simp [Re.run] at hr
    | cons x t =>
      by_cases hx : x = '\n'
      · simp [Re.run, hx] at hr
      · simp only [Re.run, hx, if_false, List.mem_singleton] at hr
        exact ⟨[x], by rw [hr]; rfl⟩
  | seq a b iha ihb =>
    intro s r hr
    obtain ⟨m, hm, hr2⟩ := (mem_run_seq a b s r).mp hr
    obtain ⟨m1, hm1⟩ := iha s m hm
    obtain ⟨m2, hm2⟩ := ihb m r hr2
    exact ⟨m1 ++ m2, by rw [hm1, hm2, List.append_assoc]⟩
  | alt a b iha ihb =>
    intro s r hr
    rcases (mem_run_alt a b s r).mp hr with h | h
    · exact iha s r h
    · exact ihb s r h
  | opt a iha =>
    intro s r hr
    rcases (mem_run_opt a s r).mp hr with h | h
    · exact iha s r h
    · exact ⟨[], by rw [h]; rfl⟩
  | star a iha =>
    intro s r hr
    simp only [Re.run] at hr
    exact starRun_suffix a.run iha _ s r hr

theorem matchHere_suffix (re : Re) (s r : Str) (h : matchHere re s = some r) :
    s = s.take (s.length - r.length) ++ r := by
  obtain ⟨m, hm⟩ := run_suffix re s r (List.mem_of_mem_head? h)
  have hl : s.length - r.length = m.length := by
    rw [hm, List.length_append]; omega
  rw [hl]
  conv_rhs => rw [hm, List.take_left]
  exact hm

/-- The leftmost match splits the text. -/
theorem firstMatch_eq (re : Re) : ∀ s b m a, firstMatch re s = some (b, m, a) →
    s = b ++ (m ++ a) := by
  intro s
  induction s with
  | nil =>
    intro b m a h
    unfold firstMatch at h
    cases hm : matchHere re [] with
    | none => rw [hm] at h; cases h
    | some r =>
      rw [hm] at h
      simp only [Option.some.injEq, Prod.mk.injEq] at h
      rw [← h.1, ← h.2.1, ← h.2.2]
      rfl
  | cons c t ih =>
    intro b m a h
    unfold firstMatch at h
    cases hm : matchHere re (c :: t) with
    | none =>
      rw [hm] at h
      cases hf : firstMatch re t with
      | none => rw [hf] at h; cases h
      | some x =>
        obtain ⟨b1, m1, a1⟩ := x
        rw [hf] at h
        simp only [Option.map_some', Option.some.injEq, Prod.mk.injEq] at h
        rw [← h.1, ← h.2.1, ← h.2.2, List.cons_append, ← ih b1 m1 a1 hf]
    | some r =>
      rw [hm] at h
      simp only [Option.some.injEq, Prod.mk.injEq] at h
      rw [← h.1, ← h.2.1, ← h.2.2, List.nil_append]
      exact matchHere_suffix re (c :: t) r hm

theorem lineCut_tail (re : Re) (c : Char) (t X : Str) (h : LineCut re (c :: t) X) :
    LineCut re t X :=
  fun a b hab => h (c :: a) b (by rw [hab]; rfl)

theorem lineCut_suffix (re : Re) (a b X : Str) (h : LineCut re (a ++ b) X) : LineCut re b X :=
  fun a1 b1 hab => h (a ++ a1) b1 (by rw [hab, List.append_assoc])

theorem lineCut_of_newlineFree (re : Re) (hnf : newlineFree re = true) (s X : Str) :
    LineCut re s X :=
  fun _ b _ => run_append_line re hnf X b

theorem matchHere_cut (re : Re) (s X1 : Str) (h : LineCut re s X1) :
    matchHere re (s ++ '\n' :: X1) = (matchHere re s).map (fun r => r ++ '\n' :: X1) := by
  simp only [matchHere, h [] s rfl, List.head?_map]

theorem matchHere_nil (re : Re) (hne : PatternNoEmpty re) : matchHere re [] = none := by
  cases h : matchHere re [] with
  | none => rfl
  | some r => exact absurd (hne [] r (List.mem_of_mem_head? h)) (by simp)

/-- The leftmost match in a text followed by a line start that cuts the
matching: the match in the text when there is one, and else the match after
the line start. -/
theorem firstMatch_cut (re : Re) (hne : PatternNoEmpty re) (X1 : Str) :
    ∀ s, LineCut re s X1 → firstMatch re (s ++ '\n' :: X1) =
      match firstMatch re s with
      | some x => some (x.1, x.2.1, x.2.2 ++ '\n' :: X1)
      | none => (firstMatch re X1).map (fun x => (s ++ '\n' :: x.1, x.2.1, x.2.2)) := by
  intro s
  induction s with
  | nil =>
    intro hcut
    have h0 : matchHere re ('\n' :: X1) = none := by
      have := matchHere_cut re [] X1 hcut
      rw [matchHere_nil re hne] at this
      exact this
    have h1 : firstMatch re [] = none := by
      unfold firstMatch
      rw [matchHere_nil re hne]
    rw [h1, List.nil_append, firstMatch_cons_of_none re '\n' X1 h0]
    rfl
  | cons c t ih =>
    intro hcut
    have hm := matchHere_cut re (c :: t) X1 hcut
    cases hc : matchHere re (c :: t) with
    | none =>
      rw [hc] at hm
      have hm' : matchHere re (c :: (t ++ '\n' :: X1)) = none := hm
      rw [List.cons_append, firstMatch_cons_of_none re c _ hm', ih (lineCut_tail re c t X1 hcut),
        firstMatch_cons_of_none re c t hc]
      cases firstMatch re t with
      | none =>
        cases firstMatch re X1 with
        | none => rfl
        | some y => rfl
      | some x => rfl
    | some r =>
      rw [hc] at hm
      have hsuf := matchHere_suffix re (c :: t) r hc
      have hlen : r.length ≤ (c :: t).length := by
        have := congrArg List.length hsuf
        simp only [List.length_append] at this
        omega
      have e1 : firstMatch re (c :: t) = some ([], (c :: t).take ((c :: t).length - r.length), r) := by
        simp [firstMatch, hc]
      have hm' : matchHere re (c :: (t ++ '\n' :: X1)) = some (r ++ '\n' :: X1) := hm
      have e2 : firstMatch re (c :: (t ++ '\n' :: X1))
          = some ([], (c :: (t ++ '\n' :: X1)).take
              ((c :: (t ++ '\n' :: X1)).length - (r ++ '\n' :: X1).length), r ++ '\n' :: X1) := by
        simp [firstMatch, hm']
      rw [List.cons_append, e2, e1]
      simp only [Option.some.injEq, Prod.mk.injEq, true_and, and_true]
      have hl2 : (c :: (t ++ '\n' :: X1)).length - (r ++ '\n' :: X1).length
          = (c :: t).length - r.length := by
        simp only [List.length_cons, List.length_append]
        omega
      rw [hl2, show c :: (t ++ '\n' :: X1) = (c :: t) ++ '\n' :: X1 from rfl,
        List.take_append_of_le_length (by omega)]

theorem firstMatch_length (re : Re) (hne : PatternNoEmpty re) (s b m a : Str)
    (h : firstMatch re s = some (b, m, a)) : a.length < s.length := by
  have h1 := firstMatch_eq re s b m a h
  have h2 := firstMatch_ne_nil re hne s b m a h
  have h3 : 0 < m.length := List.length_pos.mpr h2
  have h4 := congrArg List.length h1
  simp only [List.length_append] at h4
  omega

/-- For a pattern with no empty match the substitution does not depend on the
bound of the loop, once the bound is beyond the length of the text. -/
theorem replaceAll_fuel (re : Re) (f : Str → Str) (hne : PatternNoEmpty re) :
    ∀ (k : Nat) (s : Str), s.length ≤ k → ∀ (n : Nat) (jm : Bool), s.length < n →
      replaceAll re f n jm s = replaceAll re f (s.length + 1) false s := by
  intro k
  induction k with
  | zero =>
    intro s hs n jm hn
    have h0 : s = [] := List.length_eq_zero.mp (Nat.le_zero.mp hs)
    subst h0
    have hf : firstMatch re [] = none := by
      unfold firstMatch
      rw [matchHere_nil re hne]
    rw [replaceAll_of_none re f n jm _ hf, replaceAll_of_none re f _ false _ hf]
  | succ k ih =>
    intro s hs n jm hn
    cases n with
    | zero => omega
    | succ n1 =>
      cases hf : firstMatch re s with
      | none => rw [replaceAll_of_none re f _ jm _ hf, replaceAll_of_none re f _ false _ hf]
      | some x =>
        obtain ⟨b, m, a⟩ := x
        have hm := firstMatch_ne_nil re hne s b m a hf
        have hl := firstMatch_length re hne s b m a hf
        rw [replaceAll_one re f n1 jm s b m a hf hm,
          replaceAll_one re f s.length false s b m a hf hm,
          ih a (by omega) n1 true (by omega), ih a (by omega) s.length true hl]

/-- A substitution with a pattern that has no empty match works on the text
before a line start that cuts the matching and on the text after it, each on
its own. -/
theorem replace_cut (re : Re) (f : Str → Str) (hne : PatternNoEmpty re) (X : Str) :
    ∀ (k : Nat) (s : Str), s.length ≤ k → LineCut re s X →
      ReplaceAllStringFunc re (s ++ '\n' :: X) f
        = ReplaceAllStringFunc re s f ++ '\n' :: ReplaceAllStringFunc re X f := by
  intro k
  induction k with
  | zero =>
    intro s hs hcut
    have h0 : s = [] := List.length_eq_zero.mp (Nat.le_zero.mp hs)
    subst h0
    have hf : firstMatch re [] = none := by
      unfold firstMatch
      rw [matchHere_nil re hne]
    have hfl := firstMatch_cut re hne X [] hcut
    rw [hf] at hfl
    have e0 : ReplaceAllStringFunc re [] f = [] := replaceAll_of_none re f _ false _ hf
    rw [e0]
    simp only [List.nil_append] at hfl ⊢
    unfold ReplaceAllStringFunc
    cases hx : firstMatch re X with
    | none =>
      rw [hx] at hfl
      rw [replaceAll_of_none re f _ false _ hfl, replaceAll_of_none re f _ false _ hx]
    | some x =>
      obtain ⟨b, m, a⟩ := x
      rw [hx] at hfl
      have hfl2 : firstMatch re ('\n' :: X) = some ('\n' :: b, m, a) := hfl
      have hm := firstMatch_ne_nil re hne X b m a hx
      have hl := firstMatch_length re hne X b m a hx
      rw [replaceAll_one re f _ false _ _ m a hfl2 hm, replaceAll_one re f _ false _ _ m a hx hm,
        replaceAll_fuel re f hne a.length a (Nat.le_refl _) ('\n' :: X).length true
          (by simp only [List.length_cons]; omega),
        replaceAll_fuel re f hne a.length a (Nat.le_refl _) X.length true hl]
      rfl
  | succ k ih =>
    intro s hs hcut
    have hfl := firstMatch_cut re hne X s hcut
    cases hf : firstMatch re s with
    | none =>
      rw [hf] at hfl
      have e0 : ReplaceAllStringFunc re s f = s := replaceAll_of_none re f _ false _ hf
      rw [e0]
      unfold ReplaceAllStringFunc
      cases hx : firstMatch re X with
      | none =>
        rw [hx] at hfl
        rw [replaceAll_of_none re f _ false _ hfl, replaceAll_of_none re f _ false _ hx]
      | some x =>
        obtain ⟨b, m, a⟩ := x
        rw [hx] at hfl
        have hfl2 : firstMatch re (s ++ '\n' :: X) = some (s ++ '\n' :: b, m, a) := hfl
        have hm := firstMatch_ne_nil re hne X b m a hx
        have hl := firstMatch_length re hne X b m a hx
        rw [replaceAll_one re f _ false _ _ m a hfl2 hm,
          replaceAll_one re f _ false _ _ m a hx hm,
          replaceAll_fuel re f hne a.length a (Nat.le_refl _) (s ++ '\n' :: X).length true
            (by simp only [List.length_append, List.length_cons]; omega),
          replaceAll_fuel re f hne a.length a (Nat.le_refl _) X.length true hl]
        simp only [List.append_assoc, List.cons_append]
    | some x =>
      obtain ⟨b, m, a⟩ := x
      rw [hf] at hfl
      have hfl2 : firstMatch re (s ++ '\n' :: X) = some (b, m, a ++ '\n' :: X) := hfl
      have hm := firstMatch_ne_nil re hne s b m a hf
      have hl := firstMatch_length re hne s b m a hf
      have hsa : s = (b ++ m) ++ a := by
        rw [List.append_assoc]
        exact firstMatch_eq re s b m a hf
      have iha := ih a (by omega) (lineCut_suffix re (b ++ m) a X (hsa ▸ hcut))
      unfold ReplaceAllStringFunc at iha ⊢
      rw [replaceAll_one re f _ false _ _ m _ hfl2 hm,
        replaceAll_one re f _ false _ _ m a hf hm,
        replaceAll_fuel re f hne (a ++ '\n' :: X).length (a ++ '\n' :: X) (Nat.le_refl _)
          (s ++ '\n' :: X).length true
          (by simp only [List.length_append, List.length_cons]; omega),
        replaceAll_fuel re f hne a.length a (Nat.le_refl _) s.length true hl, iha]
      simp only [List.append_assoc, List.cons_append]

/-- A substitution with a pattern that has no empty match and matches no
newline works line by line. -/
theorem replace_lines (re : Re) (f : Str → Str) (hnf : newlineFree re = true)
    (hne : PatternNoEmpty re) (X : Str) (s : Str) :
    ReplaceAllStringFunc re (s ++ '\n' :: X) f
      = ReplaceAllStringFunc re s f ++ '\n' :: ReplaceAllStringFunc re X f :=
  replace_cut re f hne X s.length s (Nat.le_refl _) (lineCut_of_newlineFree re hnf s X)

/-- The asset rewrite works line by line. -/
theorem rewriteAssets_lines (s X : Str) :
    rewriteAssets (s ++ '\n' :: X) = rewriteAssets s ++ '\n' :: rewriteAssets X :=
  replace_lines assetRegExp assetCallback (by decide) noEmpty_assetRegExp X s

theorem rewriteAssets_nil : rewriteAssets [] = [] := by decide

theorem endsColon_nil : endsColon [] = false := rfl

theorem endsColon_append (a b : Str) (hb : b ≠ []) : endsColon (a ++ b) = endsColon b := by
  rcases List.eq_nil_or_concat b with h | ⟨b0, c, h⟩
  · exact absurd h hb
  · rw [List.concat_eq_append] at h
    subst h
    have e1 : (a ++ (b0 ++ [c])).getLast? = some c := by
      rw [← List.append_assoc]; simp
    have e2 : (b0 ++ [c]).getLast? = some c := by simp
    simp only [endsColon, e1, e2]

theorem endsColon_append_of (a b : Str) (ha : endsColon a = false) (hb : endsColon b = false) :
    endsColon (a ++ b) = false := by
  by_cases h : b = []
  · subst h
    rw [List.append_nil]
    exact ha
  · rw [endsColon_append a b h]
    exact hb

/-- A pattern made of a key that ends with a colon, `\s` and a rest without
newline: after a text that does not end with a colon a newline cuts the
matching. -/
theorem lineCut_field (K : Str) (R : Re) (hK1 : '\n' ∉ K) (hK2 : endsColon K = true)
    (hR : newlineFree R = true) (s X : Str) (hs : endsColon s = false) :
    LineCut (.seq (.lit K) (.seq .space R)) s X := by
  intro a b hab
  have hKne : K ≠ [] := by
    intro h
    rw [h] at hK2
    exact Bool.false_ne_true hK2
  by_cases hp : K.isPrefixOf b = true
  · obtain ⟨rest, hrest⟩ := (isPrefixOf_eq_true_iff K b).mp hp
    subst hrest
    cases rest with
    | nil =>
      exfalso
      rw [List.append_nil] at hab
      have := endsColon_append a K hKne
      rw [← hab, hs, hK2] at this
      exact Bool.false_ne_true this
    | cons d t =>
      rw [run_seq, run_seq, List.append_assoc, run_lit_append, run_lit_append]
      simp only [List.flatMap_cons, List.flatMap_nil, List.append_nil, run_seq, List.cons_append]
      by_cases hd : isSpace d = true
      · simp only [Re.run, hd, if_true, List.flatMap_cons, List.flatMap_nil, List.append_nil]
        exact run_append_line R hR X t
      · simp [Re.run, hd]
  · have hp1 : K.isPrefixOf b = false := Bool.eq_false_iff.mpr hp
    have hp2 : K.isPrefixOf (b ++ '\n' :: X) = false := by
      apply Bool.eq_false_iff.mpr
      intro h
      have hpre : K <+: b ++ '\n' :: X := (isPrefixOf_eq_true_iff _ _).mp h
      rcases List.prefix_or_prefix_of_prefix hpre (List.prefix_append b ('\n' :: X)) with h1 | h1
      · exact hp ((isPrefixOf_eq_true_iff _ _).mpr h1)
      · obtain ⟨k1, hk1⟩ := h1
        rw [← hk1] at hpre
        have h2 : k1 <+: '\n' :: X := (List.prefix_append_right_inj b).mp hpre
        cases k1 with
        | nil =>
          rw [List.append_nil] at hk1
          exact hp ((isPrefixOf_eq_true_iff _ _).mpr (by rw [hk1]))
        | cons x k2 =>
          have hx : x = '\n' := by
            obtain ⟨y, hy⟩ := h2
            simp only [List.cons_append, List.cons.injEq] at hy
            exact hy.1
          apply hK1
          rw [← hk1, hx]
          simp
    rw [run_seq, run_seq, run_lit_of_not K _ hp1, run_lit_of_not K _ hp2]
    rfl

theorem replaceAll_endsColon (re : Re) (r : Str) (hne : PatternNoEmpty re) (hr1 : r ≠ [])
    (hr2 : endsColon r = false) :
    ∀ (n : Nat) (jm : Bool) (s : Str), endsColon s = false →
      endsColon (replaceAll re (fun _ => r) n jm s) = false := by
  intro n
  induction n with
  | zero =>
    intro jm s hs
    exact hs
  | succ k ih =>
    intro jm s hs
    cases hf : firstMatch re s with
    | none =>
      rw [replaceAll_of_none re _ _ jm _ hf]
      exact hs
    | some x =>
      obtain ⟨b, m, a⟩ := x
      have hm := firstMatch_ne_nil re hne s b m a hf
      have hsa := firstMatch_eq re s b m a hf
      have ha : endsColon a = false := by
        by_cases h0 : a = []
        · rw [h0]; rfl
        · rw [hsa, ← List.append_assoc, endsColon_append _ a h0] at hs
          exact hs
      rw [replaceAll_one re _ k jm s b m a hf hm]
      have h1 : endsColon (r ++ replaceAll re (fun _ => r) k true a) = false :=
        endsColon_append_of _ _ hr2 (ih true a ha)
      have h2 : r ++ replaceAll re (fun _ => r) k true a ≠ [] := by
        intro h
        exact hr1 (List.append_eq_nil.mp h).1
      rw [endsColon_append b _ h2]
      exact h1

/-- A field substitution leaves a text that does not end with a colon without
a colon at its end. -/
theorem ReplaceAllString_endsColon (re : Re) (r s : Str) (hne : PatternNoEmpty re)
    (hr1 : r ≠ []) (hr2 : endsColon r = false) (hs : endsColon s = false) :
    endsColon (ReplaceAllString re s r) = false :=
  replaceAll_endsColon re r hne hr1 hr2 _ false s hs

/-- A field substitution works on the text before a line start and on the text
after it, each on its own, when the text before does not end with a colon. -/
theorem ReplaceAllString_lines (K : Str) (R : Re) (r s X : Str) (hK0 : K ≠ [])
    (hK1 : '\n' ∉ K) (hK2 : endsColon K = true) (hR : newlineFree R = true)
    (hs : endsColon s = false) :
    ReplaceAllString (.seq (.lit K) (.seq .space R)) (s ++ '\n' :: X) r
      = ReplaceAllString (.seq (.lit K) (.seq .space R)) s r
        ++ '\n' :: ReplaceAllString (.seq (.lit K) (.seq .space R)) X r :=
  replace_cut _ (fun _ => r) (noEmpty_seq_lit K hK0 _) X s.length s (Nat.le_refl _)
    (lineCut_field K R hK1 hK2 hR s X hs)

/-- The six field substitutions work on the lines before a line start and on
the text after it, each on its own, when the line before does not end with a
colon. -/
theorem rewriteFields_lines (s X : Str) (hs : endsColon s = false) :
    rewriteFields (s ++ '\n' :: X) = rewriteFields s ++ '\n' :: rewriteFields X := by
  have l1 := ReplaceAllString_lines "host:".toList (Re.cat [.lit "'".toList, .star .dot,
    .lit ",".toList]) "host: 'localhost',".toList s X (by decide) (by decide) (by decide)
    (by decide) hs
  have c1 := ReplaceAllString_endsColon hostRegExp "host: 'localhost',".toList s
    (noEmpty_seq_lit _ (by decide) _) (by decide) (by decide) hs
  have l2 := ReplaceAllString_lines "port:".toList (Re.cat [.star .dot, .lit ",".toList])
    "port: 8080,".toList _ (ReplaceAllString hostRegExp X "host: 'localhost',".toList)
    (by decide) (by decide) (by decide) (by decide) c1
  have c2 := ReplaceAllString_endsColon portRegExp "port: 8080,".toList _
    (noEmpty_seq_lit _ (by decide) _) (by decide) (by decide) c1
  have l3 := ReplaceAllString_lines "scheme:".toList (Re.cat [.star .dot, .lit ",".toList])
    "scheme: 'http',".toList _
    (ReplaceAllString portRegExp (ReplaceAllString hostRegExp X "host: 'localhost',".toList)
      "port: 8080,".toList)
    (by decide) (by decide) (by decide) (by decide) c2
  have c3 := ReplaceAllString_endsColon schemeRegExp "scheme: 'http',".toList _
    (noEmpty_seq_lit _ (by decide) _) (by decide) (by decide) c2
  have l4 := ReplaceAllString_lines "schemeAndHttpHost:".toList
    (Re.cat [.star .dot, .lit ",".toList]) "schemeAndHttpHost: 'http://localhost:8080',".toList _
    (ReplaceAllString schemeRegExp (ReplaceAllString portRegExp
      (ReplaceAllString hostRegExp X "host: 'localhost',".toList) "port: 8080,".toList)
      "scheme: 'http',".toList)
    (by decide) (by decide) (by decide) (by decide) c3
  have c4 := ReplaceAllString_endsColon schemeAndHttpHostRegExp
    "schemeAndHttpHost: 'http://localhost:8080',".toList _
    (noEmpty_seq_lit _ (by decide) _) (by decide) (by decide) c3
  have l5 := ReplaceAllString_lines "uri:".toList (Re.cat [.star .dot, .lit ",".toList])
    "uri: 'http://localhost:8080/admin',".toList _
    (ReplaceAllString schemeAndHttpHostRegExp (ReplaceAllString schemeRegExp
      (ReplaceAllString portRegExp (ReplaceAllString hostRegExp X "host: 'localhost',".toList)
        "port: 8080,".toList) "scheme: 'http',".toList)
      "schemeAndHttpHost: 'http://localhost:8080',".toList)
    (by decide) (by decide) (by decide) (by decide) c4
  have c5 := ReplaceAllString_endsColon uriRegExp "uri: 'http://localhost:8080/admin',".toList _
    (noEmpty_seq_lit _ (by decide) _) (by decide) (by decide) c4
  have l6 := ReplaceAllString_lines "assetPath:".toList (.star .dot)
    "assetPath: 'http://localhost:8080'".toList _
    (ReplaceAllString uriRegExp (ReplaceAllString schemeAndHttpHostRegExp
      (ReplaceAllString schemeRegExp (ReplaceAllString portRegExp
        (ReplaceAllString hostRegExp X "host: 'localhost',".toList)
        "port: 8080,".toList) "scheme: 'http',".toList)
      "schemeAndHttpHost: 'http://localhost:8080',".toList)
      "uri: 'http://localhost:8080/admin',".toList)
    (by decide) (by decide) (by decide) (by decide) c5
  unfold rewriteFields
  exact (congrArg (fun t => ReplaceAllString assetPathRegExp
      (ReplaceAllString uriRegExp (ReplaceAllString schemeAndHttpHostRegExp
        (ReplaceAllString schemeRegExp (ReplaceAllString portRegExp t "port: 8080,".toList)
          "scheme: 'http',".toList) "schemeAndHttpHost: 'http://localhost:8080',".toList)
        "uri: 'http://localhost:8080/admin',".toList)
      "assetPath: 'http://localhost:8080'".toList) l1).trans
    ((congrArg (fun t => ReplaceAllString assetPathRegExp
      (ReplaceAllString uriRegExp (ReplaceAllString schemeAndHttpHostRegExp
        (ReplaceAllString schemeRegExp t "scheme: 'http',".toList)
        "schemeAndHttpHost: 'http://localhost:8080',".toList)
        "uri: 'http://localhost:8080/admin',".toList)
      "assetPath: 'http://localhost:8080'".toList) l2).trans
    ((congrArg (fun t => ReplaceAllString assetPathRegExp
      (ReplaceAllString uriRegExp (ReplaceAllString schemeAndHttpHostRegExp t
        "schemeAndHttpHost: 'http://localhost:8080',".toList)
        "uri: 'http://localhost:8080/admin',".toList)
      "assetPath: 'http://localhost:8080'".toList) l3).trans
    ((congrArg (fun t => ReplaceAllString assetPathRegExp
      (ReplaceAllString uriRegExp t "uri: 'http://localhost:8080/admin',".toList)
      "assetPath: 'http://localhost:8080'".toList) l4).trans
    ((congrArg (fun t => ReplaceAllString assetPathRegExp t
      "assetPath: 'http://localhost:8080'".toList) l5).trans l6))))

/-- The rewrite of the bootstrap page works on the lines before a line start
and on the text after it, each on its own, when the line before does not end
with a colon. -/
theorem RewriteBootstrapHtml_lines (s X : Str) (hs : endsColon s = false) :
    RewriteBootstrapHtml (s ++ '\n' :: X)
      = RewriteBootstrapHtml s ++ '\n' :: RewriteBootstrapHtml X := by
  unfold RewriteBootstrapHtml
  rw [rewriteFields_lines s X hs, rewriteAssets_lines]

/-! ## The manifest: the declared members -/

theorem lookup_split (name : Str) : ∀ (kvs : List (Str × Json)) (v : Json),
    kvs.lookup name = some v → ∃ l1 l2, kvs = l1 ++ (name, v) :: l2 := by
  intro kvs
  induction kvs with
  | nil => intro v h; simp at h
  | cons e t ih =>
    intro v h
    obtain ⟨k, x⟩ := e
    by_cases hk : name = k
    · subst hk
      simp only [List.lookup, beq_self_eq_true, Option.some.injEq] at h
      exact ⟨[], t, by rw [h]; rfl⟩
    · have hk2 : (name == k) = false := by simpa using hk
      simp only [List.lookup, hk2] at h
      obtain ⟨l1, l2, e⟩ := ih v h
      exact ⟨(k, x) :: l1, l2, by rw [e]; rfl⟩

theorem selectsOnce_split (name : Str) (l1 l2 : List (Str × Json)) (v : Json)
    (hself : equalFold name name = true)
    (h : selectsOnce name (l1 ++ (name, v) :: l2) = true) :
    ∀ kv ∈ l2, equalFold name kv.1 = false := by
  intro kv hkv
  by_contra hc
  have hc2 : equalFold name kv.1 = true := by simpa using hc
  have hmem : kv ∈ l2.filter (fun kv => equalFold name kv.1) := List.mem_filter.mpr ⟨hkv, hc2⟩
  have hpos : 0 < (l2.filter (fun kv => equalFold name kv.1)).length :=
    List.length_pos_of_mem hmem
  simp only [selectsOnce, List.filter_append, List.filter_cons, hself, if_true,
    List.length_append, List.length_cons, decide_eq_true_eq] at h
  omega

theorem foldlM_split {σ α : Type} (F : σ → α → Option σ) (l1 l2 : List α) (x : α) (a m : σ)
    (h : (l1 ++ x :: l2).foldlM F a = some m) :
    ∃ a1 a2, F a1 x = some a2 ∧ l2.foldlM F a2 = some m := by
  rw [List.foldlM_append] at h
  cases h1 : l1.foldlM F a with
  | none => rw [h1] at h; simp at h
  | some a1 =>
    rw [h1] at h
    simp only [Option.bind_eq_bind, Option.some_bind, List.foldlM_cons] at h
    cases h2 : F a1 x with
    | none => rw [h2] at h; simp at h
    | some a2 =>
      rw [h2] at h
      exact ⟨a1, a2, h2, h⟩

theorem foldlM_keep {σ α β : Type} (F : σ → α → Option σ) (proj : σ → β) (P : α → Prop)
    (hF : ∀ a x a1, P x → F a x = some a1 → proj a1 = proj a) :
    ∀ (l : List α) (a m : σ), (∀ x ∈ l, P x) → l.foldlM F a = some m → proj m = proj a := by
  intro l
  induction l with
  | nil =>
    intro a m _ h
    simp only [List.foldlM_nil, Option.pure_def, Option.some.injEq] at h
    rw [h]
  | cons x t ih =>
    intro a m hP h
    simp only [List.foldlM_cons, Option.bind_eq_bind] at h
    cases h2 : F a x with
    | none => rw [h2] at h; simp at h
    | some a2 =>
      rw [h2] at h
      simp only [Option.some_bind] at h
      rw [ih a2 m (fun y hy => hP y (List.mem_cons_of_mem _ hy)) h,
        hF a x a2 (hP x (List.mem_cons_self _ _)) h2]

/-- The value of the field that one member of an object selects: the fold of
the decoder over the members gives, at that field, what the member alone
gives. -/
theorem fold_field {σ β : Type} (F : σ → Str × Json → Option σ) (proj : σ → β) (name : Str)
    (hself : equalFold name name = true)
    (hF : ∀ a x a1, equalFold name x.1 = false → F a x = some a1 → proj a1 = proj a)
    (kvs : List (Str × Json)) (v : Json) (a m : σ)
    (hl : kvs.lookup name = some v) (h1 : selectsOnce name kvs = true)
    (hfold : kvs.foldlM F a = some m) :
    ∃ a1 a2, F a1 (name, v) = some a2 ∧ proj m = proj a2 := by
  obtain ⟨l1, l2, e⟩ := lookup_split name kvs v hl
  subst e
  obtain ⟨a1, a2, h2, h3⟩ := foldlM_split F l1 l2 (name, v) a m hfold
  exact ⟨a1, a2, h2, foldlM_keep F proj (fun x => equalFold name x.1 = false) hF l2 a2 m
    (selectsOnce_split name l1 l2 v hself h1) h3⟩

theorem decodeInfoMember_keep_version (a : adminBundlesInfo) (x : Str × Json)
    (a1 : adminBundlesInfo) (hx : equalFold "version".toList x.1 = false)
    (h : decodeInfoMember a x = some a1) : a1.Version = a.Version := by
  unfold decodeInfoMember at h
  rw [hx] at h
  simp only [Bool.false_eq_true, if_false] at h
  split_ifs at h
  all_goals first
    | (obtain ⟨v, _, rfl⟩ := Option.map_eq_some'.mp h; rfl)
    | (cases h; rfl)

theorem decodeInfoMember_keep_versionRevision (a : adminBundlesInfo) (x : Str × Json)
    (a1 : adminBundlesInfo) (hx : equalFold "versionRevision".toList x.1 = false)
    (h : decodeInfoMember a x = some a1) : a1.VersionRevision = a.VersionRevision := by
  unfold decodeInfoMember at h
  rw [hx] at h
  simp only [Bool.false_eq_true, if_false] at h
  split_ifs at h
  all_goals first
    | (obtain ⟨v, _, rfl⟩ := Option.map_eq_some'.mp h; rfl)
    | (cases h; rfl)

theorem decodeInfoMember_keep_adminWorker (a : adminBundlesInfo) (x : Str × Json)
    (a1 : adminBundlesInfo) (hx : equalFold "adminWorker".toList x.1 = false)
    (h : decodeInfoMember a x = some a1) : a1.AdminWorker = a.AdminWorker := by
  unfold decodeInfoMember at h
  rw [hx] at h
  simp only [Bool.false_eq_true, if_false] at h
  split_ifs at h
  all_goals first
    | (obtain ⟨v, _, rfl⟩ := Option.map_eq_some'.mp h; rfl)
    | (cases h; rfl)

theorem decodeInfoMember_keep_settings (a : adminBundlesInfo) (x : Str × Json)
    (a1 : adminBundlesInfo) (hx : equalFold "settings".toList x.1 = false)
    (h : decodeInfoMember a x = some a1) : a1.Settings = a.Settings := by
  unfold decodeInfoMember at h
  rw [hx] at h
  simp only [Bool.false_eq_true, if_false] at h
  split_ifs at h
  all_goals first
    | (obtain ⟨v, _, rfl⟩ := Option.map_eq_some'.mp h; rfl)
    | (cases h; rfl)

theorem decodeAdminWorkerMember_keep_enable (a : AdminWorkerInfo) (x : Str × Json)
    (a1 : AdminWorkerInfo) (hx : equalFold "enableAdminWorker".toList x.1 = false)
    (h : decodeAdminWorkerMember a x = some a1) :
    a1.EnableAdminWorker = a.EnableAdminWorker := by
  unfold decodeAdminWorkerMember at h
  rw [hx] at h
  simp only [Bool.false_eq_true, if_false] at h
  split_ifs at h
  all_goals first
    | (obtain ⟨v, _, rfl⟩ := Option.map_eq_some'.mp h; rfl)
    | (cases h; rfl)

theorem decodeAdminWorkerMember_keep_transports (a : AdminWorkerInfo) (x : Str × Json)
    (a1 : AdminWorkerInfo) (hx : equalFold "transports".toList x.1 = false)
    (h : decodeAdminWorkerMember a x = some a1) : a1.Transports = a.Transports := by
  unfold decodeAdminWorkerMember at h
  rw [hx] at h
  simp only [Bool.false_eq_true, if_false] at h
  split_ifs at h
  all_goals first
    | (obtain ⟨v, _, rfl⟩ := Option.map_eq_some'.mp h; rfl)
    | (cases h; rfl)

theorem decodeSettingsMember_keep (a : SettingsInfo) (x : Str × Json)
    (a1 : SettingsInfo) (hx : equalFold "enableUrlFeature".toList x.1 = false)
    (h : decodeSettingsMember a x = some a1) : a1.EnableUrlFeature = a.EnableUrlFeature := by
  unfold decodeSettingsMember at h
  rw [hx] at h
  simp only [Bool.false_eq_true, if_false] at h
  cases h
  rfl

/-- A string member that is not `null` is stored as it is. -/
theorem decodeString_noNull (cur : Str) (v : Json) (s : Str) (hv : v.noNull = true)
    (h : decodeString cur v = some s) : v = .str s := by
  cases v with
  | null => exact absurd hv (by decide)
  | str t => simp only [decodeString, Option.some.injEq] at h; rw [h]
  | bool b => simp [decodeString] at h
  | num t => simp [decodeString] at h
  | arr xs => simp [decodeString] at h
  | obj ms => simp [decodeString] at h

/-- A boolean member that is not `null` is stored as it is. -/
theorem decodeBool_noNull (cur : Bool) (v : Json) (b : Bool) (hv : v.noNull = true)
    (h : decodeBool cur v = some b) : v = .bool b := by
  cases v with
  | null => exact absurd hv (by decide)
  | bool t => simp only [decodeBool, Option.some.injEq] at h; rw [h]
  | str t => simp [decodeBool] at h
  | num t => simp [decodeBool] at h
  | arr xs => simp [decodeBool] at h
  | obj ms => simp [decodeBool] at h

theorem decodeElems_noNull : ∀ (xs : List Json) (ss : List Str),
    (xs.all (fun x => match x with
      | .null => false
      | _ => true)) = true →
    decodeElems xs = some ss → xs = ss.map Json.str := by
  intro xs
  induction xs with
  | nil =>
    intro ss _ h
    simp only [decodeElems, Option.some.injEq] at h
    rw [← h]
    rfl
  | cons x t ih =>
    intro ss hall h
    simp only [List.all_cons, Bool.and_eq_true] at hall
    simp only [decodeElems] at h
    cases h1 : decodeString [] x with
    | none => rw [h1] at h; simp at h
    | some s =>
      rw [h1] at h
      simp only [Option.some_bind] at h
      obtain ⟨r, hr, rfl⟩ := Option.map_eq_some'.mp h
      have hx : x = .str s := by
        cases x with
        | null => exact absurd hall.1 (by decide)
        | str t => simp only [decodeString, Option.some.injEq] at h1; rw [h1]
        | bool b => simp [decodeString] at h1
        | num t => simp [decodeString] at h1
        | arr ys => simp [decodeString] at h1
        | obj ms => simp [decodeString] at h1
      rw [hx, ih r hall.2 hr]
      rfl

/-- An array member without `null` is stored as it is. -/
theorem decodeStrings_noNull (v : Json) (t : Option (List Str)) (hv : v.noNull = true)
    (h : decodeStrings v = some t) : encodeStrings t = v := by
  cases v with
  | null => exact absurd hv (by decide)
  | arr xs =>
    simp only [decodeStrings] at h
    obtain ⟨ss, hss, rfl⟩ := Option.map_eq_some'.mp h
    simp only [encodeStrings]
    rw [decodeElems_noNull xs ss hv hss]
  | bool b => simp [decodeStrings] at h
  | str s => simp [decodeStrings] at h
  | num s => simp [decodeStrings] at h
  | obj ms => simp [decodeStrings] at h

/-- When the config branch writes a manifest, the upstream body is an object
that decodes with `bundles` present, and the manifest is the encoding of the
decoded value after the injection. -/
theorem configHandler_manifest (compileResult : AssetCompileResult) (body out : Json)
    (h : (configHandler compileResult (some body)).manifest = some out) :
    ∃ kvs m bundles, body = .obj kvs ∧
      kvs.foldlM decodeInfoMember adminBundlesInfo.zero = some m ∧
      m.Bundles = some bundles ∧
      out = Marshal { m with Bundles := some (injectBundles bundles compileResult.Name) } := by
  cases hd : decodeInfo adminBundlesInfo.zero body with
  | none =>
    have hU : Unmarshal (some body) = .error .typeError := by simp only [Unmarshal, hd]
    rw [configHandler_of_error compileResult _ _ hU] at h
    simp at h
  | some m =>
    have hU : Unmarshal (some body) = .ok m := by simp only [Unmarshal, hd]
    cases hb : m.Bundles with
    | none =>
      rw [configHandler_of_nil compileResult _ m hU hb] at h
      simp at h
    | some bundles =>
      rw [configHandler_of_bundles compileResult _ m bundles hU hb] at h
      simp only [Option.some.injEq] at h
      cases body with
      | obj kvs => exact ⟨kvs, m, bundles, rfl, hd, hb, h.symm⟩
      | null =>
        simp only [decodeInfo, Option.some.injEq] at hd
        rw [← hd] at hb
        simp [adminBundlesInfo.zero] at hb
      | bool b => simp [decodeInfo] at hd
      | num t => simp [decodeInfo] at hd
      | str t => simp [decodeInfo] at hd
      | arr xs => simp [decodeInfo] at hd

theorem atPath_two (k1 k2 : Str) (j v : Json) (h : j.atPath [k1, k2] = some v) :
    ∃ aw, j.member k1 = some aw ∧ aw.member k2 = some v := by
  simp only [Json.atPath] at h
  cases h1 : j.member k1 with
  | none => rw [h1] at h; simp at h
  | some aw =>
    rw [h1] at h
    simp only [Option.some_bind] at h
    cases h2 : aw.member k2 with
    | none => rw [h2] at h; simp at h
    | some w =>
      rw [h2] at h
      simp only [Option.some_bind, Option.some.injEq] at h
      exact ⟨aw, rfl, by rw [h2, h]⟩

theorem selectsOnce_of_all (names : List Str) (members : List (Str × Json)) (n : Str)
    (h : (Json.obj members).selectsOnce names = true) (hn : n ∈ names) :
    selectsOnce n members = true := by
  simp only [Json.selectsOnce, List.all_eq_true] at h
  exact h n hn

/-- The pass-through of the declared members, for an upstream object given by
its members and the value it decodes to. -/
theorem declared_fields_aux (kvs : List (Str × Json)) (m m2 : adminBundlesInfo)
    (hu : uniqueFields (.obj kvs) = true)
    (hfold : kvs.foldlM decodeInfoMember adminBundlesInfo.zero = some m)
    (hV : m2.Version = m.Version) (hVR : m2.VersionRevision = m.VersionRevision)
    (hAW : m2.AdminWorker = m.AdminWorker) (hS : m2.Settings = m.Settings) :
    ∀ path ∈ declaredFields, ∀ v, (Json.obj kvs).atPath path = some v → v.noNull = true →
      (Marshal m2).atPath path = some v := by
  simp only [uniqueFields, Bool.and_eq_true] at hu
  obtain ⟨⟨hu1, hu2⟩, hu3⟩ := hu
  intro path hp v hv hn
  simp only [declaredFields, List.mem_cons, List.mem_singleton, List.not_mem_nil,
    or_false] at hp
  rcases hp with rfl | rfl | rfl | rfl | rfl
  · -- version
    have hl : kvs.lookup "version".toList = some v := by
      simpa [Json.atPath, Json.member] using hv
    obtain ⟨a1, a2, hF, hm⟩ := fold_field decodeInfoMember adminBundlesInfo.Version
      "version".toList (by decide) decodeInfoMember_keep_version kvs v _ m hl
      (selectsOnce_of_all _ kvs _ hu1 (by decide)) hfold
    have e : equalFold "version".toList "version".toList = true := by decide
    simp only [decodeInfoMember, e, if_true] at hF
    obtain ⟨s, hs, rfl⟩ := Option.map_eq_some'.mp hF
    have hvs := decodeString_noNull _ v s hn hs
    have hM : (Marshal m2).atPath ["version".toList] = some (.str m2.Version) := rfl
    rw [hM, hV, hm, hvs]
  · -- versionRevision
    have hl : kvs.lookup "versionRevision".toList = some v := by
      simpa [Json.atPath, Json.member] using hv
    obtain ⟨a1, a2, hF, hm⟩ := fold_field decodeInfoMember adminBundlesInfo.VersionRevision
      "versionRevision".toList (by decide) decodeInfoMember_keep_versionRevision kvs v _ m hl
      (selectsOnce_of_all _ kvs _ hu1 (by decide)) hfold
    have e1 : equalFold "version".toList "versionRevision".toList = false := by decide
    have e : equalFold "versionRevision".toList "versionRevision".toList = true := by decide
    simp only [decodeInfoMember, e1, e, if_true, Bool.false_eq_true, if_false] at hF
    obtain ⟨s, hs, rfl⟩ := Option.map_eq_some'.mp hF
    have hvs := decodeString_noNull _ v s hn hs
    have hM : (Marshal m2).atPath ["versionRevision".toList]
        = some (.str m2.VersionRevision) := rfl
    rw [hM, hVR, hm, hvs]
  · -- adminWorker.enableAdminWorker
    obtain ⟨aw, hl, hv2⟩ : ∃ aw, kvs.lookup "adminWorker".toList = some aw ∧
        aw.member "enableAdminWorker".toList = some v := atPath_two _ _ _ v hv
    obtain ⟨a1, a2, hF, hm⟩ := fold_field decodeInfoMember adminBundlesInfo.AdminWorker
      "adminWorker".toList (by decide) decodeInfoMember_keep_adminWorker kvs aw _ m hl
      (selectsOnce_of_all _ kvs _ hu1 (by decide)) hfold
    have e1 : equalFold "version".toList "adminWorker".toList = false := by decide
    have e2 : equalFold "versionRevision".toList "adminWorker".toList = false := by decide
    have e : equalFold "adminWorker".toList "adminWorker".toList = true := by decide
    simp only [decodeInfoMember, e1, e2, e, if_true, Bool.false_eq_true, if_false] at hF
    obtain ⟨w, hw, rfl⟩ := Option.map_eq_some'.mp hF
    have hmem : (Json.obj kvs).member "adminWorker".toList = some aw := hl
    rw [hmem] at hu2
    cases aw with
    | obj ms =>
      have hl2 : ms.lookup "enableAdminWorker".toList = some v := hv2
      simp only [decodeAdminWorker] at hw
      obtain ⟨b1, b2, hF2, hm2⟩ := fold_field decodeAdminWorkerMember
        AdminWorkerInfo.EnableAdminWorker "enableAdminWorker".toList (by decide)
        decodeAdminWorkerMember_keep_enable ms v _ w hl2
        (selectsOnce_of_all _ ms _ hu2 (by decide)) hw
      have e3 : equalFold "enableAdminWorker".toList "enableAdminWorker".toList = true := by
        decide
      simp only [decodeAdminWorkerMember, e3, if_true] at hF2
      obtain ⟨b, hb, rfl⟩ := Option.map_eq_some'.mp hF2
      have hvb := decodeBool_noNull _ v b hn hb
      have hM : (Marshal m2).atPath ["adminWorker".toList, "enableAdminWorker".toList]
          = some (.bool m2.AdminWorker.EnableAdminWorker) := rfl
      rw [hM, hAW, hm]
      simp only at hm2 ⊢
      rw [hm2, hvb]
    | null => simp [Json.member] at hv2
    | bool b => simp [Json.member] at hv2
    | num t => simp [Json.member] at hv2
    | str t => simp [Json.member] at hv2
    | arr xs => simp [Json.member] at hv2
  · -- adminWorker.transports
    obtain ⟨aw, hl, hv2⟩ : ∃ aw, kvs.lookup "adminWorker".toList = some aw ∧
        aw.member "transports".toList = some v := atPath_two _ _ _ v hv
    obtain ⟨a1, a2, hF, hm⟩ := fold_field decodeInfoMember adminBundlesInfo.AdminWorker
      "adminWorker".toList (by decide) decodeInfoMember_keep_adminWorker kvs aw _ m hl
      (selectsOnce_of_all _ kvs _ hu1 (by decide)) hfold
    have e1 : equalFold "version".toList "adminWorker".toList = false := by decide
    have e2 : equalFold "versionRevision".toList "adminWorker".toList = false := by decide
    have e : equalFold "adminWorker".toList "adminWorker".toList = true := by decide
    simp only [decodeInfoMember, e1, e2, e, if_true, Bool.false_eq_true, if_false] at hF
    obtain ⟨w, hw, rfl⟩ := Option.map_eq_some'.mp hF
    have hmem : (Json.obj kvs).member "adminWorker".toList = some aw := hl
    rw [hmem] at hu2
    cases aw with
    | obj ms =>
      have hl2 : ms.lookup "transports".toList = some v := hv2
      simp only [decodeAdminWorker] at hw
      obtain ⟨b1, b2, hF2, hm2⟩ := fold_field decodeAdminWorkerMember
        AdminWorkerInfo.Transports "transports".toList (by decide)
        decodeAdminWorkerMember_keep_transports ms v _ w hl2
        (selectsOnce_of_all _ ms _ hu2 (by decide)) hw
      have e3 : equalFold "enableAdminWorker".toList "transports".toList = false := by decide
      have e4 : equalFold "transports".toList "transports".toList = true := by decide
      simp only [decodeAdminWorkerMember, e3, e4, if_true, Bool.false_eq_true, if_false] at hF2
      obtain ⟨t, ht, rfl⟩ := Option.map_eq_some'.mp hF2
      have hvt := decodeStrings_noNull v t hn ht
      have hM : (Marshal m2).atPath ["adminWorker".toList, "transports".toList]
          = some (encodeStrings m2.AdminWorker.Transports) := rfl
      rw [hM, hAW, hm]
      simp only at hm2 ⊢
      rw [hm2, hvt]
    | null => simp [Json.member] at hv2
    | bool b => simp [Json.member] at hv2
    | num t => simp [Json.member] at hv2
    | str t => simp [Json.member] at hv2
    | arr xs => simp [Json.member] at hv2
  · -- settings.enableUrlFeature
    obtain ⟨st, hl, hv2⟩ : ∃ st, kvs.lookup "settings".toList = some st ∧
        st.member "enableUrlFeature".toList = some v := atPath_two _ _ _ v hv
    obtain ⟨a1, a2, hF, hm⟩ := fold_field decodeInfoMember adminBundlesInfo.Settings
      "settings".toList (by decide) decodeInfoMember_keep_settings kvs st _ m hl
      (selectsOnce_of_all _ kvs _ hu1 (by decide)) hfold
    have e1 : equalFold "version".toList "settings".toList = false := by decide
    have e2 : equalFold "versionRevision".toList "settings".toList = false := by decide
    have e3 : equalFold "adminWorker".toList "settings".toList = false := by decide
    have e4 : equalFold "bundles".toList "settings".toList = false := by decide
    have e : equalFold "settings".toList "settings".toList = true := by decide
    simp only [decodeInfoMember, e1, e2, e3, e4, e, if_true, Bool.false_eq_true, if_false] at hF
    obtain ⟨w, hw, rfl⟩ := Option.map_eq_some'.mp hF
    have hmem : (Json.obj kvs).member "settings".toList = some st := hl
    rw [hmem] at hu3
    cases st with
    | obj ms =>
      have hl2 : ms.lookup "enableUrlFeature".toList = some v := hv2
      simp only [decodeSettings] at hw
      obtain ⟨b1, b2, hF2, hm2⟩ := fold_field decodeSettingsMember
        SettingsInfo.EnableUrlFeature "enableUrlFeature".toList (by decide)
        decodeSettingsMember_keep ms v _ w hl2
        (selectsOnce_of_all _ ms _ hu3 (by decide)) hw
      have e5 : equalFold "enableUrlFeature".toList "enableUrlFeature".toList = true := by
        decide
      simp only [decodeSettingsMember, e5, if_true] at hF2
      obtain ⟨b, hb, rfl⟩ := Option.map_eq_some'.mp hF2
      have hvb := decodeBool_noNull _ v b hn hb
      have hM : (Marshal m2).atPath ["settings".toList, "enableUrlFeature".toList]
          = some (.bool m2.Settings.EnableUrlFeature) := rfl
      rw [hM, hS, hm]
      simp only at hm2 ⊢
      rw [hm2, hvb]
    | null => simp [Json.member] at hv2
    | bool b => simp [Json.member] at hv2
    | num t => simp [Json.member] at hv2
    | str t => simp [Json.member] at hv2
    | arr xs => simp [Json.member] at hv2

/-! ## The scheme of a URL in lower case -/

theorem getSchemeLoop_ascii (whole : Str) : ∀ (t acc scheme rest : Str),
    acc.all (fun c => c.toNat < 0x80) = true →
    getSchemeLoop whole acc t = some (scheme, rest) →
    scheme.all (fun c => c.toNat < 0x80) = true := by
  intro t
  induction t with
  | nil =>
    intro acc scheme rest _ h
    simp only [getSchemeLoop, Option.some.injEq, Prod.mk.injEq] at h
    rw [← h.1]
    rfl
  | cons c t ih =>
    intro acc scheme rest hacc h
    unfold getSchemeLoop at h
    split_ifs at h with h1 h2 h3 h4 h5
    · refine ih (acc ++ [c]) scheme rest ?_ h
      simp only [Bool.or_eq_true, Bool.and_eq_true, decide_eq_true_eq, char_le_iff] at h1
      have e1 : 'z'.toNat = 122 := rfl
      have e2 : 'Z'.toNat = 90 := rfl
      rw [e1, e2] at h1
      simp only [List.all_append, hacc, List.all_cons, List.all_nil, Bool.and_true,
        Bool.true_and, decide_eq_true_eq]
      omega
    · simp only [Option.some.injEq, Prod.mk.injEq] at h
      rw [← h.1]
      rfl
    · refine ih (acc ++ [c]) scheme rest ?_ h
      simp only [Bool.or_eq_true, Bool.and_eq_true, decide_eq_true_eq, char_le_iff] at h2
      have e1 : '9'.toNat = 57 := rfl
      rw [e1] at h2
      have hc : c.toNat < 0x80 := by
        rcases h2 with ((h2 | h2) | h2) | h2
        · omega
        · rw [h2]; decide
        · rw [h2]; decide
        · rw [h2]; decide
      simp only [List.all_append, hacc, List.all_cons, List.all_nil, Bool.and_true,
        Bool.true_and, decide_eq_true_eq]
      exact hc
    · simp only [Option.some.injEq, Prod.mk.injEq] at h
      rw [← h.1]
      exact hacc
    · simp only [Option.some.injEq, Prod.mk.injEq] at h
      rw [← h.1]
      rfl

/-- The scheme that `getScheme` returns is lowered by the ASCII branch of
`strings.ToLower`, whatever the case table holds. -/
theorem ToLower_scheme (lowerTable : Nat → Nat) (rawURL scheme rest : Str)
    (h : getScheme rawURL = some (scheme, rest)) :
    ToLower lowerTable scheme = lowerASCII scheme := by
  unfold ToLower
  rw [if_pos (getSchemeLoop_ascii rawURL rawURL [] scheme rest rfl h)]

/-! ## The rewrite of the page on whole lines -/

theorem linesBefore_cases (P : Str) (hP : linesBefore P = true) :
    P = [] ∨ ∃ s, P = s ++ ['\n'] ∧ endsColon s = false := by
  rcases List.eq_nil_or_concat P with h | ⟨s, c, h⟩
  · exact Or.inl h
  · rw [List.concat_eq_append] at h
    subst h
    have hl : (s ++ [c]).getLast? = some c := by simp
    have hne : s ++ [c] ≠ [] := by simp
    simp only [linesBefore, hne, decide_False, Bool.false_or, hl, List.dropLast_concat,
      Bool.and_eq_true, beq_iff_eq, Option.some.injEq, Bool.not_eq_true'] at hP
    obtain ⟨hc, hs⟩ := hP
    subst hc
    exact Or.inr ⟨s, rfl, hs⟩

theorem RewriteBootstrapHtml_nil : RewriteBootstrapHtml [] = [] := by decide

/-- The rewrite of the bootstrap page works on whole lines, of which the last
does not end with a colon, and on the text after them, each on its own. -/
theorem RewriteBootstrapHtml_whole (P X : Str) (hP : linesBefore P = true) :
    RewriteBootstrapHtml (P ++ X) = RewriteBootstrapHtml P ++ RewriteBootstrapHtml X := by
  rcases linesBefore_cases P hP with h | ⟨s, h, hs⟩
  · subst h
    rw [RewriteBootstrapHtml_nil]
    rfl
  · subst h
    have e1 : s ++ ['\n'] ++ X = s ++ '\n' :: X := by simp
    rw [e1, RewriteBootstrapHtml_lines s X hs, RewriteBootstrapHtml_lines s [] hs,
      RewriteBootstrapHtml_nil]
    simp

theorem ReplaceAllString_of_free (K : Str) (R : Re) (s r : Str)
    (h : freeOf (triggersOf K) s = true) :
    ReplaceAllString (.seq (.lit K) (.seq .space R)) s r = s :=
  replaceAll_of_none _ _ _ false s
    (firstMatch_none_of_free _ (triggersOf K) s (triggered_field K R) h)

/-- The six field substitutions leave a text in which no field key is followed
by whitespace as it is. -/
theorem rewriteFields_of_plain (s : Str) (h : plainText s = true) : rewriteFields s = s := by
  have hall := List.all_eq_true.mp h
  have h1 : ReplaceAllString hostRegExp s "host: 'localhost',".toList = s :=
    ReplaceAllString_of_free "host:".toList _ s _ (hall _ (by decide))
  have h2 : ReplaceAllString portRegExp s "port: 8080,".toList = s :=
    ReplaceAllString_of_free "port:".toList _ s _ (hall _ (by decide))
  have h3 : ReplaceAllString schemeRegExp s "scheme: 'http',".toList = s :=
    ReplaceAllString_of_free "scheme:".toList _ s _ (hall _ (by decide))
  have h4 : ReplaceAllString schemeAndHttpHostRegExp s
      "schemeAndHttpHost: 'http://localhost:8080',".toList = s :=
    ReplaceAllString_of_free "schemeAndHttpHost:".toList _ s _ (hall _ (by decide))
  have h5 : ReplaceAllString uriRegExp s "uri: 'http://localhost:8080/admin',".toList = s :=
    ReplaceAllString_of_free "uri:".toList _ s _ (hall _ (by decide))
  have h6 : ReplaceAllString assetPathRegExp s "assetPath: 'http://localhost:8080'".toList = s :=
    ReplaceAllString_of_free "assetPath:".toList _ s _ (hall _ (by decide))
  unfold rewriteFields
  simp only [h1, h2, h3, h4, h5, h6]

/-- The rewrite of a page on the line of its last quoted attribute: when the
lines before are whole and the last of them does not end with a colon, the
line holds no field key followed by whitespace and does not end with a colon,
the text of the line before the attribute has no start of an asset pattern
and is empty or ends with whitespace, the URL is well formed with `/bundles/`
in its path, and the closing quote is the last double quote of the line, then
the page written has, after the rewrite of the lines before, the text before
the attribute and the attribute with the local URL. -/
theorem rewrite_attribute (P A attr q B : Str) (u : AbsUrl)
    (hP : linesBefore P = true)
    (hA1 : freeOf assetTriggers A = true) (hA2 : endsWithSpace A = true)
    (hattr : attr ∈ assetAttributes) (hu : u.wellFormed = true)
    (hb : Contains u.path "/bundles/".toList = true) (hq : '"' ∉ q) (hB : lineEnd B = true)
    (hplain : plainText (A ++ (attr ++ ("=\"".toList ++ (u.text ++ '"' :: q)))) = true)
    (hcolon : endsColon q = false) :
    ∃ Y, RewriteBootstrapHtml
        (P ++ (A ++ (attr ++ ("=\"".toList ++ (u.text ++ '"' :: (q ++ B))))))
      = RewriteBootstrapHtml P ++ (A ++ (attr ++ ("=\"".toList ++ (u.localText ++ '"' :: Y)))) := by
  obtain ⟨Y, hY⟩ := rewriteAssets_attribute_aux A attr q [] u hA1 hA2 hattr hu hb hq rfl
  rw [List.append_nil] at hY
  have hline : RewriteBootstrapHtml (A ++ (attr ++ ("=\"".toList ++ (u.text ++ '"' :: q))))
      = A ++ (attr ++ ("=\"".toList ++ (u.localText ++ '"' :: Y))) := by
    unfold RewriteBootstrapHtml
    rw [rewriteFields_of_plain _ hplain, hY]
  rw [RewriteBootstrapHtml_whole P _ hP]
  cases B with
  | nil =>
    rw [List.append_nil, hline]
    exact ⟨Y, rfl⟩
  | cons c X =>
    have hc : c = '\n' := by simpa [lineEnd] using hB
    subst hc
    have hend : endsColon (A ++ (attr ++ ("=\"".toList ++ (u.text ++ '"' :: q)))) = false := by
      have e : A ++ (attr ++ ("=\"".toList ++ (u.text ++ '"' :: q)))
          = (A ++ (attr ++ ("=\"".toList ++ u.text))) ++ ('"' :: q) := by simp
      rw [e, endsColon_append _ _ (List.cons_ne_nil _ _)]
      by_cases h0 : q = []
      · subst h0; rfl
      · have e2 : '"' :: q = ['"'] ++ q := rfl
        rw [e2, endsColon_append _ _ h0]
        exact hcolon
    have e3 : A ++ (attr ++ ("=\"".toList ++ (u.text ++ '"' :: (q ++ '\n' :: X))))
        = (A ++ (attr ++ ("=\"".toList ++ (u.text ++ '"' :: q)))) ++ '\n' :: X := by simp
    rw [e3, RewriteBootstrapHtml_lines _ X hend, hline]
    exact ⟨Y ++ '\n' :: RewriteBootstrapHtml X, by simp⟩

/-! ## The bootstrap page and the manifest: the claims -/

/-- C7 as amended: on a page that has each of the six fields on a line of its
own, in the form the admin template writes them and with values free of
whitespace (`FieldPage.wellFormed`), the six substitutions replace each value
with the local one, once, and leave every other byte of the page as it is. -/
theorem rewriteFields_well_formed (p : FieldPage) (h : p.wellFormed = true) :
    rewriteFields p.render = p.localized.render :=
  rewriteFields_render p (p.wf_of_wellFormed h)

/-- C7 as amended, at the page of the shop `https://shop.example`. -/
theorem rewriteFields_well_formed_witness :
    shopPage.wellFormed = true ∧
    rewriteFields shopPage.render
      = ("<script>\n    apiContext: \x7b\n        host: 'localhost',\n        port: 8080,\n" ++
        "        scheme: 'http',\n        schemeAndHttpHost: 'http://localhost:8080',\n" ++
        "        uri: 'http://localhost:8080/admin',\n        basePath: '',\n" ++
        "        pathInfo: '/admin',\n        assetPath: 'http://localhost:8080'\n    \x7d,\n" ++
        "</script>\n").toList :=
  ⟨by decide, (rewriteFields_well_formed shopPage (by decide)).trans (by decide)⟩

/-- C2 as amended: when the page body has, after whole lines of which the last
does not end with a colon, a line with the field `host: 'shop.example',` at
its end and the field `port: 443,` on a later line, the text between them
being a separator (it starts with a newline, ends with whitespace, and no field
pattern or asset pattern can start a match in it), and the text of the host
line before the field being empty or ending with whitespace with no such start
of a match in it, then the rewritten body contains `host: 'localhost',`, the
separator and `port: 8080,`. -/
theorem rewrite_two_lines (P A sep post : Str) (hP : linesBefore P = true)
    (hA : quietText A = true) (hsep : quietText sep = true) (hline : beginsLine sep = true) :
    Contains
      (RewriteBootstrapHtml
        (P ++ (A ++ ("host: 'shop.example',".toList ++ (sep ++ ("port: 443,".toList ++ post))))))
      ("host: 'localhost',".toList ++ (sep ++ "port: 8080,".toList)) = true := by
  obtain ⟨Y, hY⟩ := rewrite_two_lines_aux A sep post hA hsep hline
  have e : RewriteBootstrapHtml
      (A ++ ("host: 'shop.example',".toList ++ (sep ++ ("port: 443,".toList ++ post))))
      = A ++ (("host: 'localhost',".toList ++ (sep ++ "port: 8080,".toList)) ++ Y) := by
    rw [List.append_assoc, List.append_assoc]
    exact hY
  rw [RewriteBootstrapHtml_whole P _ hP, e, ← List.append_assoc]
  exact contains_mid _ _ _

/-- C2 as amended, at a page of the shop `https://shop.example` whose head
links a style sheet by its absolute URL and whose script has the host field
and the port field on two lines. -/
theorem rewrite_two_lines_witness :
    linesBefore shopPageHead = true ∧ quietText "            ".toList = true ∧
    quietText "\n            ".toList = true ∧ beginsLine "\n            ".toList = true ∧
    Contains
      (RewriteBootstrapHtml (shopPageHead ++
        ("            host: 'shop.example',\n            port: 443,\n" ++
          "            scheme: 'https',\n        \x7d,\n    \x7d);\n</script>\n").toList))
      "host: 'localhost',\n            port: 8080,".toList = true :=
  ⟨by decide, by decide, by decide, by decide,
    rewrite_two_lines shopPageHead "            ".toList "\n            ".toList
      "\n            scheme: 'https',\n        \x7d,\n    \x7d);\n</script>\n".toList
      (by decide) (by decide) (by decide) (by decide)⟩

/-- The rewrite of the asset attribute at the page with the lines `<head>` and
`<script
src="https://shop.example:8443/bundles/administration/static/js/app.js?v=1#top"></script>`. -/
theorem rewrite_attribute_shop :
    ∃ Y, RewriteBootstrapHtml
        (("<head>\n<script src=\"https://shop.example:8443/bundles/administration/static/js/" ++
          "app.js?v=1#top\"></script>\n").toList)
      = ("<head>\n<script src=\"http://localhost:8080/bundles/administration/static/js/" ++
          "app.js?v=1#top\"").toList ++ Y :=
  (rewrite_attribute "<head>\n".toList "<script ".toList "src".toList
    "></script>".toList "\n".toList
    shopAssetUrl (by decide) (by decide) (by decide) (by decide) (by decide) (by decide)
    (by decide) (by decide) (by decide) (by decide)).imp (fun Y hY => by
      have e : ("<head>\n<script src=\"https://shop.example:8443/bundles/administration/static/js/" ++
          "app.js?v=1#top\"></script>\n").toList
          = "<head>\n".toList ++ ("<script ".toList ++ ("src".toList ++ ("=\"".toList ++
              (shopAssetUrl.text ++ '"' :: ("></script>".toList ++ "\n".toList))))) := by
        decide
      have e2 : RewriteBootstrapHtml "<head>\n".toList = "<head>\n".toList := by decide
      rw [e, hY, e2]
      rfl)

/-- C5 as amended: when the config branch writes a manifest for an upstream
body that gives no declared field twice, the manifest has exactly the members
`version`, `versionRevision`, `adminWorker`, `bundles` and `settings`, its
`adminWorker` exactly the members `enableAdminWorker` and `transports`, its
`settings` exactly the member `enableUrlFeature`, and each of the members
`version`, `versionRevision`, `adminWorker.enableAdminWorker`,
`adminWorker.transports` and `settings.enableUrlFeature` that the upstream body
has with a value that is not `null` (and, for the array, has no `null`
element) has the same value in the manifest. -/
theorem configHandler_declared_fields (compileResult : AssetCompileResult) (body out : Json)
    (hu : uniqueFields body = true)
    (h : (configHandler compileResult (some body)).manifest = some out) :
    out.keys = ["version".toList, "versionRevision".toList, "adminWorker".toList,
      "bundles".toList, "settings".toList] ∧
    (out.member "adminWorker".toList).map Json.keys
      = some ["enableAdminWorker".toList, "transports".toList] ∧
    (out.member "settings".toList).map Json.keys = some ["enableUrlFeature".toList] ∧
    ∀ path ∈ declaredFields, ∀ v, body.atPath path = some v → v.noNull = true →
      out.atPath path = some v := by
  obtain ⟨kvs, m, bundles, rfl, hfold, _, rfl⟩ := configHandler_manifest compileResult body out h
  exact ⟨rfl, rfl, rfl, declared_fields_aux kvs m _ hu hfold rfl rfl rfl rfl⟩

/-- C5 as amended, at the upstream response `manifestShop`: the manifest
written carries the upstream `version` and the upstream `transports`. -/
theorem configHandler_declared_fields_witness :
    uniqueFields manifestShop = true ∧
    (configHandler myExt (some manifestShop)).manifest = some manifestShopLocal ∧
    manifestShopLocal.atPath ["version".toList] = some (.str "6.5.0.0".toList) ∧
    manifestShopLocal.atPath ["adminWorker".toList, "transports".toList]
      = some (.arr [.str "async".toList, .str "low_priority".toList]) :=
  ⟨by decide, rfl,
    (configHandler_declared_fields myExt manifestShop manifestShopLocal (by decide) rfl).2.2.2
      _ (by decide) _ rfl rfl,
    (configHandler_declared_fields myExt manifestShop manifestShopLocal (by decide) rfl).2.2.2
      _ (by decide) _ rfl rfl⟩

end AdminWatch
